import Mathlib

/-!
# BCM: a BWT-based file compressor — verification development

Shallow embedding of `src/bcm.cpp` (range coder, adaptive counters, context
model, CRC-32, block pipeline with inverse BWT) and theorems about it.

Conventions of the embedding
* `U8`, `U16`, `U32` values are `Nat`s; every operation that can leave the
  width is followed by an explicit reduction (`toU16`, `toU32`, `% 2 ^ 32`).
* C `int`s that the source keeps non-negative (`ctx`, `c1`, `c2`, counts) are
  `Nat`s; where the source computes with possibly negative `int`s (`x2 - x1`,
  the `ptr` entries, the walk position `p`) the model uses `Int`.
* `int run` is an `Int` kept in 32 bits: `++run` is taken in two's complement,
  so that from `2^31 - 1` it goes to `-2^31`.
* `putc` to `out` is modelled by returning the bytes written, in order;
  `getc` from `in` consumes the head of the remaining input and records an
  attempt to read at end of file in the `eof` flag.
-/

namespace BCM

/-! ## Machine integers -/

/-- Conversion of a C `int` value to `unsigned short`. -/
def toU16 (x : Int) : Nat := (x % 65536).toNat

/-- Conversion of a C `int` value to `unsigned int`. -/
def toU32 (x : Int) : Nat := (x % 4294967296).toNat

/-- Conversion of an `unsigned int` value to `int` (two's complement). -/
def toInt32 (x : Nat) : Int :=
  if x % 4294967296 < 2147483648 then (x % 4294967296 : Nat) else (x % 4294967296 : Nat) - 4294967296

/-! ## Counter -/

namespace Counter

/-- Initial value: `p=1<<15`. -/
def init : Nat := 1 <<< 15

/-- Source: `p+=(p^0xFFFF)>>RATE;` on a `U16`. -/
def Update1 (RATE : Nat) (p : Nat) : Nat :=
  toU16 ((p : Int) + (((p ^^^ 0xFFFF) >>> RATE : Nat) : Int))

/-- Source: `p-=p>>RATE;` on a `U16`. -/
def Update0 (RATE : Nat) (p : Nat) : Nat :=
  toU16 ((p : Int) - ((p >>> RATE : Nat) : Int))

end Counter


/-! ## Byte I/O -/

/-- The input file `in`: the bytes not yet read, and the end-of-file
indicator, set by a read attempted when no byte is left. -/
structure Input where
  data : List Nat
  eof : Bool

/-- Source: `getc(in)`; the next byte, or `EOF` (-1) at end of file. -/
def getc (inp : Input) : Int × Input :=
  match inp.data with
  | [] => (-1, { data := [], eof := true })
  | b :: rest => ((b : Int), { data := rest, eof := inp.eof })

/-- Source: `putc(c, out)`; the byte written is `c` converted to `unsigned char`. -/
def putc (c : Nat) : Nat := c % 256

/-! ## Range coder (`struct Encoder`) -/

/-- Source: `struct Encoder { U32 low; U32 high; U32 code; }`. -/
structure Encoder where
  low : Nat
  high : Nat
  code : Nat

namespace Encoder

/-- Source: the constructor `Encoder()`. -/
def init : Encoder := { low := 0, high := 0xFFFFFFFF, code := 0 }

/-- Source: the loop of `Flush`, `putc(low>>24, out); low<<=8;`, run `k` times. -/
def flushLoop : Nat → Encoder → Encoder × List Nat
  | 0, e => (e, [])
  | k + 1, e =>
    let r := flushLoop k { e with low := (e.low <<< 8) % 2 ^ 32 }
    (r.1, putc (e.low >>> 24) :: r.2)

/-- Source: `Encoder::Flush`. -/
def Flush (e : Encoder) : Encoder × List Nat := flushLoop 4 e

/-- Source: the loop of `Init`, `code=(code<<8)|getc(in);`, run `k` times. -/
def initLoop : Nat → Encoder → Input → Encoder × Input
  | 0, e, inp => (e, inp)
  | k + 1, e, inp =>
    let g := getc inp
    initLoop k { e with code := ((e.code <<< 8) % 2 ^ 32) ||| toU32 g.1 } g.2

/-- Source: `Encoder::Init`. -/
def Init (e : Encoder) (inp : Input) : Encoder × Input := initLoop 4 e inp

/-- Source: `const U32 mid=low+((U64(high-low)*p)>>P_LOG);` (the difference is
taken in 32 bits, the product in 64 bits, the sum is truncated to 32 bits). -/
def mid (P_LOG p : Nat) (e : Encoder) : Nat :=
  (e.low + ((toU32 ((e.high : Int) - (e.low : Int)) * p) % 2 ^ 64) >>> P_LOG) % 2 ^ 32

/-- Source: `if (bit) high=mid; else low=mid+1;`. -/
def narrow (bit : Nat) (m : Nat) (e : Encoder) : Encoder :=
  if bit ≠ 0 then { e with high := m } else { e with low := (m + 1) % 2 ^ 32 }

/-- Source: the body of both renormalization loops, on `low` and `high`:
`low<<=8; high=(high<<8)|255;`. -/
def shift (e : Encoder) : Encoder :=
  { e with low := (e.low <<< 8) % 2 ^ 32, high := ((e.high <<< 8) % 2 ^ 32) ||| 255 }

/-- Source: `while ((low^high)<(1<<24)) { putc(low>>24, out); low<<=8;
high=(high<<8)|255; }` of `EncodeBit`, with at most `k` iterations. -/
def renormEnc : Nat → Encoder → Encoder × List Nat
  | 0, e => (e, [])
  | k + 1, e =>
    if (e.low ^^^ e.high) < 1 <<< 24 then
      let r := renormEnc k (shift e)
      (r.1, putc (e.low >>> 24) :: r.2)
    else (e, [])

/-- Source: `Encoder::EncodeBit<P_LOG>(bit, p)`. The loop is given four
iterations, after which its condition is false in every state
(`renormEnc_exit`). -/
def EncodeBit (P_LOG : Nat) (bit : Nat) (p : Nat) (e : Encoder) : Encoder × List Nat :=
  renormEnc 4 (narrow bit (mid P_LOG p e) e)

/-- Source: `while ((low^high)<(1<<24)) { low<<=8; high=(high<<8)|255;
code=(code<<8)|getc(in); }` of `DecodeBit`, with at most `k` iterations. -/
def renormDec : Nat → Encoder → Input → Encoder × Input
  | 0, e, inp => (e, inp)
  | k + 1, e, inp =>
    if (e.low ^^^ e.high) < 1 <<< 24 then
      let g := getc inp
      renormDec k { shift e with code := ((e.code <<< 8) % 2 ^ 32) ||| toU32 g.1 } g.2
    else (e, inp)

/-- Source: `Encoder::DecodeBit<P_LOG>(p)`; returns the bit, the new coder
state and the remaining input. The loop is given four iterations, after
which its condition is false in every state (`renormDec_exit`). -/
def DecodeBit (P_LOG : Nat) (p : Nat) (e : Encoder) (inp : Input) : Nat × Encoder × Input :=
  let m := mid P_LOG p e
  let bit := if e.code ≤ m then 1 else 0
  let r := renormDec 4 (narrow bit m e) inp
  (bit, r.1, r.2)

end Encoder


/-! ## Context model (`struct CM: Encoder`) -/

/-- Source: `struct CM: Encoder` with `Counter<2> counter0[256]`,
`Counter<4> counter1[256][256]`, `Counter<6> counter2[2][256][17]`, `run`,
`c1`, `c2`. A table is the map from its indices to the stored `p`. -/
structure CM where
  enc : Encoder
  counter0 : Nat → Nat
  counter1 : Nat → Nat → Nat
  counter2 : Nat → Nat → Nat → Nat
  run : Int
  c1 : Nat
  c2 : Nat

namespace CM

/-- Source: the constructor `CM()`; `counter2[i][j][k].p=(k<<12)-(k==16)`,
every other counter starts at `1<<15`. -/
def init : CM :=
  { enc := Encoder.init
    counter0 := fun _ => Counter.init
    counter1 := fun _ _ => Counter.init
    counter2 := fun _ _ k => toU16 (((k <<< 12 : Nat) : Int) - (if k = 16 then 1 else 0))
    run := 0
    c1 := 0
    c2 := 0 }

/-- Source: `for (U32 i=1<<31; i>0; i>>=1)`, the values taken by `i`. -/
def masks32 : List Nat := (List.range 32).map (fun k => (1 <<< 31) >>> k)

/-- Source: the loop of `Put32`, `EncodeBit<1>(x&i, 1);` for each `i`. -/
def put32Loop : List Nat → Nat → CM → CM × List Nat
  | [], _, m => (m, [])
  | i :: is, x, m =>
    let r := m.enc.EncodeBit 1 (x &&& i) 1
    let r2 := put32Loop is x { m with enc := r.1 }
    (r2.1, r.2 ++ r2.2)

/-- Source: `CM::Put32(U32 x)`. -/
def Put32 (x : Nat) (m : CM) : CM × List Nat := put32Loop masks32 x m

/-- Source: the loop of `Get32`, `x+=x+DecodeBit<1>(1);`, run `k` times. -/
def get32Loop : Nat → Nat → CM → Input → Nat × CM × Input
  | 0, x, m, inp => (x, m, inp)
  | k + 1, x, m, inp =>
    let r := m.enc.DecodeBit 1 1 inp
    get32Loop k ((x + (x + r.1)) % 2 ^ 32) { m with enc := r.2.1 } r.2.2

/-- Source: `CM::Get32()`. -/
def Get32 (m : CM) (inp : Input) : Nat × CM × Input := get32Loop 32 0 m inp

/-- Source: `const int f=(run>2);`. -/
def runFlag (m : CM) : Nat := if m.run > 2 then 1 else 0

/-- Source: `const int p=(((p0+p1)*7)+p2+p2)>>4;` with `p0=counter0[ctx].p`,
`p1=counter1[c1][ctx].p`, `p2=counter1[c2][ctx].p`. -/
def mixP (m : CM) (ctx : Nat) : Nat :=
  (((m.counter0 ctx + m.counter1 m.c1 ctx) * 7) + m.counter1 m.c2 ctx + m.counter1 m.c2 ctx) >>> 4

/-- Source: `const int j=p>>12;`. -/
def sseJ (m : CM) (ctx : Nat) : Nat := m.mixP ctx >>> 12

/-- Source: `const int ssep=x1+(((x2-x1)*(p&4095))>>12);` with
`x1=counter2[f][ctx][j].p`, `x2=counter2[f][ctx][j+1].p`; the shift of a
negative `int` is arithmetic. -/
def ssep (m : CM) (f ctx : Nat) : Int :=
  (m.counter2 f ctx (m.sseJ ctx) : Int) +
    ((((m.counter2 f ctx (m.sseJ ctx + 1) : Int) - (m.counter2 f ctx (m.sseJ ctx) : Int)) *
      ((m.mixP ctx &&& 4095 : Nat) : Int)) >>> (12 : Nat))

/-- Source: the argument `p+ssep+ssep+ssep` of `EncodeBit<18>` and
`DecodeBit<18>`, converted to `U32`. -/
def prob (m : CM) (f ctx : Nat) : Nat :=
  toU32 ((m.mixP ctx : Int) + m.ssep f ctx + m.ssep f ctx + m.ssep f ctx)

/-- Source: the four updates after a coded bit,
`counter0[ctx].UpdateB(); counter1[c1][ctx].UpdateB();
counter2[f][ctx][j].UpdateB(); counter2[f][ctx][j+1].UpdateB();`
with `UpdateB` being `Update1` for a 1 bit and `Update0` for a 0 bit. -/
def update (bit : Nat) (f ctx j : Nat) (m : CM) : CM :=
  let u := fun (r : Nat) (p : Nat) => if bit ≠ 0 then Counter.Update1 r p else Counter.Update0 r p
  let t0 := Function.update m.counter0 ctx (u 2 (m.counter0 ctx))
  let t1 := Function.update m.counter1 m.c1
    (Function.update (m.counter1 m.c1) ctx (u 4 (m.counter1 m.c1 ctx)))
  let row := m.counter2 f ctx
  let row1 := Function.update row j (u 6 (row j))
  let row2 := Function.update row1 (j + 1) (u 6 (row1 (j + 1)))
  let t2 := Function.update m.counter2 f (Function.update (m.counter2 f) ctx row2)
  { m with counter0 := t0, counter1 := t1, counter2 := t2 }

/-- Source: `c2=c1; c1=ctx-256; if (c1==c2) ++run; else run=0;` at the end of
`Put` and `Get`. `run` is an `int`, and the increment is taken in 32 bits. -/
def history (ctx : Nat) (m : CM) : CM :=
  { m with
    c2 := m.c1
    c1 := ctx - 256
    run := if ctx - 256 = m.c1 then toInt32 (toU32 (m.run + 1)) else 0 }

/-- Source: `for (int i=128; i>0; i>>=1)`, the values taken by `i`. -/
def masks8 : List Nat := (List.range 8).map (fun k => 128 >>> k)

/-- Source: the loop of `Put` over the masks `i`; returns the model, the
final `ctx` and the bytes written. -/
def putLoop : List Nat → Nat → Nat → Nat → CM → (CM × Nat) × List Nat
  | [], _, _, ctx, m => ((m, ctx), [])
  | i :: is, c, f, ctx, m =>
    let j := m.sseJ ctx
    let q := m.prob f ctx
    if c &&& i ≠ 0 then
      let r := m.enc.EncodeBit 18 1 q
      let r2 := putLoop is c f (ctx + (ctx + 1)) (update 1 f ctx j { m with enc := r.1 })
      (r2.1, r.2 ++ r2.2)
    else
      let r := m.enc.EncodeBit 18 0 q
      let r2 := putLoop is c f (ctx + ctx) (update 0 f ctx j { m with enc := r.1 })
      (r2.1, r.2 ++ r2.2)

/-- Source: `CM::Put(int c)`. -/
def Put (c : Nat) (m : CM) : CM × List Nat :=
  let r := putLoop masks8 c m.runFlag 1 m
  (history r.1.2 r.1.1, r.2)

/-- Source: `while (ctx<256) { ... }` of `Get`, with at most `k` iterations;
returns the model, the final `ctx` and the remaining input. -/
def getLoop : Nat → Nat → Nat → CM → Input → CM × Nat × Input
  | 0, _, ctx, m, inp => (m, ctx, inp)
  | k + 1, f, ctx, m, inp =>
    if ctx < 256 then
      let j := m.sseJ ctx
      let r := m.enc.DecodeBit 18 (m.prob f ctx) inp
      if r.1 ≠ 0 then
        getLoop k f (ctx + (ctx + 1)) (update 1 f ctx j { m with enc := r.2.1 }) r.2.2
      else
        getLoop k f (ctx + ctx) (update 0 f ctx j { m with enc := r.2.1 }) r.2.2
    else (m, ctx, inp)

/-- Source: `CM::Get()`; returns the byte `c1`, the model and the remaining
input. `ctx` starts at 1 and at least doubles, so the loop runs eight times
(`getLoop_exit`). -/
def Get (m : CM) (inp : Input) : Nat × CM × Input :=
  let r := getLoop 8 m.runFlag 1 m inp
  let m2 := history r.2.1 r.1
  (m2.c1, m2, r.2.2)

end CM


/-! ## CRC-32 (`struct CRC`) -/

namespace CRC

/-- Source: `x=(x>>1)^(0xEDB88320&-int(x&1));`. -/
def bitStep (x : Nat) : Nat :=
  (x >>> 1) ^^^ (0xEDB88320 &&& toU32 (-((x &&& 1 : Nat) : Int)))

/-- Source: `tab[0][i]`, eight `bitStep`s from `x=i`; `tab[k][i]` for
`k` from 1 to 7 is `(tab[k-1][i]>>8)^tab[0][tab[k-1][i]&255]`. -/
def tab : Nat → Nat → Nat
  | 0, i => bitStep^[8] i
  | k + 1, i => (tab k i >>> 8) ^^^ (bitStep^[8] (tab k i &&& 255))

/-- Source: the constructor sets `crc=0xFFFFFFFF`. -/
def init : Nat := 0xFFFFFFFF

/-- Source: `U32 operator()() const { return crc^0xFFFFFFFF; }`. -/
def value (crc : Nat) : Nat := crc ^^^ 0xFFFFFFFF

/-- A 32-bit load `*reinterpret_cast<const U32*>(s)` on a little-endian target. -/
def load32 (b0 b1 b2 b3 : Nat) : Nat :=
  b0 ||| (b1 <<< 8) ||| (b2 <<< 16) ||| (b3 <<< 24)

/-- Source: the body of `while (n>=8)`: `x^=` first word, `t=` second word,
then the eight table look-ups. -/
def step8 (x w0 t : Nat) : Nat :=
  let x := x ^^^ w0
  tab 0 (t >>> 24) ^^^ tab 1 ((t >>> 16) &&& 255) ^^^ tab 2 ((t >>> 8) &&& 255) ^^^ tab 3 (t &&& 255)
    ^^^ tab 4 (x >>> 24) ^^^ tab 5 ((x >>> 16) &&& 255) ^^^ tab 6 ((x >>> 8) &&& 255)
    ^^^ tab 7 (x &&& 255)

/-- Source: `while (n--) x=(x>>8)^tab[0][(x^*s++)&255];`. -/
def tail : List Nat → Nat → Nat
  | [], x => x
  | b :: s, x => tail s ((x >>> 8) ^^^ tab 0 ((x ^^^ b) &&& 255))

/-- Source: the two loops of `CRC::Update` on the running value `x`. -/
def loop : List Nat → Nat → Nat
  | b0 :: b1 :: b2 :: b3 :: b4 :: b5 :: b6 :: b7 :: s, x =>
    loop s (step8 x (load32 b0 b1 b2 b3) (load32 b4 b5 b6 b7))
  | s, x => tail s x

/-- Source: `CRC::Update(U8* s, int n)`, from the running value `crc` to the
new running value. -/
def Update (crc : Nat) (s : List Nat) : Nat := loop s crc

end CRC

/-! ## Standard CRC-32, bit by bit -/

namespace CRC32

/-- One bit of the reflected CRC-32: shift right, and XOR the polynomial
`0xEDB88320` in when the bit shifted out is 1. -/
def bit (x : Nat) : Nat :=
  if x % 2 = 1 then (x / 2) ^^^ 0xEDB88320 else x / 2

/-- One byte: XOR it into the low byte, then eight bit steps. -/
def byte (x b : Nat) : Nat := bit (bit (bit (bit (bit (bit (bit (bit (x ^^^ b))))))))

/-- The CRC-32 of a byte sequence: initial value `0xFFFFFFFF`, final XOR
`0xFFFFFFFF`. -/
def crc32 (s : List Nat) : Nat := (s.foldl byte 0xFFFFFFFF) ^^^ 0xFFFFFFFF

/-- Little-endian value of a byte sequence (used to relate the 32-bit loads
of `CRC::Update` to the bytes they cover). -/
def pack : List Nat → Nat
  | [] => 0
  | b :: s => b ^^^ (pack s <<< 8)

end CRC32

/-! ## Auxiliary notions for the coder proofs -/

/-- Big-endian value of the first four bytes of a stream: what `Init`, or the
decoder after any number of shifts, holds in `code`. -/
def code4 : List Nat → Nat
  | a :: b :: c :: d :: _ => ((a * 256 + b) * 256 + c) * 256 + d
  | _ => 0

/-- A byte stream long enough to fill `code`. -/
def IsStream (F : List Nat) : Prop := 4 ≤ F.length ∧ ∀ b ∈ F, b < 256

/-- The coder state with another `code` word. -/
def Encoder.withCode (e : Encoder) (c : Nat) : Encoder := { e with code := c }

/-- A coder interval before renormalization: `low ≤ high`, both 32-bit. -/
def Encoder.Ordered (e : Encoder) : Prop := e.low ≤ e.high ∧ e.high < 2 ^ 32

/-- A coder interval between two coded bits: ordered, and the top bytes of
`low` and `high` differ. -/
def Encoder.Inv (e : Encoder) : Prop := e.Ordered ∧ 2 ^ 24 ≤ e.low ^^^ e.high

/-- The decoder looking at stream `F`: `code` holds its first four bytes and
the input is what follows them. -/
def Encoder.view (e : Encoder) (F : List Nat) (ef : Bool) : Encoder × Input :=
  (e.withCode (code4 F), { data := F.drop 4, eof := ef })

/-- The stream `F` denotes a number inside the coder interval. -/
def Encoder.Covers (e : Encoder) (F : List Nat) : Prop :=
  IsStream F ∧ e.low ≤ code4 F ∧ code4 F ≤ e.high

/-! ## Coding sequences (drivers for the round-trip statements) -/

/-- `EncodeBit<18>(b, q)` for each pair `(b, q)` of the list, in order. -/
def Encoder.encodeBits : List (Nat × Nat) → Encoder → Encoder × List Nat
  | [], e => (e, [])
  | x :: rest, e =>
    let r := e.EncodeBit 18 x.1 x.2
    let r2 := encodeBits rest r.1
    (r2.1, r.2 ++ r2.2)

/-- `DecodeBit<18>(q)` for each `q` of the list, in order; the decoded bits. -/
def Encoder.decodeBits : List Nat → Encoder → Input → List Nat × Encoder × Input
  | [], e, inp => ([], e, inp)
  | q :: rest, e, inp =>
    let r := e.DecodeBit 18 q inp
    let r2 := decodeBits rest r.2.1 r.2.2
    (r.1 :: r2.1, r2.2.1, r2.2.2)

/-- The bytes written by coding the pairs `(bit, q)` from the initial coder
state and then calling `Flush`. -/
def Encoder.encodeStream (bs : List (Nat × Nat)) : List Nat :=
  (Encoder.encodeBits bs Encoder.init).2 ++ (Encoder.Flush (Encoder.encodeBits bs Encoder.init).1).2

/-- `Init` on the given bytes, then `DecodeBit<18>(q)` for each `q`. -/
def Encoder.decodeStream (qs : List Nat) (stream : List Nat) : List Nat × Encoder × Input :=
  Encoder.decodeBits qs (Encoder.Init Encoder.init { data := stream, eof := false }).1
    (Encoder.Init Encoder.init { data := stream, eof := false }).2

/-- A value handed to the model: `Put32(x)` or `Put(c)`. -/
inductive Item where
  | word (x : Nat)
  | byte (c : Nat)
  deriving DecidableEq, Repr

/-- A decoder call: `Get32()` or `Get()`. -/
inductive Call where
  | get32
  | get
  deriving DecidableEq, Repr

/-- The decoder call that reads an item back. -/
def Item.call : Item → Call
  | .word _ => .get32
  | .byte _ => .get

namespace CM

/-- The model with another `code` word in its coder. -/
def withCode (m : CM) (c : Nat) : CM := { m with enc := m.enc.withCode c }

/-- Every counter is a 16-bit value. -/
def Bounded (m : CM) : Prop :=
  (∀ i, m.counter0 i ≤ 0xFFFF) ∧ (∀ a i, m.counter1 a i ≤ 0xFFFF)
    ∧ (∀ f i j, m.counter2 f i j ≤ 0xFFFF)

/-- `Put32(x)` or `Put(c)`. -/
def encodeItem (it : Item) (m : CM) : CM × List Nat :=
  match it with
  | .word x => m.Put32 x
  | .byte c => m.Put c

/-- The items coded in order; the bytes written. -/
def encodeItems : List Item → CM → CM × List Nat
  | [], m => (m, [])
  | it :: rest, m =>
    let r := encodeItem it m
    let r2 := encodeItems rest r.1
    (r2.1, r.2 ++ r2.2)

/-- `Get32()` or `Get()`, returning the item read. -/
def decodeCall (c : Call) (m : CM) (inp : Input) : Item × CM × Input :=
  match c with
  | .get32 => let r := m.Get32 inp; (.word r.1, r.2.1, r.2.2)
  | .get => let r := m.Get inp; (.byte r.1, r.2.1, r.2.2)

/-- The calls made in order; the items read. -/
def decodeCalls : List Call → CM → Input → List Item × CM × Input
  | [], m, inp => ([], m, inp)
  | c :: rest, m, inp =>
    let r := decodeCall c m inp
    let r2 := decodeCalls rest r.2.1 r.2.2
    (r.1 :: r2.1, r2.2.1, r2.2.2)

/-- The bytes written by coding the items from the initial model and coder
state and then calling `Flush`. -/
def encodeStream (items : List Item) : List Nat :=
  (encodeItems items CM.init).2 ++ (Encoder.Flush (encodeItems items CM.init).1.enc).2

/-- The initial model after `Init` on the given bytes. -/
def start (stream : List Nat) : CM × Input :=
  ({ CM.init with enc := (Encoder.Init CM.init.enc { data := stream, eof := false }).1 },
    (Encoder.Init CM.init.enc { data := stream, eof := false }).2)

/-- `Init` on the given bytes, then the calls in order. -/
def decodeStream (calls : List Call) (stream : List Nat) : List Item × CM × Input :=
  decodeCalls calls (start stream).1 (start stream).2

end CM

/-- The masks `2^(r-1), ..., 2, 1` of a loop over `r` bits, most significant first. -/
def bitMasks : Nat → List Nat
  | 0 => []
  | r + 1 => 2 ^ r :: bitMasks r

/-! ## Block pipeline (`Compress`, `Decompress`) -/

/-- The ways a run ends other than by returning. -/
inductive Failure where
  /-- Source: `perror("Libsais_bwt() failed"); exit(1);`. -/
  | libsais
  /-- Source: `fprintf(stderr, "Corrupt input!\n"); exit(1);`. -/
  | corrupt
  /-- Source: `fprintf(stderr, "CRC error!\n"); exit(1);`. -/
  | crc
  /-- A read outside the allocated `ptr` array (undefined in the source). -/
  | bounds
  /-- The iteration bound given to the model was reached. -/
  | unfinished
  deriving DecidableEq, Repr

/-- Source: `for (int i=0; i<n; ++i) cm.Put(buf[i]);`. -/
def putBytes : List Nat → CM → CM × List Nat
  | [], m => (m, [])
  | c :: s, m =>
    let r := m.Put c
    let r2 := putBytes s r.1
    (r2.1, r.2 ++ r2.2)

/-- Source: the body of the loop of `Compress` for a block `buf` of `n > 0`
bytes, after `crc.Update(buf, n)`: `libsais_bwt(buf, buf, ptr, n, 0)`, the test
`idx<1`, `cm.Put32(n); cm.Put32(idx);` and `cm.Put(buf[i])` for each byte.
`bwt` is the external primitive: it returns the transformed block, which
replaces `buf`, and the primary index. `none` stands for
`Libsais_bwt() failed`. -/
def compressBlock (bwt : List Nat → List Nat × Int) (buf : List Nat) (cm : CM) :
    Option (CM × List Nat) :=
  if (bwt buf).2 < 1 then none
  else
    some ((putBytes (bwt buf).1 ((cm.Put32 (toU32 (buf.length : Int))).1.Put32 (toU32 (bwt buf).2)).1).1,
      (cm.Put32 (toU32 (buf.length : Int))).2
        ++ ((cm.Put32 (toU32 (buf.length : Int))).1.Put32 (toU32 (bwt buf).2)).2
        ++ (putBytes (bwt buf).1
            ((cm.Put32 (toU32 (buf.length : Int))).1.Put32 (toU32 (bwt buf).2)).1).2)

/-- Source: one turn of `while ((n=fread(buf, 1, bsize, in))>0) { ... }` in
`Compress`; `next` stands for the remaining turns. The result is the model,
the running CRC and the bytes written. -/
def compressStep (bwt : List Nat → List Nat × Int) (bsize : Nat)
    (next : List Nat → CM → Nat → Except Failure (CM × Nat × List Nat))
    (inp : List Nat) (cm : CM) (crc : Nat) : Except Failure (CM × Nat × List Nat) :=
  if (inp.take bsize).length > 0 then
    match compressBlock bwt (inp.take bsize) cm with
    | none => .error .libsais
    | some r =>
      match next (inp.drop bsize) r.1 (CRC.Update crc (inp.take bsize)) with
      | .error f => .error f
      | .ok t => .ok (t.1, t.2.1, r.2 ++ t.2.2)
  else .ok (cm, crc, [])

/-- Source: the loop `while ((n=fread(buf, 1, bsize, in))>0) { ... }` of
`Compress`, with at most `k` calls of `fread`. -/
def compressLoop (bwt : List Nat → List Nat × Int) (bsize : Nat) :
    Nat → List Nat → CM → Nat → Except Failure (CM × Nat × List Nat)
  | 0 => fun _ _ _ => .error .unfinished
  | k + 1 => compressStep bwt bsize (compressLoop bwt bsize k)

/-- Source: `Compress(int bsize)` on the input file `S`; the bytes written
after the magic. The loop is given `flen + 1` calls of `fread`, one more
than it can make. -/
def Compress (bwt : List Nat → List Nat × Int) (bsize : Nat) (S : List Nat) :
    Except Failure (List Nat) :=
  let flen := S.length
  let bsize := if bsize > flen then flen else bsize
  match compressLoop bwt bsize (flen + 1) S CM.init CRC.init with
  | .error f => .error f
  | .ok r =>
    let r1 := r.1.Put32 0
    let r2 := r1.1.Put32 (CRC.value r.2.1)
    let r3 := r2.1.enc.Flush
    .ok (r.2.2 ++ r1.2 ++ r2.2 ++ r3.2)

/-- Source: `for (int i=0; i<n; ++i) ... buf[i]=cm.Get() ...`, the `n` bytes
read into `buf`. -/
def getBytes : Nat → CM → Input → List Nat × CM × Input
  | 0, m, inp => ([], m, inp)
  | k + 1, m, inp =>
    let r := m.Get inp
    let r2 := getBytes k r.2.1 r.2.2
    (r.1 :: r2.1, r2.2.1, r2.2.2)

/-- Source: `++cnt[buf[i]+1]` for each byte of the block. -/
def countBytes : List Nat → (Nat → Nat) → (Nat → Nat)
  | [], cnt => cnt
  | b :: s, cnt => countBytes s (Function.update cnt (b + 1) (cnt (b + 1) + 1))

/-- Source: `for (int i=1; i<256; ++i) cnt[i]+=cnt[i-1];`, from index `i`
for `k` iterations. -/
def cumulate : Nat → Nat → (Nat → Nat) → (Nat → Nat)
  | 0, _, cnt => cnt
  | k + 1, i, cnt => cumulate k (i + 1) (Function.update cnt i (cnt i + cnt (i - 1)))

/-- Source: `for (int i=0; i<n; ++i) ptr[cnt[buf[i]]++]=i-(i<idx);`, from
position `i`. -/
def buildPtr : List Nat → Int → Nat → (Nat → Nat) → (Int → Int) → (Nat → Nat) × (Int → Int)
  | [], _, _, cnt, ptr => (cnt, ptr)
  | b :: s, idx, i, cnt, ptr =>
    buildPtr s idx (i + 1) (Function.update cnt b (cnt b + 1))
      (Function.update ptr (cnt b : Int) ((i : Int) - (if (i : Int) < idx then 1 else 0)))

/-- Source: `for(int j=0; j<8; ++j) { if (cnt[c+half]<=p) c+=half+1; half>>=1; }`,
with `k` iterations left. -/
def searchLoop : Nat → (Nat → Nat) → Int → Nat → Nat → Nat
  | 0, _, _, c, _ => c
  | k + 1, cnt, p, c, half =>
    searchLoop k cnt p (if (cnt (c + half) : Int) ≤ p then c + (half + 1) else c) (half >>> 1)

/-- Source: `int c=0; int half=127;` followed by the eight search steps. -/
def search (cnt : Nat → Nat) (p : Int) : Nat := searchLoop 8 cnt p 0 127

/-- Source: `for (int i=0; i<n; ++i) { ...; buf[i]=c; p=ptr[p]; }`, with `k`
bytes left to write. A read of `ptr[p]` outside the `bsize` allocated entries
has no defined result. -/
def walk (cnt : Nat → Nat) (ptr : Int → Int) (bsize : Int) : Nat → Int → Option (List Nat)
  | 0, _ => some []
  | k + 1, p =>
    if 0 ≤ p ∧ p < bsize then (walk cnt ptr bsize k (ptr p)).map (fun t => search cnt p :: t)
    else none

/-- Source: the inverse BW-transform of `Decompress` on the `n` bytes `L`
read into `buf`: the counts, their running sums, the `ptr` array and the
walk from `p=idx-1`. Returns the block written back into `buf` and the new
contents of `ptr`. -/
def inverseBWT (L : List Nat) (idx : Int) (ptr : Int → Int) (bsize : Int) :
    Option (List Nat × (Int → Int)) :=
  let cnt := cumulate 255 1 (countBytes L (fun _ => 0))
  let t := buildPtr L idx 0 cnt ptr
  (walk t.1 t.2 bsize L.length (idx - 1)).map (fun block => (block, t.2))

/-- What a run of `Decompress` leaves: the bytes written to `out`, and how it
ended (`none`: it returned). -/
structure DecompressResult where
  out : List Nat
  failure : Option Failure
  deriving DecidableEq, Repr

/-- How `Decompress` treats a block header. -/
inductive Header where
  /-- The loop ends and the CRC is checked. -/
  | stop
  /-- `Corrupt input!`. -/
  | corrupt
  /-- The block is decoded with these `n`, `idx` and allocated size. -/
  | block (n : Int) (idx : Int) (bsize : Int)
  deriving DecidableEq, Repr

/-- Source: the tests made on a block header in `Decompress`:
`(n=cm.Get32())>0`, `if (!bsize) bsize=n;`, `const int idx=cm.Get32();`,
`if (n>bsize || idx<1 || idx>n)`. `n32` and `idx32` are the values returned
by `Get32` (`idx32` is read only when the loop continues), `bsize` the
allocated size, 0 before the first block. -/
def classify (n32 idx32 : Nat) (bsize : Int) : Header :=
  let n := toInt32 n32
  if n > 0 then
    let bsize := if bsize = 0 then n else bsize
    let idx := toInt32 idx32
    if n > bsize ∨ idx < 1 ∨ idx > n then .corrupt else .block n idx bsize
  else .stop

/-- Source: the body of the loop of `Decompress` for an accepted header:
the `n` bytes read with `cm.Get()` and the inverse BW-transform. Returns the
block written, the new `ptr` contents, the model and the remaining input. -/
def decompressBlock (n idx bsize : Int) (cm : CM) (inp : Input) (ptr : Int → Int) :
    Option (List Nat × (Int → Int) × CM × Input) :=
  (inverseBWT (getBytes n.toNat cm inp).1 idx ptr bsize).map
    (fun t => (t.1, t.2, (getBytes n.toNat cm inp).2.1, (getBytes n.toNat cm inp).2.2))

/-- Source: one turn of `while ((n=cm.Get32())>0) { ... }` in `Decompress`,
or the CRC check that follows the loop; `next` stands for the remaining
turns. On both paths the call that follows `n=cm.Get32()` is again
`cm.Get32()`: it reads `idx` inside the loop and the stored CRC after it.
`ptr` is the content of the `ptr` array, `bsize` the allocated size. -/
def decompressStep (next : CM → Input → Nat → Int → (Int → Int) → DecompressResult)
    (cm : CM) (inp : Input) (crc : Nat) (bsize : Int) (ptr : Int → Int) : DecompressResult :=
  match classify (cm.Get32 inp).1 ((cm.Get32 inp).2.1.Get32 (cm.Get32 inp).2.2).1 bsize with
  | .stop =>
    if ((cm.Get32 inp).2.1.Get32 (cm.Get32 inp).2.2).1 ≠ CRC.value crc then
      { out := [], failure := some .crc }
    else { out := [], failure := none }
  | .corrupt => { out := [], failure := some .corrupt }
  | .block n idx bsize1 =>
    match decompressBlock n idx bsize1 ((cm.Get32 inp).2.1.Get32 (cm.Get32 inp).2.2).2.1
        ((cm.Get32 inp).2.1.Get32 (cm.Get32 inp).2.2).2.2 ptr with
    | none => { out := [], failure := some .bounds }
    | some t =>
      { out := t.1 ++ (next t.2.2.1 t.2.2.2 (CRC.Update crc t.1) bsize1 t.2.1).out,
        failure := (next t.2.2.1 t.2.2.2 (CRC.Update crc t.1) bsize1 t.2.1).failure }

/-- Source: the loop `while ((n=cm.Get32())>0) { ... }` of `Decompress`
followed by the CRC check, with at most `k` block headers read. -/
def decompressLoop : Nat → CM → Input → Nat → Int → (Int → Int) → DecompressResult
  | 0 => fun _ _ _ _ _ => { out := [], failure := some .unfinished }
  | k + 1 => decompressStep (decompressLoop k)

/-- Source: `Decompress()` on the bytes that follow the magic, with at most
`fuel` block headers read. -/
def Decompress (fuel : Nat) (stream : List Nat) : DecompressResult :=
  decompressLoop fuel (CM.start stream).1 (CM.start stream).2 CRC.init 0 (fun _ => 0)

/-- The reading of `Put32` in the specification: the 32 bits of `x`, most
significant first (`r` bits left), each coded with `EncodeBit<1>(bit, 1)`. -/
def put32Spec : Nat → Nat → CM → CM × List Nat
  | 0, _, m => (m, [])
  | r + 1, x, m =>
    let r1 := m.enc.EncodeBit 1 (x / 2 ^ r % 2) 1
    let r2 := put32Spec r x { m with enc := r1.1 }
    (r2.1, r1.2 ++ r2.2)

/-- A 32-bit word or a byte. -/
def Item.Valid : Item → Prop
  | .word x => x < 2 ^ 32
  | .byte c => c < 256

/-! ## Forward BWT (external primitive `libsais_bwt`) -/

/-- Modelled from the spec: the lexicographic order on byte sequences in which
the suffixes of a block are sorted (`libsais_bwt` is an external library, not
part of the sources). A proper initial segment precedes its extensions. -/
def lexLt : List Nat → List Nat → Bool
  | _, [] => false
  | [], _ :: _ => true
  | a :: x, b :: y => decide (a < b) || (decide (a = b) && lexLt x y)

/-- Suffix `a` of the block `B` precedes suffix `b`. -/
def sufLt (B : List Nat) (a b : Nat) : Prop := lexLt (B.drop a) (B.drop b) = true

instance (B : List Nat) (a b : Nat) : Decidable (sufLt B a b) := by
  unfold sufLt
  exact inferInstance

/-- Modelled from the spec: the contract of the external forward BWT
`libsais_bwt(buf, buf, ptr, n, 0)` on a block `B` of `n ≥ 1` bytes. With `sa`
the start positions `0 .. n-1` of the suffixes of `B` in lexicographic
order, the output `L` is the last byte of `B` followed by, for each suffix in
that order except the suffix `B` itself, the byte that precedes it; the
returned index is the 1-based rank of `B` among the suffixes. -/
def IsBWT (B L : List Nat) (idx : Int) : Prop :=
  ∃ sa : List Nat, sa.Perm (List.range B.length) ∧ sa.Pairwise (sufLt B)
    ∧ L = B.getD (B.length - 1) 0 :: ((sa.filter (fun s => s ≠ 0)).map (fun s => B.getD (s - 1) 0))
    ∧ idx = ((sa.indexOf 0 : Nat) : Int) + 1

/-- Modelled from the spec: a forward BWT computed by sorting the suffix
positions (insertion sort), satisfying the contract `IsBWT`. -/
def bwtSort (B : List Nat) : List Nat × Int :=
  let sa := (List.range B.length).insertionSort (fun a b => ¬ sufLt B b a)
  (B.getD (B.length - 1) 0 :: ((sa.filter (fun s => s ≠ 0)).map (fun s => B.getD (s - 1) 0)),
    ((sa.indexOf 0 : Nat) : Int) + 1)

/-- Number of suffixes of `B`, among those starting at `0 .. n-1`, that precede
suffix `s`: the 0-based rank of suffix `s`. -/
def rk (B : List Nat) (s : Nat) : Nat :=
  (List.range B.length).countP (fun u => decide (sufLt B u s))

/-- The start positions `1 .. n` of the suffixes of `B` that have a preceding
byte (the empty suffix at `n` included), in lexicographic order, given the
sorted positions `sa` of the suffixes `0 .. n-1`: position `i` of the
transformed block holds the byte before suffix `succList B sa [i]`. -/
def succList (B : List Nat) (sa : List Nat) : List Nat :=
  (B.length :: sa).filter (fun s => s ≠ 0)

/-! ## Reachable model states -/

/-- The model states between two calls of a run: the initial model, with the
coder as constructed or after `Init`, and the states left by `Put32`,
`Get32`, `Put` and `Get`. -/
inductive CM.Reachable : CM → Prop
  | init : CM.Reachable CM.init
  | start (stream : List Nat) : CM.Reachable (CM.start stream).1
  | put32 (x : Nat) (m : CM) : CM.Reachable m → CM.Reachable (m.Put32 x).1
  | get32 (m : CM) (inp : Input) : CM.Reachable m → CM.Reachable (m.Get32 inp).2.1
  | put (c : Nat) (m : CM) : CM.Reachable m → CM.Reachable (m.Put c).1
  | get (m : CM) (inp : Input) : CM.Reachable m → CM.Reachable (m.Get inp).2.1

/-- Counter ranges kept by every update: all counters are 16-bit values, and
the `counter1` entries, which start at `1<<15` and lose a sixteenth at a
time, stay at 15 or more. -/
def CM.Good (m : CM) : Prop := m.Bounded ∧ ∀ a i, 15 ≤ m.counter1 a i

/-- The ranges of one per-bit computation of `Put` and `Get`, made in state
`s` with run flag `f` and bit context `ctx`: the weighted sum
`(p0 + p1) * 7 + 2 * p2`, the mixed probability `p` it gives, the bucket
`j = p >> 12`, the interpolated `ssep` against the table entries `x1`, `x2`,
and the probability `q = p + 3 * ssep` handed to the coder. -/
def CM.BitRanges (s : CM) (f ctx : Nat) : Prop :=
    (s.counter0 ctx + s.counter1 s.c1 ctx) * 7 + 2 * s.counter1 s.c2 ctx < 2 ^ 20
    ∧ s.mixP ctx = ((s.counter0 ctx + s.counter1 s.c1 ctx) * 7 + 2 * s.counter1 s.c2 ctx) / 16
    ∧ s.mixP ctx ≤ 0xFFFF
    ∧ s.sseJ ctx = s.mixP ctx / 4096
    ∧ s.sseJ ctx ≤ 15
    ∧ min (s.counter2 f ctx (s.sseJ ctx) : Int) (s.counter2 f ctx (s.sseJ ctx + 1) : Int)
        ≤ s.ssep f ctx
    ∧ s.ssep f ctx
        ≤ max (s.counter2 f ctx (s.sseJ ctx) : Int) (s.counter2 f ctx (s.sseJ ctx + 1) : Int)
    ∧ 0 ≤ s.ssep f ctx ∧ s.ssep f ctx ≤ 0xFFFF
    ∧ (s.prob f ctx : Int) = (s.mixP ctx : Int) + 3 * s.ssep f ctx
    ∧ 0 < s.prob f ctx ∧ s.prob f ctx < 2 ^ 18

/-- Source: `if (bsize>flen) bsize=int(flen);` in `Compress`: the block size
with which `buf` and `ptr` are allocated and each `fread` is bounded, from
the requested `bsize` and the input length `flen`. -/
def effectiveBsize (bsize flen : Nat) : Nat := if bsize > flen then flen else bsize

/-- Source: `UpdateB()` of a `Counter<RATE>` for the coded bit: `Update1` for
a 1 bit, `Update0` for a 0 bit. -/
def Counter.Update (bit RATE p : Nat) : Nat :=
  if bit ≠ 0 then Counter.Update1 RATE p else Counter.Update0 RATE p

/-- The counters of `s` are those of `m` after `r` coded bits that led to the
bit context `F`, with run flag `f`. The bit contexts visited are `F / 2^t` for
`t = r, ..., 1`, and the bit coded at `F / 2^t` is the next bit of `F`,
`F / 2^(t-1) % 2`. At each visited context `ctx` the four counters
`counter0[ctx]`, `counter1[c1][ctx]`, `counter2[f][ctx][j]` and
`counter2[f][ctx][j+1]` (with `j` the bucket computed in `m`) are updated once
with that bit; every other counter is as in `m`. -/
def CM.BitsEffect (m : CM) (f r F : Nat) (s : CM) : Prop :=
  (∀ t, 1 ≤ t → t ≤ r →
      s.counter0 (F / 2 ^ t) = Counter.Update (F / 2 ^ (t - 1) % 2) 2 (m.counter0 (F / 2 ^ t)))
  ∧ (∀ i, (∀ t, 1 ≤ t → t ≤ r → i ≠ F / 2 ^ t) → s.counter0 i = m.counter0 i)
  ∧ (∀ t, 1 ≤ t → t ≤ r →
      s.counter1 m.c1 (F / 2 ^ t)
        = Counter.Update (F / 2 ^ (t - 1) % 2) 4 (m.counter1 m.c1 (F / 2 ^ t)))
  ∧ (∀ a i, (a ≠ m.c1 ∨ ∀ t, 1 ≤ t → t ≤ r → i ≠ F / 2 ^ t) → s.counter1 a i = m.counter1 a i)
  ∧ (∀ t, 1 ≤ t → t ≤ r → ∀ x, (x = m.sseJ (F / 2 ^ t) ∨ x = m.sseJ (F / 2 ^ t) + 1) →
      s.counter2 f (F / 2 ^ t) x
        = Counter.Update (F / 2 ^ (t - 1) % 2) 6 (m.counter2 f (F / 2 ^ t) x))
  ∧ (∀ g i x, (g ≠ f ∨ (∀ t, 1 ≤ t → t ≤ r → i ≠ F / 2 ^ t)
        ∨ (x ≠ m.sseJ i ∧ x ≠ m.sseJ i + 1)) →
      s.counter2 g i x = m.counter2 g i x)

/-- The state `s` in the loop of `Put` or `Get` started in `m`, after `r`
bits that led to the bit context `F`: `F` has `r` bits below its leading 1,
the history is untouched, and the counters are as `BitsEffect` says. -/
def CM.BitsInv (m : CM) (f r F : Nat) (s : CM) : Prop :=
  2 ^ r ≤ F ∧ F < 2 ^ (r + 1) ∧ s.c1 = m.c1 ∧ s.c2 = m.c2 ∧ m.BitsEffect f r F s

/-! ## The blocks of a run of `Compress` -/

/-- Source: the blocks read by `while ((n=fread(buf, 1, bsize, in))>0)` in
`Compress`, with at most `k` calls of `fread`: each call takes the next
`bsize` bytes of the input, or what is left of it, and the loop ends at the
first call that reads nothing. -/
def readBlocks (bsize : Nat) : Nat → List Nat → List (List Nat)
  | 0, _ => []
  | k + 1, inp =>
    if (inp.take bsize).length > 0 then inp.take bsize :: readBlocks bsize k (inp.drop bsize)
    else []

/-- What `Compress` hands to the model for one block `B`: `Put32(n)`,
`Put32(idx)` and `Put` of each byte of the transformed block. -/
def blockItems (bwt : List Nat → List Nat × Int) (B : List Nat) : List Item :=
  Item.word (toU32 (B.length : Int)) :: Item.word (toU32 (bwt B).2) :: (bwt B).1.map Item.byte

/-! ## Theorems -/

/-! ### Counter -/

theorem xor_0xFFFF (p : Nat) (h : p ≤ 0xFFFF) : p ^^^ 0xFFFF = 0xFFFF - p := by
  apply Nat.eq_of_testBit_eq
  intro i
  have h1 : (0xFFFF : Nat) = 2 ^ 16 - 1 := by norm_num
  have h2 : (0xFFFF : Nat) - p = 2 ^ 16 - (p + 1) := by omega
  have hp : p < 2 ^ 16 := by omega
  rw [Nat.testBit_xor, h2, Nat.testBit_two_pow_sub_succ hp, h1, Nat.testBit_two_pow_sub_one]
  by_cases hi : i < 16
  · simp [hi]
  · have : p.testBit i = false := by
      apply Nat.testBit_lt_two_pow
      calc p < 2 ^ 16 := hp
        _ ≤ 2 ^ i := Nat.pow_le_pow_right (by norm_num) (by omega)
    simp [hi, this]

theorem toU16_of_lt (x : Nat) (h : x < 65536) : toU16 (x : Int) = x := by
  unfold toU16
  omega

theorem Counter.Update1_eq (r p : Nat) (h : p ≤ 0xFFFF) :
    Counter.Update1 r p = p + (0xFFFF - p) / 2 ^ r := by
  unfold Counter.Update1
  rw [xor_0xFFFF p h, Nat.shiftRight_eq_div_pow]
  have hd : (0xFFFF - p) / 2 ^ r ≤ 0xFFFF - p := Nat.div_le_self _ _
  have : ((p : Int) + (((0xFFFF - p) / 2 ^ r : Nat) : Int)) = ((p + (0xFFFF - p) / 2 ^ r : Nat) : Int) := by
    push_cast; rfl
  rw [this, toU16_of_lt]
  omega

theorem Counter.Update0_eq (r p : Nat) (h : p ≤ 0xFFFF) :
    Counter.Update0 r p = p - p / 2 ^ r := by
  unfold Counter.Update0
  rw [Nat.shiftRight_eq_div_pow]
  have hd : p / 2 ^ r ≤ p := Nat.div_le_self _ _
  generalize p / 2 ^ r = d at hd ⊢
  have : ((p : Int) - (d : Int)) = ((p - d : Nat) : Int) := by
    omega
  rw [this, toU16_of_lt]
  omega

theorem Counter.Update1_le (r p : Nat) (h : p ≤ 0xFFFF) : Counter.Update1 r p ≤ 0xFFFF := by
  rw [Counter.Update1_eq r p h]
  have hd : (0xFFFF - p) / 2 ^ r ≤ 0xFFFF - p := Nat.div_le_self _ _
  omega

theorem Counter.Update0_le (r p : Nat) (h : p ≤ 0xFFFF) : Counter.Update0 r p ≤ 0xFFFF := by
  rw [Counter.Update0_eq r p h]
  exact le_trans (Nat.sub_le _ _) h

/-- C6: for every rate (in particular 2, 4 and 6) and every 16-bit `p`, `Update1` and
`Update0` store the exact integer `p + ((p XOR 0xFFFF) >> r)`, resp.
`p - (p >> r)` (no 16-bit wrap-around), the result stays in `[0, 0xFFFF]`,
`Update1` does not decrease `p` and `Update0` does not increase it. -/
theorem C6_counter_update_range (r p : Nat) (hp : p ≤ 0xFFFF) :
    ((Counter.Update1 r p : Nat) : Int) = (p : Int) + (((p ^^^ 0xFFFF) >>> r : Nat) : Int)
    ∧ ((Counter.Update0 r p : Nat) : Int) = (p : Int) - ((p >>> r : Nat) : Int)
    ∧ Counter.Update1 r p ≤ 0xFFFF ∧ Counter.Update0 r p ≤ 0xFFFF
    ∧ p ≤ Counter.Update1 r p ∧ Counter.Update0 r p ≤ p := by
  have h1 := Counter.Update1_eq r p hp
  have h0 := Counter.Update0_eq r p hp
  have hx := xor_0xFFFF p hp
  have hd : (0xFFFF - p) / 2 ^ r ≤ 0xFFFF - p := Nat.div_le_self _ _
  have hd0 : p / 2 ^ r ≤ p := Nat.div_le_self _ _
  rw [h1, h0, hx, Nat.shiftRight_eq_div_pow, Nat.shiftRight_eq_div_pow]
  generalize (0xFFFF - p) / 2 ^ r = d1 at hd ⊢
  generalize p / 2 ^ r = d0 at hd0 ⊢
  omega

theorem C6_counter_update_range_witness :
    40000 ≤ 0xFFFF ∧
    (((Counter.Update1 2 40000 : Nat) : Int) = (40000 : Int) + (((40000 ^^^ 0xFFFF) >>> 2 : Nat) : Int)
    ∧ ((Counter.Update0 2 40000 : Nat) : Int) = (40000 : Int) - ((40000 >>> 2 : Nat) : Int)
    ∧ Counter.Update1 2 40000 ≤ 0xFFFF ∧ Counter.Update0 2 40000 ≤ 0xFFFF
    ∧ 40000 ≤ Counter.Update1 2 40000 ∧ Counter.Update0 2 40000 ≤ 40000) :=
  ⟨by decide, C6_counter_update_range 2 40000 (by decide)⟩



theorem Counter.Update1_converges (r : Nat) : ∀ (n p : Nat), 0xFFFF - p = n → p ≤ 0xFFFF →
    ∃ k, 0xFFFF - (2 ^ r - 1) ≤ (Counter.Update1 r)^[k] p ∧ (Counter.Update1 r)^[k] p ≤ 0xFFFF
      ∧ Counter.Update1 r ((Counter.Update1 r)^[k] p) = (Counter.Update1 r)^[k] p := by
  intro n
  induction n using Nat.strong_induction_on with
  | _ n ih =>
    intro p hn hp
    have hpos : 0 < 2 ^ r := pow_pos (by norm_num) r
    have hu := Counter.Update1_eq r p hp
    by_cases hz : (0xFFFF - p) / 2 ^ r = 0
    · refine ⟨0, ?_, hp, ?_⟩
      · have : 0xFFFF - p < 2 ^ r := (Nat.div_eq_zero_iff hpos).mp hz
        simp only [Function.iterate_zero, id_eq]
        omega
      · simp only [Function.iterate_zero, id_eq]
        rw [hu, hz, Nat.add_zero]
    · have hd : (0xFFFF - p) / 2 ^ r ≤ 0xFFFF - p := Nat.div_le_self _ _
      generalize (0xFFFF - p) / 2 ^ r = d at hz hd hu
      obtain ⟨k, hk⟩ := ih (0xFFFF - Counter.Update1 r p) (by omega) (Counter.Update1 r p) rfl
        (by omega)
      exact ⟨k + 1, by rw [Function.iterate_succ_apply]; exact hk⟩

theorem Counter.Update0_converges (r : Nat) : ∀ (n p : Nat), p = n → p ≤ 0xFFFF →
    ∃ k, (Counter.Update0 r)^[k] p ≤ 2 ^ r - 1
      ∧ Counter.Update0 r ((Counter.Update0 r)^[k] p) = (Counter.Update0 r)^[k] p := by
  intro n
  induction n using Nat.strong_induction_on with
  | _ n ih =>
    intro p hn hp
    have hpos : 0 < 2 ^ r := pow_pos (by norm_num) r
    have hu := Counter.Update0_eq r p hp
    by_cases hz : p / 2 ^ r = 0
    · refine ⟨0, ?_, ?_⟩
      · have : p < 2 ^ r := (Nat.div_eq_zero_iff hpos).mp hz
        simp only [Function.iterate_zero, id_eq]
        omega
      · simp only [Function.iterate_zero, id_eq]
        rw [hu, hz]; rfl
    · have hd : p / 2 ^ r ≤ p := Nat.div_le_self _ _
      generalize p / 2 ^ r = d at hz hd hu
      obtain ⟨k, hk⟩ := ih (Counter.Update0 r p) (by omega) (Counter.Update0 r p) rfl
        (by omega)
      exact ⟨k + 1, by rw [Function.iterate_succ_apply]; exact hk⟩

theorem Counter.Update1_lt (r p : Nat) (hr : 1 ≤ r) (hp : p < 0xFFFF) :
    Counter.Update1 r p < 0xFFFF := by
  rw [Counter.Update1_eq r p (by omega)]
  have h2 : (0xFFFF - p) / 2 ^ r ≤ (0xFFFF - p) / 2 := by
    apply Nat.div_le_div_left _ (by norm_num)
    calc 2 = 2 ^ 1 := rfl
      _ ≤ 2 ^ r := Nat.pow_le_pow_right (by norm_num) hr
  omega

theorem Counter.Update0_pos (r p : Nat) (hr : 1 ≤ r) (h0 : 0 < p) (hp : p ≤ 0xFFFF) :
    0 < Counter.Update0 r p := by
  rw [Counter.Update0_eq r p hp]
  have h2 : p / 2 ^ r ≤ p / 2 := by
    apply Nat.div_le_div_left _ (by norm_num)
    calc 2 = 2 ^ 1 := rfl
      _ ≤ 2 ^ r := Nat.pow_le_pow_right (by norm_num) hr
  omega

theorem Counter.Update1_iter_lt (r : Nat) (hr : 1 ≤ r) (k p : Nat) (hp : p < 0xFFFF) :
    (Counter.Update1 r)^[k] p < 0xFFFF := by
  induction k generalizing p with
  | zero => exact hp
  | succ k ih =>
    rw [Function.iterate_succ_apply]
    exact ih _ (Counter.Update1_lt r p hr hp)

theorem Counter.Update0_iter_pos (r : Nat) (hr : 1 ≤ r) (k p : Nat) (h0 : 0 < p) (hp : p ≤ 0xFFFF) :
    0 < (Counter.Update0 r)^[k] p := by
  induction k generalizing p with
  | zero => exact h0
  | succ k ih =>
    rw [Function.iterate_succ_apply]
    exact ih _ (Counter.Update0_pos r p hr h0 hp) (Counter.Update0_le r p hp)

/-- C7 (as stated, refuted): with rate 2, repeated `Update0` from `p = 1` never
reaches 0, and repeated `Update1` from `p = 0xFFFE` never reaches `0xFFFF`. -/
theorem C7_counterexample :
    (¬ ∃ k, (Counter.Update0 2)^[k] 1 = 0) ∧ (¬ ∃ k, (Counter.Update1 2)^[k] 0xFFFE = 0xFFFF) := by
  constructor
  · rintro ⟨k, hk⟩
    have := Counter.Update0_iter_pos 2 (by norm_num) k 1 (by norm_num) (by norm_num)
    omega
  · rintro ⟨k, hk⟩
    have := Counter.Update1_iter_lt 2 (by norm_num) k 0xFFFE (by norm_num)
    omega

/-- C7 (amended): for every rate in {2, 4, 6} and every 16-bit `p`, repeated
`Update1` reaches after finitely many steps a value in
`[0xFFFF - (2^r - 1), 0xFFFF]` that `Update1` leaves unchanged, and repeated
`Update0` reaches a value in `[0, 2^r - 1]` that `Update0` leaves unchanged;
`0xFFFF` (resp. 0) itself is reached only when `p` starts there. -/
theorem C7_counter_converges_to_fixed_point (r p : Nat) (hr : r = 2 ∨ r = 4 ∨ r = 6)
    (hp : p ≤ 0xFFFF) :
    (∃ k, 0xFFFF - (2 ^ r - 1) ≤ (Counter.Update1 r)^[k] p ∧ (Counter.Update1 r)^[k] p ≤ 0xFFFF
      ∧ Counter.Update1 r ((Counter.Update1 r)^[k] p) = (Counter.Update1 r)^[k] p)
    ∧ (∃ k, (Counter.Update0 r)^[k] p ≤ 2 ^ r - 1
      ∧ Counter.Update0 r ((Counter.Update0 r)^[k] p) = (Counter.Update0 r)^[k] p)
    ∧ ((∃ k, (Counter.Update1 r)^[k] p = 0xFFFF) ↔ p = 0xFFFF)
    ∧ ((∃ k, (Counter.Update0 r)^[k] p = 0) ↔ p = 0) := by
  have hr1 : 1 ≤ r := by omega
  refine ⟨Counter.Update1_converges r _ p rfl hp, Counter.Update0_converges r _ p rfl hp, ?_, ?_⟩
  · constructor
    · rintro ⟨k, hk⟩
      by_contra hne
      have := Counter.Update1_iter_lt r hr1 k p (by omega)
      omega
    · intro h
      exact ⟨0, h⟩
  · constructor
    · rintro ⟨k, hk⟩
      by_contra hne
      have := Counter.Update0_iter_pos r hr1 k p (by omega) hp
      omega
    · intro h
      exact ⟨0, h⟩

theorem C7_counter_converges_to_fixed_point_witness :
    (4 = 2 ∨ 4 = 4 ∨ 4 = 6) ∧ 0x8000 ≤ 0xFFFF ∧
    ((∃ k, 0xFFFF - (2 ^ 4 - 1) ≤ (Counter.Update1 4)^[k] 0x8000
        ∧ (Counter.Update1 4)^[k] 0x8000 ≤ 0xFFFF
        ∧ Counter.Update1 4 ((Counter.Update1 4)^[k] 0x8000) = (Counter.Update1 4)^[k] 0x8000)
    ∧ (∃ k, (Counter.Update0 4)^[k] 0x8000 ≤ 2 ^ 4 - 1
        ∧ Counter.Update0 4 ((Counter.Update0 4)^[k] 0x8000) = (Counter.Update0 4)^[k] 0x8000)
    ∧ ((∃ k, (Counter.Update1 4)^[k] 0x8000 = 0xFFFF) ↔ 0x8000 = 0xFFFF)
    ∧ ((∃ k, (Counter.Update0 4)^[k] 0x8000 = 0) ↔ 0x8000 = 0)) :=
  ⟨by decide, by decide, C7_counter_converges_to_fixed_point 4 0x8000 (by decide) (by decide)⟩

/-! ### CRC-32 -/

namespace CRC32

theorem toU32_neg_bit (x : Nat) :
    toU32 (-((x &&& 1 : Nat) : Int)) = if x % 2 = 1 then 0xFFFFFFFF else 0 := by
  rw [Nat.and_one_is_mod]
  unfold toU32
  split <;> omega

theorem bitStep_eq (x : Nat) : CRC.bitStep x = bit x := by
  unfold CRC.bitStep bit
  rw [toU32_neg_bit, Nat.shiftRight_eq_div_pow]
  split
  · have : (0xEDB88320 : Nat) &&& 0xFFFFFFFF = 0xEDB88320 := by decide
    rw [this]
  · simp

theorem bit_xor (a b : Nat) : bit (a ^^^ b) = bit a ^^^ bit b := by
  unfold bit
  rw [Nat.xor_div_two]
  have h := @Nat.xor_mod_two_eq_one a b
  by_cases ha : a % 2 = 1 <;> by_cases hb : b % 2 = 1
  · have hx : ¬ (a ^^^ b) % 2 = 1 := by rw [h]; simp [ha, hb]
    rw [if_pos ha, if_pos hb, if_neg hx]
    rw [Nat.xor_assoc, ← Nat.xor_assoc 0xEDB88320, Nat.xor_comm 0xEDB88320 (b / 2), Nat.xor_assoc,
      Nat.xor_self, Nat.xor_zero]
  · have hx : (a ^^^ b) % 2 = 1 := by rw [h]; simp [ha, hb]
    rw [if_pos ha, if_neg hb, if_pos hx, Nat.xor_assoc, Nat.xor_assoc, Nat.xor_comm 0xEDB88320]
  · have hx : (a ^^^ b) % 2 = 1 := by rw [h]; simp [ha, hb]
    rw [if_neg ha, if_pos hb, if_pos hx, Nat.xor_assoc]
  · have hx : ¬ (a ^^^ b) % 2 = 1 := by rw [h]; simp [ha, hb]
    rw [if_neg ha, if_neg hb, if_neg hx]

theorem bit_iter_xor (k a b : Nat) : bit^[k] (a ^^^ b) = bit^[k] a ^^^ bit^[k] b := by
  induction k generalizing a b with
  | zero => rfl
  | succ k ih => rw [Function.iterate_succ_apply, Function.iterate_succ_apply,
      Function.iterate_succ_apply, bit_xor, ih]

theorem bit_iter_shl (k y : Nat) : bit^[k] (y <<< k) = y := by
  induction k generalizing y with
  | zero => simp
  | succ k ih =>
    rw [Function.iterate_succ_apply]
    have : bit (y <<< (k + 1)) = y <<< k := by
      unfold bit
      rw [Nat.shiftLeft_eq, Nat.shiftLeft_eq, pow_succ]
      have h0 : (y * (2 ^ k * 2)) % 2 = 0 := by
        rw [← Nat.mul_assoc]; exact Nat.mul_mod_left _ _
      rw [if_neg (by omega), ← Nat.mul_assoc, Nat.mul_div_cancel _ (by norm_num)]
    rw [this, ih]

theorem split_low (x k : Nat) : x = (x % 2 ^ k) ^^^ ((x >>> k) <<< k) := by
  apply Nat.eq_of_testBit_eq
  intro i
  rw [Nat.testBit_xor, Nat.testBit_mod_two_pow, Nat.testBit_shiftLeft, Nat.testBit_shiftRight]
  by_cases hi : i < k
  · have : ¬ k ≤ i := by omega
    simp [hi, this]
  · have : k + (i - k) = i := by omega
    simp [hi, this, Nat.le_of_not_lt hi]

/-- Table step: shifting out a byte through `tab[0]` is eight bit steps. -/
theorem byte_step (x : Nat) : (x >>> 8) ^^^ bit^[8] (x &&& 255) = bit^[8] x := by
  have h255 : (255 : Nat) = 2 ^ 8 - 1 := by norm_num
  conv_rhs => rw [split_low x 8]
  rw [bit_iter_xor, bit_iter_shl, h255, Nat.and_pow_two_sub_one_eq_mod, Nat.xor_comm]

theorem tab_eq (k i : Nat) : CRC.tab k i = bit^[8 * (k + 1)] i := by
  have hb : CRC.bitStep = bit := funext bitStep_eq
  induction k with
  | zero => simp [CRC.tab, hb]
  | succ k ih =>
    rw [CRC.tab, hb, byte_step, ih, ← Function.iterate_add_apply]
    congr 1
    omega

theorem shr_xor_of_lt (x b k : Nat) (hb : b < 2 ^ k) : (x ^^^ b) >>> k = x >>> k := by
  apply Nat.eq_of_testBit_eq
  intro i
  rw [Nat.testBit_shiftRight, Nat.testBit_shiftRight, Nat.testBit_xor]
  have : b.testBit (k + i) = false := by
    apply Nat.testBit_lt_two_pow
    calc b < 2 ^ k := hb
      _ ≤ 2 ^ (k + i) := Nat.pow_le_pow_right (by norm_num) (by omega)
  simp [this]

theorem tab0_update (x b : Nat) (hb : b < 256) :
    (x >>> 8) ^^^ CRC.tab 0 ((x ^^^ b) &&& 255) = byte x b := by
  rw [tab_eq]
  have h := byte_step (x ^^^ b)
  rw [shr_xor_of_lt x b 8 hb] at h
  rw [show 8 * (0 + 1) = 8 from rfl, h]
  rfl

theorem tail_eq (s : List Nat) (x : Nat) (hs : ∀ b ∈ s, b < 256) :
    CRC.tail s x = s.foldl byte x := by
  induction s generalizing x with
  | nil => rfl
  | cons b s ih =>
    rw [CRC.tail, tab0_update x b (hs b (List.mem_cons_self _ _)), List.foldl_cons]
    exact ih _ (fun c hc => hs c (List.mem_cons_of_mem _ hc))

theorem or_shl (a y k : Nat) (ha : a < 2 ^ k) : a ||| (y <<< k) = a + y * 2 ^ k := by
  rw [Nat.or_comm, Nat.shiftLeft_eq, Nat.mul_comm, ← Nat.mul_add_lt_is_or ha, Nat.add_comm]

theorem xor_shl (a y k : Nat) (ha : a < 2 ^ k) : a ^^^ (y <<< k) = a + y * 2 ^ k := by
  rw [← or_shl a y k ha]
  apply Nat.eq_of_testBit_eq
  intro i
  rw [Nat.testBit_xor, Nat.testBit_or, Nat.testBit_shiftLeft]
  by_cases hi : i < k
  · have : ¬ k ≤ i := by omega
    simp [this]
  · have : a.testBit i = false := by
      apply Nat.testBit_lt_two_pow
      calc a < 2 ^ k := ha
        _ ≤ 2 ^ i := Nat.pow_le_pow_right (by norm_num) (by omega)
    simp [this]

theorem bit_iter_byte (k x b : Nat) :
    bit^[8 * (k + 1)] (x ^^^ (b <<< (8 * k))) = bit^[8] (bit^[8 * k] x ^^^ b) := by
  rw [show 8 * (k + 1) = 8 + 8 * k by omega, Function.iterate_add_apply, bit_iter_xor, bit_iter_shl]

theorem bit_iter_split (a b y : Nat) (h : b = a + 8) :
    bit^[b] y = bit^[a] (y >>> 8) ^^^ bit^[b] (y &&& 255) := by
  subst h
  rw [Function.iterate_add_apply, ← byte_step y, bit_iter_xor, ← Function.iterate_add_apply]

theorem tab_eq_n (k n i : Nat) (h : n = 8 * (k + 1)) : CRC.tab k i = bit^[n] i := by
  subst h
  exact tab_eq k i

theorem step8_eq (x w0 t : Nat) :
    CRC.step8 x w0 t = bit^[64] (x ^^^ w0 ^^^ (t <<< 32)) := by
  unfold CRC.step8
  dsimp only
  rw [tab_eq_n 0 8 _ rfl, tab_eq_n 1 16 _ rfl, tab_eq_n 2 24 _ rfl, tab_eq_n 3 32 _ rfl,
    tab_eq_n 4 40 _ rfl, tab_eq_n 5 48 _ rfl, tab_eq_n 6 56 _ rfl, tab_eq_n 7 64 _ rfl]
  have ht : bit^[32] t = bit^[8] (t >>> 24) ^^^ bit^[16] ((t >>> 16) &&& 255)
      ^^^ bit^[24] ((t >>> 8) &&& 255) ^^^ bit^[32] (t &&& 255) := by
    have h3 := bit_iter_split 24 32 t rfl
    have h2 := bit_iter_split 16 24 (t >>> 8) rfl
    have h1 := bit_iter_split 8 16 (t >>> 16) rfl
    rw [← Nat.shiftRight_add] at h2 h1
    rw [h3, h2, h1]
  generalize x ^^^ w0 = X
  have hx : bit^[64] X = bit^[40] (X >>> 24) ^^^ bit^[48] ((X >>> 16) &&& 255)
      ^^^ bit^[56] ((X >>> 8) &&& 255) ^^^ bit^[64] (X &&& 255) := by
    have h3 := bit_iter_split 56 64 X rfl
    have h2 := bit_iter_split 48 56 (X >>> 8) rfl
    have h1 := bit_iter_split 40 48 (X >>> 16) rfl
    rw [← Nat.shiftRight_add] at h2 h1
    rw [h3, h2, h1]
  have h64 : bit^[64] (t <<< 32) = bit^[32] t := by
    rw [show (64 : Nat) = 32 + 32 from rfl, Function.iterate_add_apply, bit_iter_shl]
  rw [bit_iter_xor, h64, ht, hx]
  generalize bit^[8] (t >>> 24) = a0
  generalize bit^[16] ((t >>> 16) &&& 255) = a1
  generalize bit^[24] ((t >>> 8) &&& 255) = a2
  generalize bit^[32] (t &&& 255) = a3
  generalize bit^[40] (X >>> 24) = a4
  generalize bit^[48] ((X >>> 16) &&& 255) = a5
  generalize bit^[56] ((X >>> 8) &&& 255) = a6
  generalize bit^[64] (X &&& 255) = a7
  simp only [Nat.xor_assoc]
  ac_rfl

theorem fold_eq_pack (s : List Nat) (x : Nat) :
    s.foldl byte x = bit^[8 * s.length] (x ^^^ pack s) := by
  induction s generalizing x with
  | nil => simp [pack]
  | cons b s ih =>
    rw [List.foldl_cons, ih, pack, List.length_cons,
      show 8 * (s.length + 1) = 8 * s.length + 8 by omega, Function.iterate_add_apply]
    congr 1
    have : bit^[8] (x ^^^ (b ^^^ pack s <<< 8)) = bit^[8] (x ^^^ b) ^^^ pack s := by
      rw [← Nat.xor_assoc, bit_iter_xor, bit_iter_shl]
    rw [this]
    rfl

theorem pack8 (b0 b1 b2 b3 b4 b5 b6 b7 : Nat) (h0 : b0 < 256) (h1 : b1 < 256) (h2 : b2 < 256)
    (h3 : b3 < 256) (h4 : b4 < 256) (h5 : b5 < 256) (h6 : b6 < 256) :
    CRC.load32 b0 b1 b2 b3 ^^^ (CRC.load32 b4 b5 b6 b7 <<< 32)
      = pack [b0, b1, b2, b3, b4, b5, b6, b7] := by
  have l32 : ∀ a b c d : Nat, a < 256 → b < 256 → c < 256 →
      CRC.load32 a b c d = a + b * 2 ^ 8 + c * 2 ^ 16 + d * 2 ^ 24 := by
    intro a b c d ha hb hc
    unfold CRC.load32
    rw [or_shl a b 8 (by omega), or_shl _ c 16 (by omega), or_shl _ d 24 (by omega)]
  simp only [pack]
  rw [l32 b0 b1 b2 b3 h0 h1 h2, l32 b4 b5 b6 b7 h4 h5 h6]
  rw [Nat.zero_shiftLeft, Nat.xor_zero, xor_shl b6 b7 8 (by omega), xor_shl b5 _ 8 (by omega),
    xor_shl b4 _ 8 (by omega), xor_shl b3 _ 8 (by omega), xor_shl b2 _ 8 (by omega),
    xor_shl b1 _ 8 (by omega), xor_shl b0 _ 8 (by omega), xor_shl _ _ 32 (by omega)]
  ring

theorem loop_eq (s : List Nat) (x : Nat) (hs : ∀ b ∈ s, b < 256) :
    CRC.loop s x = s.foldl byte x := by
  induction s, x using CRC.loop.induct with
  | case1 b0 b1 b2 b3 b4 b5 b6 b7 s x ih =>
    have h0 : b0 < 256 := hs b0 (by simp)
    have h1 : b1 < 256 := hs b1 (by simp)
    have h2 : b2 < 256 := hs b2 (by simp)
    have h3 : b3 < 256 := hs b3 (by simp)
    have h4 : b4 < 256 := hs b4 (by simp)
    have h5 : b5 < 256 := hs b5 (by simp)
    have h6 : b6 < 256 := hs b6 (by simp)
    have hrest : ∀ b ∈ s, b < 256 := by
      intro b hb
      apply hs b
      simp [hb]
    have h8 := fold_eq_pack [b0, b1, b2, b3, b4, b5, b6, b7] x
    rw [show 8 * [b0, b1, b2, b3, b4, b5, b6, b7].length = 64 from rfl] at h8
    rw [CRC.loop, ih hrest, step8_eq, Nat.xor_assoc, pack8 b0 b1 b2 b3 b4 b5 b6 b7 h0 h1 h2 h3 h4 h5 h6,
      ← h8]
    simp only [List.foldl_cons, List.foldl_nil]
  | case2 s x hne =>
    rw [CRC.loop.eq_2 s x hne, tail_eq s x hs]

theorem loop_eq_tail (s : List Nat) (x : Nat) (hs : ∀ b ∈ s, b < 256) :
    CRC.loop s x = CRC.tail s x := by
  rw [loop_eq s x hs, tail_eq s x hs]

theorem update_chunks (chunks : List (List Nat)) (x : Nat)
    (hs : ∀ s ∈ chunks, ∀ b ∈ s, b < 256) :
    chunks.foldl CRC.Update x = chunks.flatten.foldl byte x := by
  induction chunks generalizing x with
  | nil => rfl
  | cons s chunks ih =>
    rw [List.foldl_cons, List.flatten_cons, List.foldl_append,
      ih _ (fun t ht => hs t (List.mem_cons_of_mem _ ht))]
    unfold CRC.Update
    rw [loop_eq s x (hs s (List.mem_cons_self _ _))]

end CRC32

/-- C5: feeding chunks to `CRC::Update` in order, from the initial running
value, and reading `crc()` gives the standard bit-by-bit reflected CRC-32 of
the concatenation; the slice-by-8 path agrees with the byte-at-a-time tail
loop; the value is 0 for the empty input and `0xCBF43926` for "123456789". -/
theorem C5_crc_is_standard_crc32 (chunks : List (List Nat))
    (hs : ∀ s ∈ chunks, ∀ b ∈ s, b < 256) :
    CRC.value (chunks.foldl CRC.Update CRC.init) = CRC32.crc32 chunks.flatten
    ∧ (∀ x, ∀ s ∈ chunks, CRC.Update x s = CRC.tail s x)
    ∧ CRC.value (CRC.Update CRC.init []) = 0
    ∧ CRC.value (CRC.Update CRC.init [0x31, 0x32, 0x33, 0x34, 0x35, 0x36, 0x37, 0x38, 0x39])
        = 0xCBF43926 := by
  refine ⟨?_, ?_, by rfl, by rfl⟩
  · rw [CRC32.update_chunks chunks _ hs]
    rfl
  · intro x s hmem
    exact CRC32.loop_eq_tail s x (hs s hmem)

theorem C5_crc_is_standard_crc32_witness :
    (∀ s ∈ [[0x31, 0x32, 0x33], [0x34, 0x35, 0x36, 0x37, 0x38, 0x39, 0x41, 0x42, 0x43], []],
      ∀ b ∈ s, b < 256)
    ∧ (CRC.value ([[0x31, 0x32, 0x33], [0x34, 0x35, 0x36, 0x37, 0x38, 0x39, 0x41, 0x42, 0x43], []].foldl
          CRC.Update CRC.init)
        = CRC32.crc32 [[0x31, 0x32, 0x33], [0x34, 0x35, 0x36, 0x37, 0x38, 0x39, 0x41, 0x42, 0x43], []].flatten
      ∧ (∀ x, ∀ s ∈ [[0x31, 0x32, 0x33], [0x34, 0x35, 0x36, 0x37, 0x38, 0x39, 0x41, 0x42, 0x43], []],
          CRC.Update x s = CRC.tail s x)
      ∧ CRC.value (CRC.Update CRC.init []) = 0
      ∧ CRC.value (CRC.Update CRC.init [0x31, 0x32, 0x33, 0x34, 0x35, 0x36, 0x37, 0x38, 0x39])
          = 0xCBF43926) :=
  ⟨by decide, C5_crc_is_standard_crc32 _ (by decide)⟩

/-! ### Range coder -/

namespace Encoder

theorem xor_lt_iff (a b k : Nat) : a ^^^ b < 2 ^ k ↔ a / 2 ^ k = b / 2 ^ k := by
  have h : (a ^^^ b) / 2 ^ k = (a / 2 ^ k) ^^^ (b / 2 ^ k) := by
    apply Nat.eq_of_testBit_eq
    intro i
    simp only [← Nat.shiftRight_eq_div_pow, Nat.testBit_shiftRight, Nat.testBit_xor]
  rw [← Nat.div_eq_zero_iff (pow_pos (by norm_num) k), h, Nat.xor_eq_zero]

theorem shl8_or (x b : Nat) (hb : b < 256) :
    ((x <<< 8) % 2 ^ 32) ||| b = (x * 256) % 2 ^ 32 + b := by
  rw [Nat.shiftLeft_eq]
  have h8 : (2 : Nat) ^ 8 = 256 := by norm_num
  rw [h8]
  have h : (x * 256) % 2 ^ 32 = 2 ^ 8 * ((x * 256) % 2 ^ 32 / 256) := by omega
  rw [h, ← Nat.mul_add_lt_is_or (by omega)]

theorem shift_low (e : Encoder) : (shift e).low = (e.low * 256) % 2 ^ 32 := by
  simp only [shift, Nat.shiftLeft_eq]

theorem shift_high (e : Encoder) : (shift e).high = (e.high * 256) % 2 ^ 32 + 255 := by
  simp only [shift]
  exact shl8_or e.high 255 (by norm_num)

theorem shift_code (e : Encoder) : (shift e).code = e.code := rfl

end Encoder


namespace Encoder

theorem shift_withCode (e : Encoder) (c c2 : Nat) :
    { shift (e.withCode c) with code := c2 } = (shift e).withCode c2 := rfl

theorem shift_iter4 (e : Encoder) :
    (shift (shift (shift (shift e)))).low = 0
    ∧ (shift (shift (shift (shift e)))).high = 0xFFFFFFFF := by
  simp only [shift_low, shift_high]
  omega

theorem shift_ordered (e : Encoder) (h : e.Ordered) (hc : e.low ^^^ e.high < 1 <<< 24) :
    (shift e).Ordered := by
  have hc2 : e.low / 2 ^ 24 = e.high / 2 ^ 24 := (xor_lt_iff _ _ 24).mp hc
  unfold Ordered at h ⊢
  rw [shift_low, shift_high]
  omega

/-- The encoder's renormalization loop does some number `j ≤ k` of shifts,
writes `j` bytes, and stops early only with its condition false. -/
theorem renormEnc_shape (k : Nat) : ∀ e : Encoder, ∃ j, j ≤ k
    ∧ (renormEnc k e).1 = shift^[j] e ∧ (renormEnc k e).2.length = j
    ∧ (j < k → ¬ ((renormEnc k e).1.low ^^^ (renormEnc k e).1.high < 1 <<< 24)) := by
  induction k with
  | zero => intro e; exact ⟨0, le_refl _, rfl, rfl, fun h => absurd h (lt_irrefl _)⟩
  | succ k ih =>
    intro e
    by_cases hc : e.low ^^^ e.high < 1 <<< 24
    · obtain ⟨j, hj, h1, h2, h3⟩ := ih (shift e)
      refine ⟨j + 1, by omega, ?_, ?_, ?_⟩
      · simp only [renormEnc, if_pos hc, Function.iterate_succ_apply]; exact h1
      · simp only [renormEnc, if_pos hc, List.length_cons]; omega
      · intro hlt
        simp only [renormEnc, if_pos hc]
        exact h3 (by omega)
    · refine ⟨0, by omega, ?_, ?_, ?_⟩
      · simp only [renormEnc, if_neg hc, Function.iterate_zero, id_eq]
      · simp only [renormEnc, if_neg hc, List.length_nil]
      · intro _
        simp only [renormEnc, if_neg hc]
        exact hc

/-- Four iterations suffice: after `renormEnc 4` the loop condition is false. -/
theorem renormEnc_exit (e : Encoder) :
    ¬ ((renormEnc 4 e).1.low ^^^ (renormEnc 4 e).1.high < 1 <<< 24) := by
  obtain ⟨j, hj, h1, _, h3⟩ := renormEnc_shape 4 e
  by_cases h4 : j < 4
  · exact h3 h4
  · have hj4 : j = 4 := by omega
    subst hj4
    rw [h1]
    simp only [Function.iterate_succ_apply, Function.iterate_zero, id_eq]
    rw [(shift_iter4 e).1, (shift_iter4 e).2]
    decide

theorem code4_cons (b g0 g1 g2 g3 : Nat) (rest : List Nat) :
    code4 (b :: g0 :: g1 :: g2 :: g3 :: rest) = ((b * 256 + g0) * 256 + g1) * 256 + g2
    ∧ code4 (g0 :: g1 :: g2 :: g3 :: rest) = ((g0 * 256 + g1) * 256 + g2) * 256 + g3 :=
  ⟨rfl, rfl⟩

theorem isStream_destruct (G : List Nat) (h : IsStream G) :
    ∃ g0 g1 g2 g3 rest, G = g0 :: g1 :: g2 :: g3 :: rest ∧ g0 < 256 ∧ g1 < 256 ∧ g2 < 256
      ∧ g3 < 256 := by
  obtain ⟨hl, hb⟩ := h
  match G, hl, hb with
  | g0 :: g1 :: g2 :: g3 :: rest, _, hb =>
    exact ⟨g0, g1, g2, g3, rest, rfl, hb g0 (by simp), hb g1 (by simp), hb g2 (by simp),
      hb g3 (by simp)⟩

theorem toU32_cast (b : Nat) (hb : b < 2 ^ 32) : toU32 (b : Int) = b := by
  unfold toU32
  omega

/-- One shift of the encoder against one shift of the decoder. -/
theorem renorm_sync (k : Nat) : ∀ (e : Encoder), e.Ordered → ∀ (F : List Nat) (ef : Bool),
    (renormEnc k e).1.Ordered
    ∧ ((renormEnc k e).1.Covers F →
        e.Covers ((renormEnc k e).2 ++ F)
        ∧ renormDec k (e.withCode (code4 ((renormEnc k e).2 ++ F)))
            { data := ((renormEnc k e).2 ++ F).drop 4, eof := ef }
          = (renormEnc k e).1.view F ef) := by
  induction k with
  | zero =>
    intro e ho F ef
    exact ⟨ho, fun hc => ⟨hc, rfl⟩⟩
  | succ k ih =>
    intro e ho F ef
    by_cases hc : e.low ^^^ e.high < 1 <<< 24
    · have hso := shift_ordered e ho hc
      obtain ⟨ih1, ih2⟩ := ih (shift e) hso F ef
      simp only [renormEnc, if_pos hc]
      refine ⟨ih1, fun hcov => ?_⟩
      obtain ⟨⟨hstr, hlo, hhi⟩, hdec⟩ := ih2 hcov
      obtain ⟨g0, g1, g2, g3, rest, hG, h0, h1, h2, h3⟩ := isStream_destruct _ hstr
      have hc2 : e.low / 2 ^ 24 = e.high / 2 ^ 24 := (xor_lt_iff _ _ 24).mp hc
      have hb : putc (e.low >>> 24) = e.low / 2 ^ 24 := by
        unfold putc
        rw [Nat.shiftRight_eq_div_pow]
        unfold Ordered at ho
        omega
      rw [hG] at hlo hhi hdec
      rw [shift_low] at hlo
      rw [shift_high] at hhi
      rw [List.cons_append, hG, hb]
      obtain ⟨hcb, hcg⟩ := code4_cons (e.low / 2 ^ 24) g0 g1 g2 g3 rest
      rw [hcg] at hlo hhi
      unfold Ordered at ho
      refine ⟨⟨⟨?_, ?_⟩, ?_, ?_⟩, ?_⟩
      · simp only [List.length_cons]; omega
      · intro b hb
        rcases List.mem_cons.mp hb with rfl | hb
        · omega
        · exact hstr.2 b (hG ▸ hb)
      · rw [hcb]; omega
      · rw [hcb]; omega
      · have hcond : (e.withCode (code4 (e.low / 2 ^ 24 :: g0 :: g1 :: g2 :: g3 :: rest))).low
            ^^^ (e.withCode (code4 (e.low / 2 ^ 24 :: g0 :: g1 :: g2 :: g3 :: rest))).high
            < 1 <<< 24 := hc
        rw [renormDec, if_pos hcond]
        have hget : getc (Input.mk (List.drop 4 (e.low / 2 ^ 24 :: g0 :: g1 :: g2 :: g3 :: rest)) ef)
            = ((g3 : Int), Input.mk rest ef) := rfl
        simp only [hget, shift_withCode]
        have hcode : ((e.withCode (code4 (e.low / 2 ^ 24 :: g0 :: g1 :: g2 :: g3 :: rest))).code
            <<< 8) % 2 ^ 32 ||| toU32 (g3 : Int) = code4 (g0 :: g1 :: g2 :: g3 :: rest) := by
          rw [toU32_cast g3 (by omega), shl8_or _ _ h3, hcg]
          show (code4 (e.low / 2 ^ 24 :: g0 :: g1 :: g2 :: g3 :: rest)) * 256 % 2 ^ 32 + g3 = _
          rw [hcb]
          omega
        rw [hcode]
        exact hdec
    · simp only [renormEnc, if_neg hc]
      refine ⟨ho, fun hcov => ⟨hcov, ?_⟩⟩
      have hcond : ¬ ((e.withCode (code4 ([] ++ F))).low ^^^ (e.withCode (code4 ([] ++ F))).high
          < 1 <<< 24) := hc
      rw [renormDec, if_neg hcond]
      rfl

end Encoder

namespace Encoder

theorem mid_withCode (P p : Nat) (e : Encoder) (c : Nat) : mid P p (e.withCode c) = mid P p e := rfl

theorem narrow_withCode (bit m : Nat) (e : Encoder) (c : Nat) :
    narrow bit m (e.withCode c) = (narrow bit m e).withCode c := by
  unfold narrow withCode
  split <;> rfl

theorem mid_eq (P p : Nat) (e : Encoder) (h : e.Ordered) (hp : p < 2 ^ P) (hP : P ≤ 32) :
    mid P p e = e.low + (e.high - e.low) * p / 2 ^ P := by
  unfold Ordered at h
  unfold mid
  have hd : toU32 ((e.high : Int) - (e.low : Int)) = e.high - e.low := by
    unfold toU32
    omega
  rw [hd, Nat.shiftRight_eq_div_pow]
  have hpos : 0 < 2 ^ P := pow_pos (by norm_num) P
  have hp32 : p < 2 ^ 32 := lt_of_lt_of_le hp (Nat.pow_le_pow_right (by norm_num) hP)
  have hprod : (e.high - e.low) * p < 2 ^ 64 := by
    calc (e.high - e.low) * p ≤ 2 ^ 32 * p := Nat.mul_le_mul_right _ (by omega)
      _ < 2 ^ 32 * 2 ^ 32 := Nat.mul_lt_mul_of_pos_left hp32 (by norm_num)
      _ = 2 ^ 64 := by norm_num
  rw [Nat.mod_eq_of_lt hprod]
  have hq : (e.high - e.low) * p / 2 ^ P ≤ e.high - e.low := by
    apply Nat.div_le_of_le_mul
    rw [Nat.mul_comm (2 ^ P)]
    exact Nat.mul_le_mul_left _ (le_of_lt hp)
  apply Nat.mod_eq_of_lt
  generalize (e.high - e.low) * p / 2 ^ P = q at hq ⊢
  omega

theorem mid_bounds (P p : Nat) (e : Encoder) (h : e.Ordered) (hlt : e.low < e.high)
    (hp : p < 2 ^ P) (hP : P ≤ 32) : e.low ≤ mid P p e ∧ mid P p e < e.high := by
  rw [mid_eq P p e h hp hP]
  have hq : (e.high - e.low) * p / 2 ^ P < e.high - e.low := by
    apply Nat.div_lt_of_lt_mul
    rw [Nat.mul_comm]
    exact Nat.mul_lt_mul_of_pos_right hp (by omega)
  generalize (e.high - e.low) * p / 2 ^ P = q at hq ⊢
  omega

theorem inv_lt (e : Encoder) (h : e.Inv) : e.low < e.high := by
  obtain ⟨⟨h1, _⟩, h3⟩ := h
  rcases Nat.lt_or_ge e.low e.high with hlt | hge
  · exact hlt
  · have : e.low = e.high := le_antisymm h1 hge
    rw [this, Nat.xor_self] at h3
    norm_num at h3

theorem narrow_ordered (bit m : Nat) (e : Encoder) (h : e.Ordered) (hm : e.low ≤ m ∧ m < e.high) :
    (narrow bit m e).Ordered ∧ e.low ≤ (narrow bit m e).low ∧ (narrow bit m e).high ≤ e.high
    ∧ (bit ≠ 0 → (narrow bit m e).high = m) ∧ (bit = 0 → (narrow bit m e).low = m + 1) := by
  unfold Ordered at h ⊢
  unfold narrow
  by_cases hb : bit ≠ 0
  · simp only [if_pos hb]
    refine ⟨⟨hm.1, by omega⟩, le_refl _, le_of_lt hm.2, fun _ => trivial, fun h0 => absurd h0 hb⟩
  · simp only [if_neg hb]
    have : (m + 1) % 2 ^ 32 = m + 1 := Nat.mod_eq_of_lt (by omega)
    rw [this]
    refine ⟨⟨by omega, h.2⟩, by omega, le_refl _, fun h1 => absurd h1 hb, fun _ => rfl⟩

/-- Coding one bit keeps the interval invariant, and the decoder, looking at
what the encoder writes from here on, decodes that bit and follows the
encoder's interval. -/
theorem encode_sync (P bit p : Nat) (e : Encoder) (hInv : e.Inv) (hp : p < 2 ^ P) (hP : P ≤ 32)
    (F : List Nat) (ef : Bool) :
    (EncodeBit P bit p e).1.Inv
    ∧ ((EncodeBit P bit p e).1.Covers F →
        e.Covers ((EncodeBit P bit p e).2 ++ F)
        ∧ DecodeBit P p (e.withCode (code4 ((EncodeBit P bit p e).2 ++ F)))
            { data := ((EncodeBit P bit p e).2 ++ F).drop 4, eof := ef }
          = (if bit ≠ 0 then 1 else 0, (EncodeBit P bit p e).1.withCode (code4 F),
              { data := F.drop 4, eof := ef })) := by
  have hm := mid_bounds P p e hInv.1 (inv_lt e hInv) hp hP
  obtain ⟨hno, hnl, hnh, hb1, hb0⟩ := narrow_ordered bit (mid P p e) e hInv.1 hm
  obtain ⟨hro, hsync⟩ := renorm_sync 4 (narrow bit (mid P p e) e) hno F ef
  have hexit := renormEnc_exit (narrow bit (mid P p e) e)
  unfold EncodeBit
  refine ⟨⟨hro, Nat.le_of_not_lt hexit⟩, fun hcov => ?_⟩
  obtain ⟨⟨hstr, hlo, hhi⟩, hdec⟩ := hsync hcov
  refine ⟨⟨hstr, le_trans hnl hlo, le_trans hhi hnh⟩, ?_⟩
  unfold DecodeBit
  simp only [mid_withCode]
  have hcode : (e.withCode (code4 ((renormEnc 4 (narrow bit (mid P p e) e)).2 ++ F))).code
      = code4 ((renormEnc 4 (narrow bit (mid P p e) e)).2 ++ F) := rfl
  rw [hcode]
  by_cases hb : bit ≠ 0
  · have hle : code4 ((renormEnc 4 (narrow bit (mid P p e) e)).2 ++ F) ≤ mid P p e := by
      have := hb1 hb
      omega
    have hn : narrow 1 (mid P p e) e = narrow bit (mid P p e) e := by
      unfold narrow; rw [if_pos hb, if_pos (by norm_num)]
    simp only [if_pos hle, if_pos hb, narrow_withCode, hn]
    rw [hdec]
    rfl
  · have hb' : bit = 0 := by omega
    have hgt : ¬ code4 ((renormEnc 4 (narrow bit (mid P p e) e)).2 ++ F) ≤ mid P p e := by
      have := hb0 hb'
      omega
    have hn : narrow 0 (mid P p e) e = narrow bit (mid P p e) e := by
      rw [hb']
    simp only [if_neg hgt, if_neg hb, narrow_withCode, hn]
    rw [hdec]
    rfl

end Encoder

namespace Encoder

theorem init_inv : Encoder.init.Inv := by
  unfold Inv Ordered Encoder.init
  refine ⟨⟨by norm_num, by norm_num⟩, by decide⟩

/-- `Flush` writes the four bytes of `low`, most significant first. -/
theorem flush_covers (e : Encoder) (h : e.Ordered) : e.Covers (Flush e).2 := by
  unfold Ordered at h
  have hb : ∀ x : Nat, putc (x >>> 24) = x / 2 ^ 24 % 256 := by
    intro x; unfold putc; rw [Nat.shiftRight_eq_div_pow]
  have hs : ∀ x : Nat, (x <<< 8) % 2 ^ 32 = x * 256 % 2 ^ 32 := by
    intro x; rw [Nat.shiftLeft_eq]
  simp only [Flush, flushLoop, hb, hs, Covers, IsStream, code4, List.length_cons, List.length_nil,
    List.mem_cons, List.mem_singleton, List.not_mem_nil, or_false]
  refine ⟨⟨by omega, ?_⟩, by omega, by omega⟩
  intro b hb
  rcases hb with rfl | rfl | rfl | rfl <;> omega

/-- `Init` loads the first four bytes of the stream into `code`. -/
theorem init_view (F : List Nat) (ef : Bool) (h : IsStream F) :
    Init Encoder.init { data := F, eof := ef } = Encoder.init.view F ef := by
  obtain ⟨g0, g1, g2, g3, rest, rfl, h0, h1, h2, h3⟩ := isStream_destruct F h
  simp only [Init, initLoop, getc, view, withCode, Encoder.init, List.drop_succ_cons, List.drop_zero]
  rw [toU32_cast g0 (by omega), toU32_cast g1 (by omega), toU32_cast g2 (by omega),
    toU32_cast g3 (by omega), shl8_or _ _ h0, shl8_or _ _ h1, shl8_or _ _ h2, shl8_or _ _ h3]
  simp only [code4]
  congr 2
  omega

theorem bits_sync : ∀ (bs : List (Nat × Nat)) (e : Encoder), e.Inv → (∀ x ∈ bs, x.2 < 2 ^ 18) →
    ∀ (F : List Nat) (ef : Bool),
    (encodeBits bs e).1.Inv
    ∧ ((encodeBits bs e).1.Covers F →
        e.Covers ((encodeBits bs e).2 ++ F)
        ∧ decodeBits (bs.map Prod.snd) (e.withCode (code4 ((encodeBits bs e).2 ++ F)))
            { data := ((encodeBits bs e).2 ++ F).drop 4, eof := ef }
          = (bs.map (fun x => if x.1 ≠ 0 then 1 else 0), (encodeBits bs e).1.withCode (code4 F),
              { data := F.drop 4, eof := ef })) := by
  intro bs
  induction bs with
  | nil =>
    intro e hinv _ F ef
    exact ⟨hinv, fun hc => ⟨hc, rfl⟩⟩
  | cons x rest ih =>
    intro e hinv hq F ef
    have hx : x.2 < 2 ^ 18 := hq x (List.mem_cons_self _ _)
    obtain ⟨hinv1, _⟩ := encode_sync 18 x.1 x.2 e hinv hx (by norm_num) F ef
    obtain ⟨hinv2, hrest⟩ := ih (EncodeBit 18 x.1 x.2 e).1 hinv1
      (fun y hy => hq y (List.mem_cons_of_mem _ hy)) F ef
    simp only [encodeBits]
    refine ⟨hinv2, fun hcov => ?_⟩
    obtain ⟨hcov1, hdec1⟩ := hrest hcov
    obtain ⟨_, hstep⟩ := encode_sync 18 x.1 x.2 e hinv hx (by norm_num)
      ((encodeBits rest (EncodeBit 18 x.1 x.2 e).1).2 ++ F) ef
    obtain ⟨hcov0, hdec0⟩ := hstep hcov1
    rw [List.append_assoc]
    refine ⟨hcov0, ?_⟩
    simp only [decodeBits, List.map_cons, hdec0, hdec1]

end Encoder

/-- C2: for every sequence of bits (each 0 or 1) with probabilities below
`2^18` (0 included), coding them with `EncodeBit<18>` from the initial coder
state and calling `Flush`, then `Init` and `DecodeBit<18>` with the same
probabilities on the bytes written, returns the bits; the decoder has then
read exactly the bytes written. -/
theorem C2_range_coder_round_trip (bs : List (Nat × Nat))
    (hb : ∀ x ∈ bs, x.1 ≤ 1) (hq : ∀ x ∈ bs, 0 < x.2 ∧ x.2 < 2 ^ 18) :
    (Encoder.decodeStream (bs.map Prod.snd) (Encoder.encodeStream bs)).1 = bs.map Prod.fst
    ∧ (Encoder.decodeStream (bs.map Prod.snd) (Encoder.encodeStream bs)).2.2
        = { data := [], eof := false } := by
  obtain ⟨hinv, hsync⟩ := Encoder.bits_sync bs Encoder.init Encoder.init_inv
    (fun x hx => (hq x hx).2) (Encoder.Flush (Encoder.encodeBits bs Encoder.init).1).2 false
  have hfl := Encoder.flush_covers _ hinv.1
  obtain ⟨hcov, hdec⟩ := hsync hfl
  unfold Encoder.decodeStream Encoder.encodeStream
  rw [Encoder.init_view _ _ hcov.1]
  simp only [Encoder.view]
  rw [hdec]
  refine ⟨?_, ?_⟩
  · apply List.map_congr_left
    intro x hx
    have := hb x hx
    show (if x.1 ≠ 0 then 1 else 0) = x.1
    split <;> omega
  · show Input.mk (List.drop 4 (Encoder.Flush (Encoder.encodeBits bs Encoder.init).1).2) false = _
    rfl

theorem C2_range_coder_round_trip_witness :
    (∀ x ∈ [(1, 1), (0, 262143), (1, 70000), (1, 5), (0, 131072)], x.1 ≤ 1)
    ∧ (∀ x ∈ [(1, 1), (0, 262143), (1, 70000), (1, 5), (0, 131072)], 0 < x.2 ∧ x.2 < 2 ^ 18)
    ∧ (Encoder.decodeStream ([(1, 1), (0, 262143), (1, 70000), (1, 5), (0, 131072)].map Prod.snd)
        (Encoder.encodeStream [(1, 1), (0, 262143), (1, 70000), (1, 5), (0, 131072)])).1
      = [(1, 1), (0, 262143), (1, 70000), (1, 5), (0, 131072)].map Prod.fst
    ∧ (Encoder.decodeStream ([(1, 1), (0, 262143), (1, 70000), (1, 5), (0, 131072)].map Prod.snd)
        (Encoder.encodeStream [(1, 1), (0, 262143), (1, 70000), (1, 5), (0, 131072)])).2.2
      = { data := [], eof := false } :=
  ⟨by decide, by decide, C2_range_coder_round_trip _ (by decide) (by decide)⟩

/-! ### Context model -/

namespace CM

theorem masks8_eq : masks8 = bitMasks 8 := by decide

theorem masks32_eq : masks32 = bitMasks 32 := by decide

theorem mask_test (x i : Nat) : x &&& 2 ^ i ≠ 0 ↔ x / 2 ^ i % 2 = 1 := by
  rw [Nat.and_two_pow]
  have hpos : 0 < 2 ^ i := pow_pos (by norm_num) i
  have ht := @Nat.testBit_to_div_mod i x
  by_cases h : x / 2 ^ i % 2 = 1
  · simp only [h, decide_True] at ht
    simp [ht, h]
  · simp only [h, decide_False] at ht
    simp [ht, h]

theorem mod_two_pow_succ (x r : Nat) : x % 2 ^ (r + 1) = (x / 2 ^ r % 2) * 2 ^ r + x % 2 ^ r := by
  rw [Nat.mod_pow_succ]
  ring

theorem model_init_inv : CM.init.enc.Inv := Encoder.init_inv

theorem mod_absorb (a b c n : Nat) : (a % n * b + c) % n = (a * b + c) % n := by
  rw [Nat.add_mod, Nat.mul_mod, Nat.mod_mod, ← Nat.mul_mod, ← Nat.add_mod]

theorem bit_value (x r : Nat) : (if x &&& 2 ^ r ≠ 0 then 1 else 0) = x / 2 ^ r % 2 := by
  by_cases h : x &&& 2 ^ r ≠ 0
  · rw [if_pos h, (mask_test x r).mp h]
  · rw [if_neg h]
    have := (mask_test x r).not.mp h
    omega

theorem put32_loop_sync (x : Nat) (r : Nat) : ∀ (m : CM) (acc : Nat), m.enc.Inv → acc < 2 ^ 32 →
    ∀ (F : List Nat) (ef : Bool),
    (put32Loop (bitMasks r) x m).1.enc.Inv
    ∧ (put32Loop (bitMasks r) x m).1 = { m with enc := (put32Loop (bitMasks r) x m).1.enc }
    ∧ ((put32Loop (bitMasks r) x m).1.enc.Covers F →
        m.enc.Covers ((put32Loop (bitMasks r) x m).2 ++ F)
        ∧ get32Loop r acc (m.withCode (code4 ((put32Loop (bitMasks r) x m).2 ++ F)))
            { data := ((put32Loop (bitMasks r) x m).2 ++ F).drop 4, eof := ef }
          = ((acc * 2 ^ r + x % 2 ^ r) % 2 ^ 32,
              (put32Loop (bitMasks r) x m).1.withCode (code4 F),
              { data := F.drop 4, eof := ef })) := by
  induction r with
  | zero =>
    intro m acc hinv hacc F ef
    refine ⟨hinv, rfl, fun hc => ⟨hc, ?_⟩⟩
    simp only [bitMasks, put32Loop, get32Loop, List.nil_append, pow_zero, Nat.mul_one, Nat.mod_one,
      Nat.add_zero, Nat.mod_eq_of_lt hacc]
  | succ r ih =>
    intro m acc hinv hacc F ef
    obtain ⟨hinv1, _⟩ := Encoder.encode_sync 1 (x &&& 2 ^ r) 1 m.enc hinv (by norm_num)
      (by norm_num) F ef
    obtain ⟨hinv2, hsame, hrest⟩ := ih { m with enc := (m.enc.EncodeBit 1 (x &&& 2 ^ r) 1).1 }
      ((acc + (acc + x / 2 ^ r % 2)) % 2 ^ 32) hinv1 (Nat.mod_lt _ (by norm_num)) F ef
    simp only [bitMasks, put32Loop]
    refine ⟨hinv2, ?_, fun hcov => ?_⟩
    · rw [hsame]
    · obtain ⟨hcov1, hdec1⟩ := hrest hcov
      obtain ⟨_, hstep⟩ := Encoder.encode_sync 1 (x &&& 2 ^ r) 1 m.enc hinv (by norm_num)
        (by norm_num)
        ((put32Loop (bitMasks r) x { m with enc := (m.enc.EncodeBit 1 (x &&& 2 ^ r) 1).1 }).2 ++ F)
        ef
      obtain ⟨hcov0, hdec0⟩ := hstep hcov1
      rw [List.append_assoc]
      refine ⟨hcov0, ?_⟩
      rw [get32Loop]
      have hd : (m.withCode (code4 ((m.enc.EncodeBit 1 (x &&& 2 ^ r) 1).2 ++
          ((put32Loop (bitMasks r) x { m with enc := (m.enc.EncodeBit 1 (x &&& 2 ^ r) 1).1 }).2
            ++ F)))).enc = m.enc.withCode (code4 ((m.enc.EncodeBit 1 (x &&& 2 ^ r) 1).2 ++
          ((put32Loop (bitMasks r) x { m with enc := (m.enc.EncodeBit 1 (x &&& 2 ^ r) 1).1 }).2
            ++ F))) := rfl
      simp only [hd, hdec0, bit_value]
      have hres : (((acc + (acc + x / 2 ^ r % 2)) % 2 ^ 32) * 2 ^ r + x % 2 ^ r) % 2 ^ 32
          = (acc * 2 ^ (r + 1) + x % 2 ^ (r + 1)) % 2 ^ 32 := by
        rw [mod_absorb, mod_two_pow_succ x r]
        congr 1
        ring
      rw [← hres, ← hdec1]
      rfl

/-- `Put32` keeps the coder invariant, leaves the model tables alone, and
`Get32` reads the value back. -/
theorem put32_sync (x : Nat) (hx : x < 2 ^ 32) (m : CM) (hinv : m.enc.Inv)
    (F : List Nat) (ef : Bool) :
    (Put32 x m).1.enc.Inv
    ∧ (Put32 x m).1 = { m with enc := (Put32 x m).1.enc }
    ∧ ((Put32 x m).1.enc.Covers F →
        m.enc.Covers ((Put32 x m).2 ++ F)
        ∧ Get32 (m.withCode (code4 ((Put32 x m).2 ++ F)))
            { data := ((Put32 x m).2 ++ F).drop 4, eof := ef }
          = (x, (Put32 x m).1.withCode (code4 F), { data := F.drop 4, eof := ef })) := by
  have h := put32_loop_sync x 32 m 0 hinv (by norm_num) F ef
  unfold Put32 Get32
  rw [masks32_eq]
  have hv : (0 * 2 ^ 32 + x % 2 ^ 32) % 2 ^ 32 = x := by omega
  rw [hv] at h
  exact h

end CM

namespace CM

theorem toU16_le (x : Int) : toU16 x ≤ 0xFFFF := by
  unfold toU16
  omega

theorem init_bounded : CM.init.Bounded := by
  have h : Counter.init ≤ 0xFFFF := by decide
  exact ⟨fun _ => h, fun _ _ => h, fun _ _ k => toU16_le _⟩

theorem update_pred {α : Type} (P : α → Prop) (t : Nat → α) (a : Nat) (v : α)
    (ht : ∀ i, P (t i)) (hv : P v) : ∀ i, P (Function.update t a v i) := by
  intro i
  rw [Function.update_apply]
  split
  · exact hv
  · exact ht i

theorem update_bounded (bit f ctx j : Nat) (m : CM) (h : m.Bounded) :
    (update bit f ctx j m).Bounded := by
  have hu : ∀ r p, (if bit ≠ 0 then Counter.Update1 r p else Counter.Update0 r p) ≤ 0xFFFF := by
    intro r p
    split
    · exact toU16_le _
    · exact toU16_le _
  obtain ⟨h0, h1, h2⟩ := h
  refine ⟨fun i => ?_, fun a i => ?_, fun g i k => ?_⟩
  · exact update_pred (fun v => v ≤ 0xFFFF) m.counter0 ctx _ h0 (hu _ _) i
  · exact update_pred (fun row : Nat → Nat => ∀ i, row i ≤ 0xFFFF) m.counter1 m.c1 _ h1
      (update_pred (fun v => v ≤ 0xFFFF) (m.counter1 m.c1) ctx _ (h1 _) (hu _ _)) a i
  · exact update_pred (fun tbl : Nat → Nat → Nat => ∀ i k, tbl i k ≤ 0xFFFF) m.counter2 f _ h2
      (update_pred (fun row : Nat → Nat => ∀ k, row k ≤ 0xFFFF) (m.counter2 f) ctx _ (h2 _)
        (update_pred (fun v => v ≤ 0xFFFF) _ (j + 1) _
          (update_pred (fun v => v ≤ 0xFFFF) (m.counter2 f ctx) j _ (h2 _ _) (hu _ _))
          (hu _ _))) g i k

theorem ssep_bounds (x1 x2 fr : Nat) (h1 : x1 ≤ 0xFFFF) (h2 : x2 ≤ 0xFFFF) (hf : fr ≤ 4095) :
    0 ≤ (x1 : Int) + ((((x2 : Int) - (x1 : Int)) * (fr : Int)) >>> (12 : Nat))
    ∧ (x1 : Int) + ((((x2 : Int) - (x1 : Int)) * (fr : Int)) >>> (12 : Nat)) ≤ 0xFFFF := by
  rw [Int.shiftRight_eq_div_pow]
  have h4096 : ((2 ^ 12 : Nat) : Int) = 4096 := by norm_num
  rw [h4096]
  rcases le_or_lt x1 x2 with hle | hlt
  · have ht0 : 0 ≤ ((x2 : Int) - (x1 : Int)) * (fr : Int) :=
      mul_nonneg (by omega) (by omega)
    have ht1 : ((x2 : Int) - (x1 : Int)) * (fr : Int) ≤ ((x2 : Int) - (x1 : Int)) * 4095 :=
      mul_le_mul_of_nonneg_left (by omega) (by omega)
    generalize ((x2 : Int) - (x1 : Int)) * (fr : Int) = t at ht0 ht1
    omega
  · have ht0 : ((x2 : Int) - (x1 : Int)) * (fr : Int) ≤ 0 :=
      mul_nonpos_of_nonpos_of_nonneg (by omega) (by omega)
    have ht1 : ((x2 : Int) - (x1 : Int)) * 4095 ≤ ((x2 : Int) - (x1 : Int)) * (fr : Int) :=
      mul_le_mul_of_nonpos_left (by omega) (by omega)
    generalize ((x2 : Int) - (x1 : Int)) * (fr : Int) = t at ht0 ht1
    omega

theorem mixP_le (m : CM) (h : m.Bounded) (ctx : Nat) : m.mixP ctx ≤ 0xFFFF := by
  unfold mixP
  rw [Nat.shiftRight_eq_div_pow]
  have h0 := h.1 ctx
  have h1 := h.2.1 m.c1 ctx
  have h2 := h.2.1 m.c2 ctx
  omega

theorem toU32_of_nonneg (x : Int) (h0 : 0 ≤ x) (h1 : x < 4294967296) : (toU32 x : Int) = x := by
  unfold toU32
  rw [Int.emod_eq_of_lt h0 h1]
  exact Int.toNat_of_nonneg h0

/-- The probability handed to the coder is below `2^18`. -/
theorem prob_lt (m : CM) (h : m.Bounded) (f ctx : Nat) : m.prob f ctx < 2 ^ 18 := by
  have hp := mixP_le m h ctx
  have hfr : m.mixP ctx &&& 4095 ≤ 4095 := Nat.and_le_right
  have hs := ssep_bounds (m.counter2 f ctx (m.sseJ ctx)) (m.counter2 f ctx (m.sseJ ctx + 1))
    (m.mixP ctx &&& 4095) (h.2.2 _ _ _) (h.2.2 _ _ _) hfr
  unfold prob
  have hs' : m.ssep f ctx = (m.counter2 f ctx (m.sseJ ctx) : Int) +
    ((((m.counter2 f ctx (m.sseJ ctx + 1) : Int) - (m.counter2 f ctx (m.sseJ ctx) : Int)) *
      ((m.mixP ctx &&& 4095 : Nat) : Int)) >>> (12 : Nat)) := rfl
  rw [← hs'] at hs
  generalize m.ssep f ctx = s at hs
  have hcast := toU32_of_nonneg ((m.mixP ctx : Int) + s + s + s) (by omega) (by omega)
  omega

theorem update_withCode (bit f ctx j : Nat) (m : CM) (e : Encoder) (c c2 : Nat) :
    update bit f ctx j { m.withCode c with enc := e.withCode c2 }
      = (update bit f ctx j { m with enc := e }).withCode c2 := by
  simp only [update, withCode]

theorem history_withCode (ctx : Nat) (m : CM) (c : Nat) :
    history ctx (m.withCode c) = (history ctx m).withCode c := by
  simp only [history, withCode]

theorem put_loop_sync (c f : Nat) (r : Nat) : ∀ (ctx : Nat) (m : CM), m.enc.Inv → m.Bounded →
    (ctx + 1) * 2 ^ r ≤ 512 → ∀ (F : List Nat) (ef : Bool),
    (putLoop (bitMasks r) c f ctx m).1.1.enc.Inv
    ∧ (putLoop (bitMasks r) c f ctx m).1.1.Bounded
    ∧ (putLoop (bitMasks r) c f ctx m).1.2 = ctx * 2 ^ r + c % 2 ^ r
    ∧ ((putLoop (bitMasks r) c f ctx m).1.1.enc.Covers F →
        m.enc.Covers ((putLoop (bitMasks r) c f ctx m).2 ++ F)
        ∧ getLoop r f ctx (m.withCode (code4 ((putLoop (bitMasks r) c f ctx m).2 ++ F)))
            { data := ((putLoop (bitMasks r) c f ctx m).2 ++ F).drop 4, eof := ef }
          = ((putLoop (bitMasks r) c f ctx m).1.1.withCode (code4 F),
              (putLoop (bitMasks r) c f ctx m).1.2,
              { data := F.drop 4, eof := ef })) := by
  induction r with
  | zero =>
    intro ctx m hinv hb _ F ef
    refine ⟨hinv, hb, ?_, fun hc => ⟨hc, rfl⟩⟩
    simp [bitMasks, putLoop, Nat.mod_one]
  | succ r ih =>
    intro ctx m hinv hb hctx F ef
    have hq := prob_lt m hb f ctx
    have hlt : ctx < 256 := by
      have h2 : 2 ≤ 2 ^ (r + 1) := by
        calc 2 = 2 ^ 1 := rfl
          _ ≤ 2 ^ (r + 1) := Nat.pow_le_pow_right (by norm_num) (by omega)
      nlinarith
    have hpow : 2 ^ (r + 1) = 2 * 2 ^ r := by ring
    by_cases hbit : c &&& 2 ^ r ≠ 0
    · have hbv : c / 2 ^ r % 2 = 1 := (mask_test c r).mp hbit
      obtain ⟨hinv1, _⟩ := Encoder.encode_sync 18 1 (m.prob f ctx) m.enc hinv hq (by norm_num) F ef
      have hb1 := update_bounded 1 f ctx (m.sseJ ctx)
        { m with enc := (m.enc.EncodeBit 18 1 (m.prob f ctx)).1 } hb
      obtain ⟨hinv2, hb2, hctx2, hrest⟩ := ih (ctx + (ctx + 1))
        (update 1 f ctx (m.sseJ ctx) { m with enc := (m.enc.EncodeBit 18 1 (m.prob f ctx)).1 })
        hinv1 hb1 (by rw [hpow] at hctx; nlinarith) F ef
      simp only [bitMasks, putLoop, if_pos hbit]
      refine ⟨hinv2, hb2, ?_, fun hcov => ?_⟩
      · rw [hctx2, mod_two_pow_succ c r, hbv]; ring
      · obtain ⟨hcov1, hdec1⟩ := hrest hcov
        obtain ⟨_, hstep⟩ := Encoder.encode_sync 18 1 (m.prob f ctx) m.enc hinv hq (by norm_num)
          ((putLoop (bitMasks r) c f (ctx + (ctx + 1)) (update 1 f ctx (m.sseJ ctx)
            { m with enc := (m.enc.EncodeBit 18 1 (m.prob f ctx)).1 })).2 ++ F) ef
        obtain ⟨hcov0, hdec0⟩ := hstep hcov1
        rw [List.append_assoc]
        refine ⟨hcov0, ?_⟩
        rw [getLoop, if_pos hlt]
        have hd : ∀ c0, (m.withCode c0).enc = m.enc.withCode c0 := fun _ => rfl
        have hpr : ∀ c0, (m.withCode c0).prob f ctx = m.prob f ctx := fun _ => rfl
        have hj : ∀ c0, (m.withCode c0).sseJ ctx = m.sseJ ctx := fun _ => rfl
        simp only [hd, hpr, hj, hdec0]
        rw [if_pos (by norm_num), update_withCode]
        exact hdec1
    · have hbv : c / 2 ^ r % 2 = 0 := by
        have := (mask_test c r).not.mp hbit
        omega
      obtain ⟨hinv1, _⟩ := Encoder.encode_sync 18 0 (m.prob f ctx) m.enc hinv hq (by norm_num) F ef
      have hb1 := update_bounded 0 f ctx (m.sseJ ctx)
        { m with enc := (m.enc.EncodeBit 18 0 (m.prob f ctx)).1 } hb
      obtain ⟨hinv2, hb2, hctx2, hrest⟩ := ih (ctx + ctx)
        (update 0 f ctx (m.sseJ ctx) { m with enc := (m.enc.EncodeBit 18 0 (m.prob f ctx)).1 })
        hinv1 hb1 (by rw [hpow] at hctx; nlinarith) F ef
      simp only [bitMasks, putLoop, if_neg hbit]
      refine ⟨hinv2, hb2, ?_, fun hcov => ?_⟩
      · rw [hctx2, mod_two_pow_succ c r, hbv]; ring
      · obtain ⟨hcov1, hdec1⟩ := hrest hcov
        obtain ⟨_, hstep⟩ := Encoder.encode_sync 18 0 (m.prob f ctx) m.enc hinv hq (by norm_num)
          ((putLoop (bitMasks r) c f (ctx + ctx) (update 0 f ctx (m.sseJ ctx)
            { m with enc := (m.enc.EncodeBit 18 0 (m.prob f ctx)).1 })).2 ++ F) ef
        obtain ⟨hcov0, hdec0⟩ := hstep hcov1
        rw [List.append_assoc]
        refine ⟨hcov0, ?_⟩
        rw [getLoop, if_pos hlt]
        have hd : ∀ c0, (m.withCode c0).enc = m.enc.withCode c0 := fun _ => rfl
        have hpr : ∀ c0, (m.withCode c0).prob f ctx = m.prob f ctx := fun _ => rfl
        have hj : ∀ c0, (m.withCode c0).sseJ ctx = m.sseJ ctx := fun _ => rfl
        simp only [hd, hpr, hj, hdec0]
        rw [if_neg (by norm_num), update_withCode]
        exact hdec1

theorem history_enc (ctx : Nat) (m : CM) : (history ctx m).enc = m.enc := by
  simp only [history]

theorem history_bounded (ctx : Nat) (m : CM) (h : m.Bounded) : (history ctx m).Bounded := by
  unfold Bounded at h ⊢
  simp only [history]
  exact h

/-- `Put` keeps the coder invariant and the counters 16-bit, and `Get` reads
the byte back, ending in the same model state. -/
theorem put_sync (c : Nat) (hc : c < 256) (m : CM) (hinv : m.enc.Inv) (hb : m.Bounded)
    (F : List Nat) (ef : Bool) :
    (Put c m).1.enc.Inv ∧ (Put c m).1.Bounded
    ∧ ((Put c m).1.enc.Covers F →
        m.enc.Covers ((Put c m).2 ++ F)
        ∧ Get (m.withCode (code4 ((Put c m).2 ++ F)))
            { data := ((Put c m).2 ++ F).drop 4, eof := ef }
          = (c, (Put c m).1.withCode (code4 F), { data := F.drop 4, eof := ef })) := by
  have h512 : (1 + 1) * 2 ^ 8 ≤ 512 := by norm_num
  obtain ⟨h1, h2, h3, h4⟩ := put_loop_sync c m.runFlag 8 1 m hinv hb h512 F ef
  unfold Put
  rw [masks8_eq]
  dsimp only
  rw [history_enc]
  refine ⟨h1, history_bounded _ _ h2, fun hcov => ?_⟩
  obtain ⟨hcov0, hdec⟩ := h4 hcov
  refine ⟨hcov0, ?_⟩
  unfold Get
  have hf : ∀ c0, (m.withCode c0).runFlag = m.runFlag := fun _ => rfl
  simp only [hf, hdec, history_withCode]
  have hc1 : ∀ c0, ((history (putLoop (bitMasks 8) c m.runFlag 1 m).1.2
      (putLoop (bitMasks 8) c m.runFlag 1 m).1.1).withCode c0).c1 = c := by
    intro c0
    show (putLoop (bitMasks 8) c m.runFlag 1 m).1.2 - 256 = c
    rw [h3]
    omega
  rw [hc1]

end CM

/-! ### Block headers and the empty input -/

theorem compress_nil (bwt : List Nat → List Nat × Int) (bsize : Nat) :
    Compress bwt bsize []
      = .ok ((CM.Put32 0 CM.init).2 ++ (CM.Put32 (CRC.value CRC.init) (CM.Put32 0 CM.init).1).2
          ++ (Encoder.Flush (CM.Put32 (CRC.value CRC.init) (CM.Put32 0 CM.init).1).1.enc).2) := by
  simp only [Compress, List.length_nil, compressLoop, compressStep, List.take_nil, Nat.lt_irrefl,
    if_false, gt_iff_lt, List.nil_append]

/-- C10: for the empty input (any block size, any BWT primitive) `Compress`
writes the coding of `Put32(0)`, `Put32(0)` (the CRC of no bytes) and the
four flush bytes, which are the twelve bytes FF×8, 00×4; `Decompress` on them
returns normally with empty output. -/
theorem C10_empty_input (bwt : List Nat → List Nat × Int) (bsize fuel : Nat) :
    Compress bwt bsize []
      = .ok ((CM.Put32 0 CM.init).2 ++ (CM.Put32 0 (CM.Put32 0 CM.init).1).2
          ++ (Encoder.Flush (CM.Put32 0 (CM.Put32 0 CM.init).1).1.enc).2)
    ∧ CRC.value CRC.init = 0
    ∧ Compress bwt bsize []
      = .ok [0xFF, 0xFF, 0xFF, 0xFF, 0xFF, 0xFF, 0xFF, 0xFF, 0x00, 0x00, 0x00, 0x00]
    ∧ Decompress (fuel + 1) [0xFF, 0xFF, 0xFF, 0xFF, 0xFF, 0xFF, 0xFF, 0xFF, 0x00, 0x00, 0x00, 0x00]
      = { out := [], failure := none } := by
  refine ⟨compress_nil bwt bsize, by rfl, ?_, by rfl⟩
  rw [compress_nil]
  rfl

/-- C8 (as stated, refuted): on the stream `7F FF FF FF FF FF FF FF 00 00 00 00`
the first `Get32` returns `n = 0x80000000`, which is not 0, and `Decompress`
treats it as the end of the stream (it goes on to the CRC check and returns). -/
theorem C8_counterexample :
    (CM.Get32 (CM.start [0x7F, 0xFF, 0xFF, 0xFF, 0xFF, 0xFF, 0xFF, 0xFF, 0, 0, 0, 0]).1
      (CM.start [0x7F, 0xFF, 0xFF, 0xFF, 0xFF, 0xFF, 0xFF, 0xFF, 0, 0, 0, 0]).2).1 = 0x80000000
    ∧ classify 0x80000000 0 0 = .stop
    ∧ Decompress 1 [0x7F, 0xFF, 0xFF, 0xFF, 0xFF, 0xFF, 0xFF, 0xFF, 0, 0, 0, 0]
      = { out := [], failure := none } := by
  refine ⟨by rfl, by rfl, by rfl⟩

theorem toInt32_pos (x : Nat) (hx : x < 2 ^ 32) : toInt32 x > 0 ↔ (x ≠ 0 ∧ x < 2 ^ 31) := by
  unfold toInt32
  split <;> omega

theorem toInt32_small (x : Nat) (hx : x < 2 ^ 31) : toInt32 x = (x : Int) := by
  unfold toInt32
  split <;> omega

theorem classify_eq (n idx : Nat) (bsize : Int) : classify n idx bsize =
    if toInt32 n > 0 then
      (if toInt32 n > (if bsize = 0 then toInt32 n else bsize) ∨ toInt32 idx < 1
          ∨ toInt32 idx > toInt32 n then .corrupt
        else .block (toInt32 n) (toInt32 idx) (if bsize = 0 then toInt32 n else bsize))
    else .stop := rfl

theorem decompressLoop_succ (k : Nat) (cm : CM) (inp : Input) (crc : Nat) (bsize : Int)
    (ptr : Int → Int) :
    decompressLoop (k + 1) cm inp crc bsize ptr
      = decompressStep (decompressLoop k) cm inp crc bsize ptr := rfl

theorem compressLoop_succ (bwt : List Nat → List Nat × Int) (bsize k : Nat) (inp : List Nat)
    (cm : CM) (crc : Nat) :
    compressLoop bwt bsize (k + 1) inp cm crc
      = compressStep bwt bsize (compressLoop bwt bsize k) inp cm crc := rfl

/-- C8 (amended): a block header ends the stream exactly when `n`, read as a
signed 32-bit value, is not positive (`n = 0` or `n ≥ 2^31`); otherwise the
run fails with `Corrupt input!` exactly when `n` exceeds the allocated size
(the first block's length) or `idx < 1` or `idx > n`; otherwise the block's
`n` bytes are decoded. -/
theorem C8_header_classification (n idx : Nat) (bsize : Int) (hn : n < 2 ^ 32)
    (hidx : idx < 2 ^ 32) :
    (classify n idx bsize = .stop ↔ (n = 0 ∨ 2 ^ 31 ≤ n))
    ∧ (¬ (n = 0 ∨ 2 ^ 31 ≤ n) →
        (classify n idx bsize = .corrupt ↔
          ((n : Int) > (if bsize = 0 then (n : Int) else bsize) ∨ idx < 1 ∨ idx > n)))
    ∧ (¬ (n = 0 ∨ 2 ^ 31 ≤ n) →
        ¬ ((n : Int) > (if bsize = 0 then (n : Int) else bsize) ∨ idx < 1 ∨ idx > n) →
        classify n idx bsize = .block n idx (if bsize = 0 then (n : Int) else bsize))
    ∧ (∀ (k : Nat) (cm : CM) (inp : Input) (crc : Nat) (ptr : Int → Int),
        n = (cm.Get32 inp).1 → idx = ((cm.Get32 inp).2.1.Get32 (cm.Get32 inp).2.2).1 →
        (classify n idx bsize = .stop →
          (decompressLoop (k + 1) cm inp crc bsize ptr).out = []
          ∧ ((decompressLoop (k + 1) cm inp crc bsize ptr).failure = none
            ∨ (decompressLoop (k + 1) cm inp crc bsize ptr).failure = some .crc))
        ∧ (classify n idx bsize = .corrupt →
          decompressLoop (k + 1) cm inp crc bsize ptr = { out := [], failure := some .corrupt })
        ∧ (∀ n1 idx1 b1, classify n idx bsize = .block n1 idx1 b1 →
          decompressLoop (k + 1) cm inp crc bsize ptr
            = match decompressBlock n1 idx1 b1 ((cm.Get32 inp).2.1.Get32 (cm.Get32 inp).2.2).2.1
                  ((cm.Get32 inp).2.1.Get32 (cm.Get32 inp).2.2).2.2 ptr with
              | none => { out := [], failure := some .bounds }
              | some t =>
                { out := t.1 ++ (decompressLoop k t.2.2.1 t.2.2.2 (CRC.Update crc t.1) b1 t.2.1).out,
                  failure :=
                    (decompressLoop k t.2.2.1 t.2.2.2 (CRC.Update crc t.1) b1 t.2.1).failure })) := by
  have hpos := toInt32_pos n hn
  have hi : ∀ m : Nat, m < 2 ^ 31 →
      ((toInt32 idx < 1 ∨ toInt32 idx > (m : Int)) ↔ (idx < 1 ∨ idx > m)) := by
    intro m hm
    unfold toInt32
    split <;> omega
  refine ⟨?_, ?_, ?_, ?_⟩
  · rw [classify_eq]
    by_cases h : toInt32 n > 0
    · have h2 := hpos.mp h
      rw [if_pos h]
      constructor
      · intro hc
        by_cases hcc : toInt32 n > (if bsize = 0 then toInt32 n else bsize) ∨ toInt32 idx < 1
            ∨ toInt32 idx > toInt32 n
        · rw [if_pos hcc] at hc
          cases hc
        · rw [if_neg hcc] at hc
          cases hc
      · intro hc; omega
    · have h2 : ¬ (n ≠ 0 ∧ n < 2 ^ 31) := fun hh => h (hpos.mpr hh)
      rw [if_neg h]
      simp only [true_iff]
      omega
  · intro hns
    have hlt : n < 2 ^ 31 := by omega
    have h : toInt32 n > 0 := hpos.mpr ⟨by omega, hlt⟩
    have hnn := toInt32_small n hlt
    rw [classify_eq, if_pos h, hnn]
    by_cases hc : (n : Int) > (if bsize = 0 then (n : Int) else bsize) ∨ toInt32 idx < 1
        ∨ toInt32 idx > (n : Int)
    · rw [if_pos hc]
      simp only [true_iff]
      rcases hc with hc | hc
      · exact Or.inl hc
      · exact Or.inr ((hi n hlt).mp hc)
    · rw [if_neg hc]
      constructor
      · intro hcc; cases hcc
      · intro hc2
        exfalso
        apply hc
        rcases hc2 with hc2 | hc2
        · exact Or.inl hc2
        · exact Or.inr ((hi n hlt).mpr hc2)
  · intro hns hnc
    have hlt : n < 2 ^ 31 := by omega
    have h : toInt32 n > 0 := hpos.mpr ⟨by omega, hlt⟩
    have hnn := toInt32_small n hlt
    have hilt : idx < 2 ^ 31 := by omega
    have hii := toInt32_small idx hilt
    rw [classify_eq, if_pos h, hnn, hii, if_neg]
    intro hc
    apply hnc
    rcases hc with hc | hc | hc
    · exact Or.inl hc
    · exact Or.inr (Or.inl (by omega))
    · exact Or.inr (Or.inr (by omega))
  · intro k cm inp crc ptr hn' hidx'
    subst hn' hidx'
    rw [decompressLoop_succ]
    unfold decompressStep
    refine ⟨?_, ?_, ?_⟩
    · intro hc
      simp only [hc]
      split
      · exact ⟨rfl, Or.inr rfl⟩
      · exact ⟨rfl, Or.inl rfl⟩
    · intro hc
      simp only [hc]
    · intro n1 idx1 b1 hc
      simp only [hc]

theorem C8_header_classification_witness :
    (5 : Nat) < 2 ^ 32 ∧ (2 : Nat) < 2 ^ 32 ∧
    ((classify 5 2 0 = .stop ↔ ((5 : Nat) = 0 ∨ 2 ^ 31 ≤ (5 : Nat)))
    ∧ (¬ ((5 : Nat) = 0 ∨ 2 ^ 31 ≤ (5 : Nat)) →
        (classify 5 2 0 = .corrupt ↔
          (((5 : Nat) : Int) > (if (0 : Int) = 0 then ((5 : Nat) : Int) else (0 : Int)) ∨ (2 : Nat) < 1 ∨ (2 : Nat) > 5)))
    ∧ (¬ ((5 : Nat) = 0 ∨ 2 ^ 31 ≤ (5 : Nat)) →
        ¬ (((5 : Nat) : Int) > (if (0 : Int) = 0 then ((5 : Nat) : Int) else (0 : Int)) ∨ (2 : Nat) < 1 ∨ (2 : Nat) > 5) →
        classify 5 2 0 = .block ((5 : Nat) : Int) ((2 : Nat) : Int) (if (0 : Int) = 0 then ((5 : Nat) : Int) else (0 : Int)))
    ∧ (∀ (k : Nat) (cm : CM) (inp : Input) (crc : Nat) (ptr : Int → Int),
        5 = (cm.Get32 inp).1 → 2 = ((cm.Get32 inp).2.1.Get32 (cm.Get32 inp).2.2).1 →
        (classify 5 2 0 = .stop →
          (decompressLoop (k + 1) cm inp crc 0 ptr).out = []
          ∧ ((decompressLoop (k + 1) cm inp crc 0 ptr).failure = none
            ∨ (decompressLoop (k + 1) cm inp crc 0 ptr).failure = some .crc))
        ∧ (classify 5 2 0 = .corrupt →
          decompressLoop (k + 1) cm inp crc 0 ptr = { out := [], failure := some .corrupt })
        ∧ (∀ n1 idx1 b1, classify 5 2 0 = .block n1 idx1 b1 →
          decompressLoop (k + 1) cm inp crc 0 ptr
            = match decompressBlock n1 idx1 b1 ((cm.Get32 inp).2.1.Get32 (cm.Get32 inp).2.2).2.1
                  ((cm.Get32 inp).2.1.Get32 (cm.Get32 inp).2.2).2.2 ptr with
              | none => { out := [], failure := some .bounds }
              | some t =>
                { out := t.1 ++ (decompressLoop k t.2.2.1 t.2.2.2 (CRC.Update crc t.1) b1 t.2.1).out,
                  failure :=
                    (decompressLoop k t.2.2.1 t.2.2.2 (CRC.Update crc t.1) b1 t.2.1).failure }))) :=
  ⟨by norm_num, by norm_num, C8_header_classification 5 2 0 (by norm_num) (by norm_num)⟩

/-! ### Round trip through the model -/

namespace CM

theorem encodeBit_congr (P b1 b2 p : Nat) (e : Encoder) (h : b1 ≠ 0 ↔ b2 ≠ 0) :
    e.EncodeBit P b1 p = e.EncodeBit P b2 p := by
  unfold Encoder.EncodeBit Encoder.narrow
  by_cases h1 : b1 ≠ 0
  · rw [if_pos h1, if_pos (h.mp h1)]
  · rw [if_neg h1, if_neg (fun h2 => h1 (h.mpr h2))]

theorem put32Loop_eq_spec (x r : Nat) : ∀ m : CM, put32Loop (bitMasks r) x m = put32Spec r x m := by
  induction r with
  | zero => intro m; rfl
  | succ r ih =>
    intro m
    have hb : x &&& 2 ^ r ≠ 0 ↔ x / 2 ^ r % 2 ≠ 0 := by
      rw [mask_test]
      omega
    simp only [bitMasks, put32Loop, put32Spec, encodeBit_congr 1 _ _ 1 m.enc hb, ih]

theorem items_sync : ∀ (items : List Item) (m : CM), m.enc.Inv → m.Bounded →
    (∀ it ∈ items, it.Valid) → ∀ (F : List Nat) (ef : Bool),
    (encodeItems items m).1.enc.Inv ∧ (encodeItems items m).1.Bounded
    ∧ ((encodeItems items m).1.enc.Covers F →
        m.enc.Covers ((encodeItems items m).2 ++ F)
        ∧ decodeCalls (items.map Item.call) (m.withCode (code4 ((encodeItems items m).2 ++ F)))
            { data := ((encodeItems items m).2 ++ F).drop 4, eof := ef }
          = (items, (encodeItems items m).1.withCode (code4 F), { data := F.drop 4, eof := ef })) := by
  intro items
  induction items with
  | nil =>
    intro m hinv hb _ F ef
    exact ⟨hinv, hb, fun hc => ⟨hc, rfl⟩⟩
  | cons it rest ih =>
    intro m hinv hb hv F ef
    have hit : it.Valid := hv it (List.mem_cons_self _ _)
    have hrestv : ∀ i ∈ rest, i.Valid := fun i hi => hv i (List.mem_cons_of_mem _ hi)
    cases it with
    | word x =>
      obtain ⟨hinv1, hsame, _⟩ := put32_sync x hit m hinv F ef
      have hb1 : (Put32 x m).1.Bounded := by
        rw [hsame]; exact hb
      obtain ⟨hinv2, hb2, hrest⟩ := ih (Put32 x m).1 hinv1 hb1 hrestv F ef
      simp only [encodeItems, encodeItem]
      refine ⟨hinv2, hb2, fun hcov => ?_⟩
      obtain ⟨hcov1, hdec1⟩ := hrest hcov
      obtain ⟨_, _, hstep⟩ := put32_sync x hit m hinv ((encodeItems rest (Put32 x m).1).2 ++ F) ef
      obtain ⟨hcov0, hdec0⟩ := hstep hcov1
      rw [List.append_assoc]
      refine ⟨hcov0, ?_⟩
      simp only [List.map_cons, Item.call, decodeCalls, decodeCall, hdec0, hdec1]
    | byte c =>
      obtain ⟨hinv1, hb1, _⟩ := put_sync c hit m hinv hb F ef
      obtain ⟨hinv2, hb2, hrest⟩ := ih (Put c m).1 hinv1 hb1 hrestv F ef
      simp only [encodeItems, encodeItem]
      refine ⟨hinv2, hb2, fun hcov => ?_⟩
      obtain ⟨hcov1, hdec1⟩ := hrest hcov
      obtain ⟨_, _, hstep⟩ := put_sync c hit m hinv hb ((encodeItems rest (Put c m).1).2 ++ F) ef
      obtain ⟨hcov0, hdec0⟩ := hstep hcov1
      rw [List.append_assoc]
      refine ⟨hcov0, ?_⟩
      simp only [List.map_cons, Item.call, decodeCalls, decodeCall, hdec0, hdec1]

theorem encodeItems_append (a b : List Item) (m : CM) :
    encodeItems (a ++ b) m
      = ((encodeItems b (encodeItems a m).1).1, (encodeItems a m).2 ++ (encodeItems b (encodeItems a m).1).2) := by
  induction a generalizing m with
  | nil => simp [encodeItems]
  | cons it a ih =>
    rw [List.cons_append]
    simp only [encodeItems]
    rw [ih]
    simp only [List.append_assoc]

/-- `Init` on a stream that the initial coder covers. -/
theorem start_eq (F : List Nat) (h : IsStream F) :
    start F = (CM.init.withCode (code4 F), { data := F.drop 4, eof := false }) := by
  unfold start
  have := Encoder.init_view F false h
  have hi : CM.init.enc = Encoder.init := rfl
  rw [hi, this]
  rfl

end CM

/-- C3: for every sequence of items (32-bit words coded with `Put32`, bytes
coded with `Put`), coding them from the initial state and calling `Flush`
gives a stream from which `Init` and the matching calls of `Get32` / `Get`
return the same items in order; the decoder then has read exactly the bytes
written (nothing is left and no read was attempted at end of file), and after
every item the decoder's model (counter tables, `c1`, `c2`, `run`, `low`,
`high`) is the encoder's, up to the decoder's `code` word. -/
theorem C3_model_round_trip (items : List Item) (hv : ∀ it ∈ items, it.Valid) :
    (CM.decodeStream (items.map Item.call) (CM.encodeStream items)).1 = items
    ∧ (CM.decodeStream (items.map Item.call) (CM.encodeStream items)).2.2
        = { data := [], eof := false }
    ∧ ∀ k, k ≤ items.length → ∃ c,
        (CM.decodeStream ((items.take k).map Item.call) (CM.encodeStream items)).2.1
          = (CM.encodeItems (items.take k) CM.init).1.withCode c := by
  have hall := CM.items_sync items CM.init CM.model_init_inv CM.init_bounded hv
    (Encoder.Flush (CM.encodeItems items CM.init).1.enc).2 false
  obtain ⟨hinv, _, hsync⟩ := hall
  have hfl := Encoder.flush_covers _ hinv.1
  obtain ⟨hcov, hdec⟩ := hsync hfl
  have hstart := CM.start_eq (CM.encodeStream items) hcov.1
  refine ⟨?_, ?_, ?_⟩
  · unfold CM.decodeStream
    rw [hstart]
    unfold CM.encodeStream
    rw [hdec]
  · unfold CM.decodeStream
    rw [hstart]
    unfold CM.encodeStream
    rw [hdec]
    show Input.mk (List.drop 4 (Encoder.Flush (CM.encodeItems items CM.init).1.enc).2) false = _
    rfl
  · intro k _
    have hsplit : items = items.take k ++ items.drop k := (List.take_append_drop k items).symm
    have hvk : ∀ it ∈ items.take k, it.Valid := fun it h => hv it (List.mem_of_mem_take h)
    have hvd : ∀ it ∈ items.drop k, it.Valid := fun it h => hv it (List.mem_of_mem_drop h)
    have henc : CM.encodeItems items CM.init
        = ((CM.encodeItems (items.drop k) (CM.encodeItems (items.take k) CM.init).1).1,
            (CM.encodeItems (items.take k) CM.init).2
              ++ (CM.encodeItems (items.drop k) (CM.encodeItems (items.take k) CM.init).1).2) := by
      conv_lhs => rw [hsplit]
      exact CM.encodeItems_append _ _ _
    obtain ⟨hinvk, hbk, hsynck⟩ := CM.items_sync (items.take k) CM.init CM.model_init_inv
      CM.init_bounded hvk
      ((CM.encodeItems (items.drop k) (CM.encodeItems (items.take k) CM.init).1).2
        ++ (Encoder.Flush (CM.encodeItems items CM.init).1.enc).2) false
    obtain ⟨_, _, hsyncd⟩ := CM.items_sync (items.drop k) (CM.encodeItems (items.take k) CM.init).1
      hinvk hbk hvd (Encoder.Flush (CM.encodeItems items CM.init).1.enc).2 false
    have hfl2 : (CM.encodeItems (items.drop k) (CM.encodeItems (items.take k) CM.init).1).1.enc.Covers
        (Encoder.Flush (CM.encodeItems items CM.init).1.enc).2 := by
      have h1 : (CM.encodeItems (items.drop k) (CM.encodeItems (items.take k) CM.init).1).1
          = (CM.encodeItems items CM.init).1 := by rw [henc]
      rw [h1]; exact hfl
    obtain ⟨hcovd, _⟩ := hsyncd hfl2
    obtain ⟨_, hdeck⟩ := hsynck hcovd
    have hstream : CM.encodeStream items = (CM.encodeItems (items.take k) CM.init).2
        ++ ((CM.encodeItems (items.drop k) (CM.encodeItems (items.take k) CM.init).1).2
          ++ (Encoder.Flush (CM.encodeItems items CM.init).1.enc).2) := by
      unfold CM.encodeStream
      rw [← List.append_assoc]
      congr 1
      rw [henc]
    refine ⟨code4 ((CM.encodeItems (items.drop k) (CM.encodeItems (items.take k) CM.init).1).2
        ++ (Encoder.Flush (CM.encodeItems items CM.init).1.enc).2), ?_⟩
    unfold CM.decodeStream
    rw [hstart, hstream, hdeck]

theorem C3_model_round_trip_witness :
    (∀ it ∈ [Item.word 5, Item.word 2, Item.byte 0x62, Item.byte 0x61, Item.byte 0x61,
        Item.word 0, Item.word 0xCBF43926], it.Valid)
    ∧ ((CM.decodeStream ([Item.word 5, Item.word 2, Item.byte 0x62, Item.byte 0x61, Item.byte 0x61,
          Item.word 0, Item.word 0xCBF43926].map Item.call)
        (CM.encodeStream [Item.word 5, Item.word 2, Item.byte 0x62, Item.byte 0x61, Item.byte 0x61,
          Item.word 0, Item.word 0xCBF43926])).1
        = [Item.word 5, Item.word 2, Item.byte 0x62, Item.byte 0x61, Item.byte 0x61,
          Item.word 0, Item.word 0xCBF43926]
      ∧ (CM.decodeStream ([Item.word 5, Item.word 2, Item.byte 0x62, Item.byte 0x61, Item.byte 0x61,
          Item.word 0, Item.word 0xCBF43926].map Item.call)
        (CM.encodeStream [Item.word 5, Item.word 2, Item.byte 0x62, Item.byte 0x61, Item.byte 0x61,
          Item.word 0, Item.word 0xCBF43926])).2.2
        = { data := [], eof := false }
      ∧ ∀ k, k ≤ [Item.word 5, Item.word 2, Item.byte 0x62, Item.byte 0x61, Item.byte 0x61,
          Item.word 0, Item.word 0xCBF43926].length → ∃ c,
        (CM.decodeStream (([Item.word 5, Item.word 2, Item.byte 0x62, Item.byte 0x61, Item.byte 0x61,
            Item.word 0, Item.word 0xCBF43926].take k).map Item.call)
          (CM.encodeStream [Item.word 5, Item.word 2, Item.byte 0x62, Item.byte 0x61, Item.byte 0x61,
            Item.word 0, Item.word 0xCBF43926])).2.1
          = (CM.encodeItems ([Item.word 5, Item.word 2, Item.byte 0x62, Item.byte 0x61,
              Item.byte 0x61, Item.word 0, Item.word 0xCBF43926].take k) CM.init).1.withCode c) :=
  ⟨by
    intro it hit
    simp only [List.mem_cons, List.mem_singleton, List.not_mem_nil, or_false] at hit
    rcases hit with rfl | rfl | rfl | rfl | rfl | rfl | rfl <;> simp [Item.Valid],
   C3_model_round_trip _ (by
    intro it hit
    simp only [List.mem_cons, List.mem_singleton, List.not_mem_nil, or_false] at hit
    rcases hit with rfl | rfl | rfl | rfl | rfl | rfl | rfl <;> simp [Item.Valid])⟩

/-- C9: `Put32(x)` codes the 32 bits of `x`, most significant first, each
with `EncodeBit<1>(bit, 1)`; for such a bit `mid` is the midpoint
`low + ((high - low) >> 1)` of the interval; and from the initial state,
`Put32(x)`, `Flush`, then `Init` and `Get32` on the bytes written return `x`. -/
theorem C9_put32_get32_round_trip (x : Nat) (hx : x < 2 ^ 32) :
    (∀ m : CM, CM.Put32 x m = put32Spec 32 x m)
    ∧ (∀ e : Encoder, e.low ≤ e.high → e.high < 2 ^ 32 →
        Encoder.mid 1 1 e = e.low + ((e.high - e.low) >>> 1))
    ∧ (CM.Get32 (CM.start ((CM.Put32 x CM.init).2 ++ (Encoder.Flush (CM.Put32 x CM.init).1.enc).2)).1
        (CM.start ((CM.Put32 x CM.init).2 ++ (Encoder.Flush (CM.Put32 x CM.init).1.enc).2)).2).1
        = x := by
  refine ⟨?_, ?_, ?_⟩
  · intro m
    unfold CM.Put32
    rw [CM.masks32_eq, CM.put32Loop_eq_spec]
  · intro e h1 h2
    rw [Encoder.mid_eq 1 1 e ⟨h1, h2⟩ (by norm_num) (by norm_num), Nat.shiftRight_eq_div_pow,
      Nat.mul_one]
  · obtain ⟨hinv, _, hsync⟩ := CM.put32_sync x hx CM.init CM.model_init_inv
      (Encoder.Flush (CM.Put32 x CM.init).1.enc).2 false
    obtain ⟨hcov, hdec⟩ := hsync (Encoder.flush_covers _ hinv.1)
    rw [CM.start_eq _ hcov.1, hdec]

theorem C9_put32_get32_round_trip_witness :
    (0xCBF43926 : Nat) < 2 ^ 32
    ∧ ((∀ m : CM, CM.Put32 0xCBF43926 m = put32Spec 32 0xCBF43926 m)
      ∧ (∀ e : Encoder, e.low ≤ e.high → e.high < 2 ^ 32 →
          Encoder.mid 1 1 e = e.low + ((e.high - e.low) >>> 1))
      ∧ (CM.Get32 (CM.start ((CM.Put32 0xCBF43926 CM.init).2
            ++ (Encoder.Flush (CM.Put32 0xCBF43926 CM.init).1.enc).2)).1
          (CM.start ((CM.Put32 0xCBF43926 CM.init).2
            ++ (Encoder.Flush (CM.Put32 0xCBF43926 CM.init).1.enc).2)).2).1
          = 0xCBF43926) :=
  ⟨by norm_num, C9_put32_get32_round_trip 0xCBF43926 (by norm_num)⟩

/-! ### Inverse BWT -/

theorem lexLt_irrefl : ∀ x : List Nat, lexLt x x = false
  | [] => rfl
  | a :: x => by simp [lexLt, lexLt_irrefl x]

theorem lexLt_trans : ∀ x y z : List Nat, lexLt x y = true → lexLt y z = true → lexLt x z = true
  | _, [], _, h, _ => by simp [lexLt] at h
  | _, _ :: _, [], _, h => by simp [lexLt] at h
  | [], _ :: _, _ :: _, _, _ => rfl
  | a :: x, b :: y, c :: z, h1, h2 => by
    simp only [lexLt, Bool.or_eq_true, Bool.and_eq_true, decide_eq_true_eq] at h1 h2 ⊢
    rcases h1 with h1 | ⟨h1, h1'⟩ <;> rcases h2 with h2 | ⟨h2, h2'⟩
    · left; omega
    · left; omega
    · left; omega
    · right; exact ⟨by omega, lexLt_trans x y z h1' h2'⟩

theorem lexLt_total : ∀ x y : List Nat, x ≠ y → lexLt x y = true ∨ lexLt y x = true
  | [], [], h => absurd rfl h
  | [], _ :: _, _ => Or.inl rfl
  | _ :: _, [], _ => Or.inr rfl
  | a :: x, b :: y, h => by
    simp only [lexLt, Bool.or_eq_true, Bool.and_eq_true, decide_eq_true_eq]
    rcases Nat.lt_trichotomy a b with hab | hab | hab
    · left; left; exact hab
    · have hxy : x ≠ y := by
        intro hxy; apply h; rw [hab, hxy]
      rcases lexLt_total x y hxy with h1 | h1
      · left; right; exact ⟨hab, h1⟩
      · right; right; exact ⟨hab.symm, h1⟩
    · right; left; exact hab

theorem lexLt_asymm (x y : List Nat) (h : lexLt x y = true) : lexLt y x = false := by
  by_contra h2
  have h3 : lexLt y x = true := by
    cases hh : lexLt y x
    · exact absurd hh h2
    · rfl
  have := lexLt_trans x y x h h3
  rw [lexLt_irrefl] at this
  cases this

theorem sufLt_irrefl (B : List Nat) (a : Nat) : ¬ sufLt B a a := by
  unfold sufLt
  rw [lexLt_irrefl]
  simp

theorem sufLt_trans (B : List Nat) (a b c : Nat) (h1 : sufLt B a b) (h2 : sufLt B b c) :
    sufLt B a c :=
  lexLt_trans _ _ _ h1 h2

theorem sufLt_asymm (B : List Nat) (a b : Nat) (h : sufLt B a b) : ¬ sufLt B b a := by
  unfold sufLt at h ⊢
  rw [lexLt_asymm _ _ h]
  simp

theorem drop_ne (B : List Nat) (a b : Nat) (ha : a ≤ B.length) (hb : b ≤ B.length) (h : a ≠ b) :
    B.drop a ≠ B.drop b := by
  intro he
  have := congrArg List.length he
  simp only [List.length_drop] at this
  omega

theorem sufLt_total (B : List Nat) (a b : Nat) (ha : a ≤ B.length) (hb : b ≤ B.length)
    (h : a ≠ b) : sufLt B a b ∨ sufLt B b a :=
  lexLt_total _ _ (drop_ne B a b ha hb h)

theorem drop_cons (B : List Nat) (a : Nat) (ha : a < B.length) :
    B.drop a = B.getD a 0 :: B.drop (a + 1) := by
  rw [List.drop_eq_getElem_cons ha]
  congr 1
  rw [List.getD_eq_getElem _ _ ha]

/-- Suffix order by first byte, then by the following suffixes. -/
theorem sufLt_step (B : List Nat) (a b : Nat) (ha : a < B.length) (hb : b < B.length) :
    sufLt B a b ↔ (B.getD a 0 < B.getD b 0 ∨ (B.getD a 0 = B.getD b 0 ∧ sufLt B (a + 1) (b + 1))) := by
  unfold sufLt
  rw [drop_cons B a ha, drop_cons B b hb]
  simp only [lexLt, Bool.or_eq_true, Bool.and_eq_true, decide_eq_true_eq]

theorem sufLt_end (B : List Nat) (a : Nat) (ha : a < B.length) : sufLt B B.length a := by
  unfold sufLt
  rw [List.drop_length, drop_cons B a ha]
  rfl

theorem not_sufLt_end (B : List Nat) (a : Nat) : ¬ sufLt B a B.length := by
  unfold sufLt
  rw [List.drop_length]
  cases B.drop a <;> simp [lexLt]

/-! Counting lemmas -/

theorem countP_split {α : Type} (l : List α) (p q r : α → Bool)
    (h : ∀ x ∈ l, p x = (q x || r x)) (hd : ∀ x ∈ l, ¬ (q x = true ∧ r x = true)) :
    l.countP p = l.countP q + l.countP r := by
  induction l with
  | nil => rfl
  | cons a l ih =>
    have ha := h a (List.mem_cons_self _ _)
    have hda := hd a (List.mem_cons_self _ _)
    have ih' := ih (fun x hx => h x (List.mem_cons_of_mem _ hx))
      (fun x hx => hd x (List.mem_cons_of_mem _ hx))
    simp only [List.countP_cons, ih', ha]
    cases hq : q a <;> cases hr : r a <;> simp [hq, hr] at hda ⊢ <;> omega

theorem countP_lt_of_imp {α : Type} (l : List α) (p q : α → Bool)
    (h : ∀ x ∈ l, p x = true → q x = true) (a : α) (ha : a ∈ l) (hq : q a = true)
    (hp : p a = false) : l.countP p < l.countP q := by
  induction l with
  | nil => cases ha
  | cons b l ih =>
    simp only [List.countP_cons]
    have hmono : l.countP p ≤ l.countP q :=
      List.countP_mono_left (fun x hx => h x (List.mem_cons_of_mem _ hx))
    rcases List.mem_cons.mp ha with rfl | hal
    · simp only [hq, hp, if_true]
      simp
      omega
    · have := ih (fun x hx => h x (List.mem_cons_of_mem _ hx)) hal
      have hb := h b (List.mem_cons_self _ _)
      cases hpb : p b <;> cases hqb : q b <;> simp [hpb, hqb] at hb ⊢ <;> omega

/-- In a list sorted by a strict order, the elements before position `i` are
those smaller than the element at position `i`. -/
theorem countP_take_sorted {α : Type} (r : α → α → Prop) [DecidableRel r]
    (hirr : ∀ a, ¬ r a a) (hasym : ∀ a b, r a b → ¬ r b a) (p : α → Bool) :
    ∀ (l : List α) (i : Nat) (hi : i < l.length), l.Pairwise r →
      (l.take i).countP p = l.countP (fun y => decide (r y (l.get ⟨i, hi⟩)) && p y) := by
  intro l
  induction l with
  | nil => intro i hi; cases hi
  | cons a l ih =>
    intro i hi hpw
    rw [List.pairwise_cons] at hpw
    cases i with
    | zero =>
      simp only [List.take_zero, List.countP_nil, List.get_eq_getElem, List.getElem_cons_zero]
      symm
      rw [List.countP_eq_zero]
      intro y hy
      rcases List.mem_cons.mp hy with rfl | hyl
      · simp [hirr]
      · simp [hasym _ _ (hpw.1 y hyl)]
    | succ i =>
      have hi' : i < l.length := by simpa using hi
      have hmem : l.get ⟨i, hi'⟩ ∈ l := List.get_mem _ _ _
      simp only [List.take_succ_cons, List.countP_cons, List.get_eq_getElem,
        List.getElem_cons_succ]
      rw [ih i hi' hpw.2]
      simp only [List.get_eq_getElem] at hmem ⊢
      simp [hpw.1 _ hmem]

/-! The tables built by the inverse transform -/

theorem countBytes_apply (L : List Nat) : ∀ (cnt : Nat → Nat) (c : Nat),
    countBytes L cnt c = cnt c + L.countP (fun b => decide (b + 1 = c)) := by
  induction L with
  | nil => intro cnt c; rfl
  | cons b L ih =>
    intro cnt c
    rw [countBytes, ih, List.countP_cons, Function.update_apply]
    by_cases h : c = b + 1
    · subst h
      simp
      omega
    · have h2 : ¬ b + 1 = c := fun hh => h hh.symm
      simp [h, h2]

theorem cumulate_inv (L : List Nat) : ∀ (k i : Nat) (cnt : Nat → Nat), 1 ≤ i →
    (∀ j, j < i → cnt j = L.countP (fun b => decide (b < j))) →
    (∀ j, i ≤ j → cnt j = L.countP (fun b => decide (b + 1 = j))) →
    (∀ j, j < i + k → cumulate k i cnt j = L.countP (fun b => decide (b < j)))
    ∧ (∀ j, i + k ≤ j → cumulate k i cnt j = L.countP (fun b => decide (b + 1 = j))) := by
  intro k
  induction k with
  | zero =>
    intro i cnt _ h1 h2
    exact ⟨fun j hj => h1 j (by omega), fun j hj => h2 j (by omega)⟩
  | succ k ih =>
    intro i cnt hi h1 h2
    have hstep : cnt i + cnt (i - 1) = L.countP (fun b => decide (b < i)) := by
      rw [h2 i (le_refl _), h1 (i - 1) (by omega)]
      symm
      apply countP_split
      · intro x _
        by_cases ha : x + 1 = i <;> by_cases hb : x < i - 1 <;> simp [ha, hb] <;> omega
      · intro x _
        simp only [decide_eq_true_eq]
        omega
    have := ih (i + 1) (Function.update cnt i (cnt i + cnt (i - 1))) (by omega)
      (fun j hj => by
        rw [Function.update_apply]
        by_cases hji : j = i
        · rw [if_pos hji, hji]; exact hstep
        · rw [if_neg hji]; exact h1 j (by omega))
      (fun j hj => by
        rw [Function.update_apply, if_neg (by omega)]
        exact h2 j (by omega))
    rw [cumulate]
    refine ⟨fun j hj => this.1 j (by omega), fun j hj => this.2 j (by omega)⟩

/-- After the counting loop and the running sums, `cnt[c]` for `c ≤ 255` is
the number of bytes of the block smaller than `c`. -/
theorem cnt_less (L : List Nat) (c : Nat) (hc : c ≤ 255) :
    cumulate 255 1 (countBytes L (fun _ => 0)) c = L.countP (fun b => decide (b < c)) := by
  have h := cumulate_inv L 255 1 (countBytes L (fun _ => 0)) (le_refl _)
    (fun j hj => by
      have : j = 0 := by omega
      subst this
      rw [countBytes_apply]
      simp)
    (fun j _ => by rw [countBytes_apply]; simp)
  exact h.1 c (by omega)

theorem buildPtr_cnt (L : List Nat) (idx : Int) : ∀ (i : Nat) (cnt : Nat → Nat) (ptr : Int → Int)
    (c : Nat), (buildPtr L idx i cnt ptr).1 c = cnt c + L.countP (fun b => decide (b = c)) := by
  induction L with
  | nil => intro i cnt ptr c; rfl
  | cons b L ih =>
    intro i cnt ptr c
    rw [buildPtr, ih, List.countP_cons, Function.update_apply]
    by_cases h : c = b
    · subst h
      simp
      omega
    · have h2 : ¬ b = c := fun hh => h hh.symm
      simp [h, h2]

/-- The slot written for position `j` of the block during `buildPtr`. -/
theorem buildPtr_frame (L : List Nat) (idx : Int) : ∀ (i : Nat) (cnt : Nat → Nat)
    (ptr : Int → Int) (x : Int),
    (∀ j, j < L.length →
      x ≠ ((cnt (L.getD j 0) + (L.take j).countP (fun b => decide (b = L.getD j 0)) : Nat) : Int)) →
    (buildPtr L idx i cnt ptr).2 x = ptr x := by
  induction L with
  | nil => intro i cnt ptr x _; rfl
  | cons b L ih =>
    intro i cnt ptr x hx
    rw [buildPtr, ih]
    · rw [Function.update_apply, if_neg]
      have := hx 0 (by simp)
      simpa using this
    · intro j hj
      have := hx (j + 1) (by simpa using hj)
      simp only [List.getD_cons_succ, List.take_succ_cons, List.countP_cons] at this
      rw [Function.update_apply]
      by_cases hb : L.getD j 0 = b
      · rw [if_pos hb]
        simp only [hb, decide_True, if_true] at this ⊢
        intro he; apply this; rw [he]; push_cast; ring
      · rw [if_neg hb]
        have hb2 : ¬ b = L.getD j 0 := fun hh => hb hh.symm
        simp only [hb2, decide_False, Bool.false_eq_true, if_false, Nat.add_zero] at this
        exact this

theorem buildPtr_ptr (L : List Nat) (idx : Int) : ∀ (i : Nat) (cnt : Nat → Nat)
    (ptr : Int → Int),
    (∀ j1 j2, j1 < L.length → j2 < L.length →
      cnt (L.getD j1 0) + (L.take j1).countP (fun b => decide (b = L.getD j1 0))
        = cnt (L.getD j2 0) + (L.take j2).countP (fun b => decide (b = L.getD j2 0)) → j1 = j2) →
    ∀ j, j < L.length →
      (buildPtr L idx i cnt ptr).2
          ((cnt (L.getD j 0) + (L.take j).countP (fun b => decide (b = L.getD j 0)) : Nat) : Int)
        = ((i + j : Nat) : Int) - (if ((i + j : Nat) : Int) < idx then 1 else 0) := by
  induction L with
  | nil => intro i cnt ptr _ j hj; cases hj
  | cons b L ih =>
    intro i cnt ptr hinj j hj
    have hshift : ∀ j', (Function.update cnt b (cnt b + 1)) (L.getD j' 0)
        + (L.take j').countP (fun x => decide (x = L.getD j' 0))
        = cnt ((b :: L).getD (j' + 1) 0)
          + ((b :: L).take (j' + 1)).countP (fun x => decide (x = (b :: L).getD (j' + 1) 0)) := by
      intro j'
      simp only [List.getD_cons_succ, List.take_succ_cons, List.countP_cons]
      rw [Function.update_apply]
      by_cases hb : L.getD j' 0 = b
      · rw [if_pos hb]
        simp only [hb, decide_True, if_true]
        omega
      · rw [if_neg hb]
        have hb2 : ¬ b = L.getD j' 0 := fun hh => hb hh.symm
        simp only [hb2, decide_False, Bool.false_eq_true, if_false, Nat.add_zero]
    cases j with
    | zero =>
      rw [buildPtr, buildPtr_frame]
      · simp only [List.getD_cons_zero, List.take_zero, List.countP_nil, Nat.add_zero,
          Function.update_same]
      · intro j' hj'
        rw [hshift j']
        intro he
        have h0 := hinj 0 (j' + 1) (by simp) (by simpa using hj') (by
          have := Int.ofNat_inj.mp he
          simpa using this)
        omega
    | succ j =>
      have hj' : j < L.length := by simpa using hj
      have := ih (i + 1) (Function.update cnt b (cnt b + 1))
        (Function.update ptr (cnt b : Int) ((i : Int) - (if (i : Int) < idx then 1 else 0)))
        (fun j1 j2 h1 h2 he => by
          rw [hshift j1, hshift j2] at he
          have := hinj (j1 + 1) (j2 + 1) (by simpa using h1) (by simpa using h2) he
          omega) j hj'
      rw [buildPtr, ← hshift j, this]
      have : i + 1 + j = i + (j + 1) := by omega
      rw [this]

theorem searchLoop_spec (cnt : Nat → Nat) (p : Int)
    (hmono : ∀ i j, i ≤ j → j ≤ 254 → cnt i ≤ cnt j) :
    ∀ (k c : Nat), c + 2 ^ k ≤ 256 → (∀ j, j < c → (cnt j : Int) ≤ p) →
      (∀ j, c + 2 ^ k - 1 ≤ j → j ≤ 254 → p < (cnt j : Int)) →
      (∀ j, j < searchLoop k cnt p c (2 ^ (k - 1) - 1) → (cnt j : Int) ≤ p)
      ∧ (∀ j, searchLoop k cnt p c (2 ^ (k - 1) - 1) ≤ j → j ≤ 254 → p < (cnt j : Int))
      ∧ searchLoop k cnt p c (2 ^ (k - 1) - 1) ≤ c + 2 ^ k - 1 := by
  intro k
  induction k with
  | zero =>
    intro c _ h1 h2
    simp only [searchLoop, pow_zero, Nat.add_sub_cancel] at h2 ⊢
    exact ⟨h1, h2, le_refl _⟩
  | succ k ih =>
    intro c hc h1 h2
    have hpow : 2 ^ (k + 1) = 2 * 2 ^ k := by ring
    have hpos : 1 ≤ 2 ^ k := Nat.one_le_two_pow
    have hhalf : (2 ^ (k + 1 - 1) - 1) >>> 1 = 2 ^ (k - 1) - 1 := by
      rw [Nat.add_sub_cancel, Nat.shiftRight_eq_div_pow, pow_one]
      cases k with
      | zero => rfl
      | succ k =>
        rw [Nat.add_sub_cancel]
        have : 2 ^ (k + 1) = 2 * 2 ^ k := by ring
        have hp2 : 1 ≤ 2 ^ k := Nat.one_le_two_pow
        omega
    rw [searchLoop, hhalf]
    rw [Nat.add_sub_cancel]
    rw [hpow] at hc h2
    by_cases hprobe : (cnt (c + (2 ^ k - 1)) : Int) ≤ p
    · rw [if_pos hprobe]
      have hsub : 2 ^ k - 1 + 1 = 2 ^ k := by omega
      rw [hsub]
      obtain ⟨r1, r2, r3⟩ := ih (c + 2 ^ k) (by omega)
        (fun j hj => by
          have hm := hmono j (c + (2 ^ k - 1)) (by omega) (by omega)
          have : (cnt j : Int) ≤ (cnt (c + (2 ^ k - 1)) : Int) := by exact_mod_cast hm
          omega)
        (fun j hj hj2 => h2 j (by omega) hj2)
      exact ⟨r1, r2, by omega⟩
    · rw [if_neg hprobe]
      obtain ⟨r1, r2, r3⟩ := ih c (by omega) h1
        (fun j hj hj2 => by
          have hm := hmono (c + (2 ^ k - 1)) j (by omega) hj2
          have : (cnt (c + (2 ^ k - 1)) : Int) ≤ (cnt j : Int) := by exact_mod_cast hm
          omega)
      exact ⟨r1, r2, by omega⟩

/-- The eight search steps return the least `c` in `[0, 255]` with
`cnt[c] > p` (255 when there is none below). -/
theorem search_spec (cnt : Nat → Nat) (p : Int)
    (hmono : ∀ i j, i ≤ j → j ≤ 254 → cnt i ≤ cnt j) :
    (∀ j, j < search cnt p → (cnt j : Int) ≤ p)
    ∧ (∀ j, search cnt p ≤ j → j ≤ 254 → p < (cnt j : Int))
    ∧ search cnt p ≤ 255 := by
  have h := searchLoop_spec cnt p hmono 8 0 (by norm_num) (fun j hj => absurd hj (Nat.not_lt_zero _))
    (fun j hj hj2 => by norm_num at hj; omega)
  have h127 : 2 ^ (8 - 1) - 1 = 127 := by norm_num
  rw [h127] at h
  exact ⟨h.1, h.2.1, by have := h.2.2; norm_num at this; exact this⟩

/-- The search finds the byte `t` once the table brackets `p` at `t`. -/
theorem search_eq (cnt : Nat → Nat) (p : Int) (t : Nat)
    (hmono : ∀ i j, i ≤ j → j ≤ 254 → cnt i ≤ cnt j) (ht : t ≤ 255)
    (hlow : ∀ j, j < t → (cnt j : Int) ≤ p) (hhigh : p < (cnt t : Int)) :
    search cnt p = t := by
  obtain ⟨h1, h2, h3⟩ := search_spec cnt p hmono
  rcases Nat.lt_trichotomy (search cnt p) t with hlt | heq | hgt
  · have := h2 (search cnt p) (le_refl _) (by omega)
    have := hlow _ hlt
    omega
  · exact heq
  · have := h1 t hgt
    omega

/-! Ranks of suffixes -/

theorem rk_lt_of_sufLt (B : List Nat) (a b : Nat) (ha : a < B.length) (h : sufLt B a b) :
    rk B a < rk B b := by
  unfold rk
  apply countP_lt_of_imp _ _ _ _ a (List.mem_range.mpr ha)
  · simpa using h
  · simpa using sufLt_irrefl B a
  · intro x _ hx
    simp only [decide_eq_true_eq] at hx ⊢
    exact sufLt_trans B x a b hx h

theorem rk_inj (B : List Nat) (a b : Nat) (ha : a < B.length) (hb : b < B.length)
    (h : rk B a = rk B b) : a = b := by
  by_contra hne
  rcases sufLt_total B a b (le_of_lt ha) (le_of_lt hb) hne with h1 | h1
  · have := rk_lt_of_sufLt B a b ha h1; omega
  · have := rk_lt_of_sufLt B b a hb h1; omega

theorem rk_lt_length (B : List Nat) (a : Nat) (ha : a < B.length) : rk B a < B.length := by
  have h := countP_lt_of_imp (List.range B.length) (fun u => decide (sufLt B u a)) (fun _ => true)
    (fun _ _ _ => rfl) a (List.mem_range.mpr ha) rfl (by simpa using sufLt_irrefl B a)
  have hl : (List.range B.length).countP (fun _ => true) = B.length := by
    rw [List.countP_true, List.length_range]
  unfold rk
  omega

/-- In a list sorted by a strict order, the position of an element is the
number of elements smaller than it. -/
theorem indexOf_sorted (r : Nat → Nat → Prop) [DecidableRel r]
    (hirr : ∀ a, ¬ r a a) (hasym : ∀ a b, r a b → ¬ r b a)
    (l : List Nat) (hpw : l.Pairwise r) (x : Nat) (hx : x ∈ l) :
    l.indexOf x = l.countP (fun y => decide (r y x)) := by
  have hi : l.indexOf x < l.length := List.indexOf_lt_length.mpr hx
  have h := countP_take_sorted r hirr hasym (fun _ => true) l (l.indexOf x) hi hpw
  rw [List.countP_true, List.length_take, Nat.min_eq_left (le_of_lt hi)] at h
  rw [h]
  have hg : l.get ⟨l.indexOf x, hi⟩ = x := List.indexOf_get hi
  rw [hg]
  simp

theorem getD_indexOf (l : List Nat) (x : Nat) (hx : x ∈ l) : l.getD (l.indexOf x) 0 = x := by
  have hi : l.indexOf x < l.length := List.indexOf_lt_length.mpr hx
  rw [List.getD_eq_getElem _ _ hi]
  exact List.indexOf_get hi

/-! The sorted list of successor positions -/

theorem succList_pairwise (B sa : List Nat) (hperm : sa.Perm (List.range B.length))
    (hpw : sa.Pairwise (sufLt B)) : (succList B sa).Pairwise (sufLt B) := by
  unfold succList
  apply List.Pairwise.filter
  rw [List.pairwise_cons]
  refine ⟨fun s hs => ?_, hpw⟩
  have : s ∈ List.range B.length := hperm.mem_iff.mp hs
  exact sufLt_end B s (List.mem_range.mp this)

theorem succList_mem (B sa : List Nat) (hperm : sa.Perm (List.range B.length))
    (s : Nat) : s ∈ succList B sa ↔ (1 ≤ s ∧ s ≤ B.length) := by
  unfold succList
  rw [List.mem_filter, List.mem_cons, hperm.mem_iff, List.mem_range]
  simp only [ne_eq, decide_not, Bool.not_eq_true', decide_eq_false_iff_not]
  omega

theorem succList_nodup (B sa : List Nat) (hperm : sa.Perm (List.range B.length))
    (hpw : sa.Pairwise (sufLt B)) : (succList B sa).Nodup := by
  have h := succList_pairwise B sa hperm hpw
  refine h.imp ?_
  intro a b hab he
  rw [he] at hab
  exact sufLt_irrefl B b hab

theorem succList_perm (B sa : List Nat) (_hn : 0 < B.length) (hperm : sa.Perm (List.range B.length))
    (hpw : sa.Pairwise (sufLt B)) :
    (succList B sa).Perm ((List.range B.length).map Nat.succ) := by
  rw [List.perm_ext_iff_of_nodup (succList_nodup B sa hperm hpw)
    ((List.nodup_range _).map Nat.succ_injective)]
  intro s
  rw [succList_mem B sa hperm, List.mem_map]
  constructor
  · intro h
    exact ⟨s - 1, List.mem_range.mpr (by omega), by simp only [Nat.succ_eq_add_one]; omega⟩
  · rintro ⟨u, hu, rfl⟩
    have := List.mem_range.mp hu
    simp only [Nat.succ_eq_add_one]
    omega

theorem succList_countP (B sa : List Nat) (hn : 0 < B.length)
    (hperm : sa.Perm (List.range B.length)) (hpw : sa.Pairwise (sufLt B)) (p : Nat → Bool) :
    (succList B sa).countP p = (List.range B.length).countP (fun u => p (u + 1)) := by
  rw [(succList_perm B sa hn hperm hpw).countP_eq, List.countP_map]
  rfl

theorem succList_length (B sa : List Nat) (hn : 0 < B.length)
    (hperm : sa.Perm (List.range B.length)) (hpw : sa.Pairwise (sufLt B)) :
    (succList B sa).length = B.length := by
  rw [(succList_perm B sa hn hperm hpw).length_eq, List.length_map, List.length_range]

/-- The transformed block, read off the successor positions. -/
theorem bwt_eq_map (B sa : List Nat) (hn : 0 < B.length) :
    B.getD (B.length - 1) 0 :: ((sa.filter (fun s => s ≠ 0)).map (fun s => B.getD (s - 1) 0))
      = (succList B sa).map (fun s => B.getD (s - 1) 0) := by
  unfold succList
  have h : decide (B.length ≠ 0) = true := by
    simp only [ne_eq, decide_not, Bool.not_eq_true', decide_eq_false_iff_not]
    omega
  rw [List.filter_cons, if_pos h, List.map_cons]

/-- The returned index is one more than the rank of the whole block. -/
theorem indexOf_zero_eq_rk (B sa : List Nat) (hn : 0 < B.length)
    (hperm : sa.Perm (List.range B.length)) (hpw : sa.Pairwise (sufLt B)) :
    sa.indexOf 0 = rk B 0 := by
  have hmem : 0 ∈ sa := hperm.mem_iff.mpr (List.mem_range.mpr hn)
  rw [indexOf_sorted (sufLt B) (sufLt_irrefl B) (sufLt_asymm B) sa hpw 0 hmem, hperm.countP_eq]
  rfl

theorem countP_range_shift (n : Nat) (p : Nat → Bool) :
    (List.range n).countP (fun u => p (u + 1)) + (if p 0 then 1 else 0)
      = (List.range n).countP p + (if p n then 1 else 0) := by
  have h1 : (List.range (n + 1)).countP p = (List.range n).countP p + (if p n then 1 else 0) := by
    rw [List.range_succ, List.countP_append, List.countP_cons, List.countP_nil]
    simp
  have h2 : (List.range (n + 1)).countP p
      = (List.range n).countP (fun u => p (u + 1)) + (if p 0 then 1 else 0) := by
    rw [List.range_succ_eq_map, List.countP_cons, List.countP_map]
    rfl
  rw [← h1, ← h2]

/-- Counting over the transformed block is counting over the block. -/
theorem bwt_countP (B sa : List Nat) (hn : 0 < B.length)
    (hperm : sa.Perm (List.range B.length)) (hpw : sa.Pairwise (sufLt B)) (p : Nat → Bool) :
    ((succList B sa).map (fun s => B.getD (s - 1) 0)).countP p
      = (List.range B.length).countP (fun u => p (B.getD u 0)) := by
  rw [List.countP_map, succList_countP B sa hn hperm hpw]
  rfl

theorem succList_getD (B sa : List Nat) (hn : 0 < B.length)
    (hperm : sa.Perm (List.range B.length)) (hpw : sa.Pairwise (sufLt B)) (j : Nat)
    (hj : j < B.length) :
    1 ≤ (succList B sa).getD j 0 ∧ (succList B sa).getD j 0 ≤ B.length
    ∧ ((succList B sa).map (fun s => B.getD (s - 1) 0)).getD j 0
        = B.getD ((succList B sa).getD j 0 - 1) 0 := by
  have hl := succList_length B sa hn hperm hpw
  have hjq : j < (succList B sa).length := by omega
  have hmem : (succList B sa).getD j 0 ∈ succList B sa := by
    rw [List.getD_eq_getElem _ _ hjq]
    exact List.getElem_mem _
  have hb := (succList_mem B sa hperm _).mp hmem
  refine ⟨hb.1, hb.2, ?_⟩
  rw [List.getD_eq_getElem _ _ (by rw [List.length_map]; exact hjq),
    List.getD_eq_getElem _ _ hjq, List.getElem_map]

/-- Position `j` of the sorted successor positions is the number of
successor positions whose suffix is smaller. -/
theorem succList_index (B sa : List Nat) (hn : 0 < B.length)
    (hperm : sa.Perm (List.range B.length)) (hpw : sa.Pairwise (sufLt B)) (j : Nat)
    (hj : j < B.length) (p : Nat → Bool) :
    ((succList B sa).take j).countP p
      = (List.range B.length).countP
          (fun u => decide (sufLt B (u + 1) ((succList B sa).getD j 0)) && p (u + 1)) := by
  have hl := succList_length B sa hn hperm hpw
  have hjq : j < (succList B sa).length := by omega
  rw [countP_take_sorted (sufLt B) (sufLt_irrefl B) (sufLt_asymm B) p (succList B sa) j hjq
    (succList_pairwise B sa hperm hpw), succList_countP B sa hn hperm hpw,
    List.getD_eq_getElem _ _ hjq]
  rfl

/-- The slot written for position `j` of the transformed block is the rank
of the suffix that starts one byte before the `j`-th successor position. -/
theorem dest_eq_rk (B sa : List Nat) (hn : 0 < B.length)
    (hperm : sa.Perm (List.range B.length)) (hpw : sa.Pairwise (sufLt B)) (j : Nat)
    (hj : j < B.length) :
    ((succList B sa).map (fun s => B.getD (s - 1) 0)).countP
        (fun b => decide (b < ((succList B sa).map (fun s => B.getD (s - 1) 0)).getD j 0))
      + (((succList B sa).map (fun s => B.getD (s - 1) 0)).take j).countP
        (fun b => decide (b = ((succList B sa).map (fun s => B.getD (s - 1) 0)).getD j 0))
      = rk B ((succList B sa).getD j 0 - 1) := by
  obtain ⟨h1, h2, h3⟩ := succList_getD B sa hn hperm hpw j hj
  rw [h3, bwt_countP B sa hn hperm hpw, ← List.map_take, List.countP_map,
    succList_index B sa hn hperm hpw j hj]
  unfold rk
  symm
  apply countP_split
  · intro u hu
    have hu' := List.mem_range.mp hu
    have hstep := sufLt_step B u ((succList B sa).getD j 0 - 1) hu' (by omega)
    have hs : (succList B sa).getD j 0 - 1 + 1 = (succList B sa).getD j 0 := by omega
    rw [hs] at hstep
    simp only [Function.comp, Nat.add_sub_cancel]
    rw [Bool.eq_iff_iff]
    simp only [decide_eq_true_eq, Bool.or_eq_true, Bool.and_eq_true]
    rw [hstep]
    tauto
  · intro u _
    simp only [Function.comp, Nat.add_sub_cancel, decide_eq_true_eq, Bool.and_eq_true]
    omega

/-- The value stored for position `j` of the transformed block is the rank
of the `j`-th successor suffix, or -1 for the empty suffix. -/
theorem val_eq_rk (B sa : List Nat) (hn : 0 < B.length)
    (hperm : sa.Perm (List.range B.length)) (hpw : sa.Pairwise (sufLt B)) (j : Nat)
    (hj : j < B.length) :
    ((j : Nat) : Int) - (if ((j : Nat) : Int) < ((rk B 0 : Nat) : Int) + 1 then 1 else 0)
      = if (succList B sa).getD j 0 < B.length then ((rk B ((succList B sa).getD j 0) : Nat) : Int)
        else -1 := by
  obtain ⟨h1, h2, _⟩ := succList_getD B sa hn hperm hpw j hj
  have hl := succList_length B sa hn hperm hpw
  have hidx := succList_index B sa hn hperm hpw j hj (fun _ => true)
  rw [List.countP_true, List.length_take, hl, Nat.min_eq_left (le_of_lt hj)] at hidx
  simp only [Bool.and_true] at hidx
  generalize (succList B sa).getD j 0 = s at h1 h2 hidx ⊢
  by_cases hs : s < B.length
  · rw [if_pos hs]
    have hshift := countP_range_shift B.length (fun u => decide (sufLt B u s))
    simp only [decide_eq_true_eq] at hshift
    rw [← hidx, if_pos (sufLt_end B s hs)] at hshift
    by_cases h0 : sufLt B 0 s
    · rw [if_pos h0] at hshift
      have hlt := rk_lt_of_sufLt B 0 s hn h0
      have hjs : j = rk B s := by unfold rk; omega
      rw [if_neg (by omega), hjs]
      simp
    · rw [if_neg h0] at hshift
      have h0' : sufLt B s 0 := by
        rcases sufLt_total B 0 s (by omega) (by omega) (by omega) with h | h
        · exact absurd h h0
        · exact h
      have hlt := rk_lt_of_sufLt B s 0 hs h0'
      have hjs : j = rk B s + 1 := by unfold rk; omega
      rw [if_pos (by omega), hjs]
      push_cast
      ring
  · rw [if_neg hs]
    have hsn : s = B.length := by omega
    have hz : j = 0 := by
      rw [hidx, List.countP_eq_zero]
      intro u _
      rw [hsn]
      simpa using not_sufLt_end B (u + 1)
    rw [hz, if_pos (by omega)]
    rfl

theorem getD_lt_256 (B : List Nat) (hb : ∀ b ∈ B, b < 256) (k : Nat) : B.getD k 0 < 256 := by
  by_cases hk : k < B.length
  · rw [List.getD_eq_getElem _ _ hk]
    exact hb _ (List.getElem_mem _)
  · rw [List.getD_eq_default _ _ (by omega)]
    norm_num

/-- With the table of the numbers of bytes `≤ c`, the search at the rank
of suffix `k` returns the first byte of that suffix. -/
theorem search_rk (B : List Nat) (hb : ∀ b ∈ B, b < 256) (cnt : Nat → Nat)
    (hcnt : ∀ c, c ≤ 255 →
      cnt c = (List.range B.length).countP (fun u => decide (B.getD u 0 ≤ c)))
    (k : Nat) (hk : k < B.length) :
    search cnt ((rk B k : Nat) : Int) = B.getD k 0 := by
  have ht := getD_lt_256 B hb k
  apply search_eq
  · intro i j hij hj
    rw [hcnt i (by omega), hcnt j (by omega)]
    apply List.countP_mono_left
    intro u _ hu
    simp only [decide_eq_true_eq] at hu ⊢
    omega
  · omega
  · intro j hj
    rw [hcnt j (by omega)]
    have : (List.range B.length).countP (fun u => decide (B.getD u 0 ≤ j)) ≤ rk B k := by
      unfold rk
      apply List.countP_mono_left
      intro u hu hle
      simp only [decide_eq_true_eq] at hle ⊢
      rw [sufLt_step B u k (List.mem_range.mp hu) hk]
      left
      omega
    exact_mod_cast this
  · rw [hcnt _ (by omega)]
    have : rk B k < (List.range B.length).countP (fun u => decide (B.getD u 0 ≤ B.getD k 0)) := by
      unfold rk
      apply countP_lt_of_imp _ _ _ _ k (List.mem_range.mpr hk)
      · simp
      · simpa using sufLt_irrefl B k
      · intro u hu hlt
        simp only [decide_eq_true_eq] at hlt ⊢
        rw [sufLt_step B u k (List.mem_range.mp hu) hk] at hlt
        omega
    exact_mod_cast this

/-- The walk from the rank of suffix `k` writes suffix `k`. -/
theorem walk_correct (B : List Nat) (cnt : Nat → Nat) (ptr : Int → Int) (bsize : Int)
    (hsz : (B.length : Int) ≤ bsize)
    (hsearch : ∀ k, k < B.length → search cnt ((rk B k : Nat) : Int) = B.getD k 0)
    (hptr : ∀ k, k < B.length → ptr ((rk B k : Nat) : Int)
      = if k + 1 < B.length then ((rk B (k + 1) : Nat) : Int) else -1) :
    ∀ (m k : Nat), k + m = B.length →
      walk cnt ptr bsize m (if k < B.length then ((rk B k : Nat) : Int) else -1)
        = some (B.drop k) := by
  intro m
  induction m with
  | zero =>
    intro k hk
    rw [walk, List.drop_of_length_le (by omega)]
  | succ m ih =>
    intro k hk
    have hkl : k < B.length := by omega
    have hr := rk_lt_length B k hkl
    rw [if_pos hkl, walk, if_pos ⟨by omega, by omega⟩, hptr k hkl, hsearch k hkl,
      ih (k + 1) (by omega), Option.map_some', drop_cons B k hkl]

theorem succList_getD_inj (B sa : List Nat) (hn : 0 < B.length)
    (hperm : sa.Perm (List.range B.length)) (hpw : sa.Pairwise (sufLt B)) (j1 j2 : Nat)
    (h1 : j1 < B.length) (h2 : j2 < B.length)
    (h : (succList B sa).getD j1 0 = (succList B sa).getD j2 0) : j1 = j2 := by
  have hl := succList_length B sa hn hperm hpw
  have h1' : j1 < (succList B sa).length := by omega
  have h2' : j2 < (succList B sa).length := by omega
  rw [List.getD_eq_getElem _ _ h1', List.getD_eq_getElem _ _ h2'] at h
  exact ((succList_nodup B sa hperm hpw).getElem_inj_iff).mp h

/-- Inverse BWT correctness on the tables: whatever the `ptr` array held
before, the transformed block of `B` with its index is turned back into `B`. -/
theorem inverseBWT_correct (B L : List Nat) (idx : Int) (ptr : Int → Int) (bsize : Int)
    (hn : 0 < B.length) (hb : ∀ b ∈ B, b < 256) (h : IsBWT B L idx)
    (hsz : (B.length : Int) ≤ bsize) :
    ∃ ptr1, inverseBWT L idx ptr bsize = some (B, ptr1) := by
  obtain ⟨sa, hperm, hpw, hL, hidx⟩ := h
  rw [bwt_eq_map B sa hn] at hL
  rw [indexOf_zero_eq_rk B sa hn hperm hpw] at hidx
  have hl := succList_length B sa hn hperm hpw
  have hLlen : L.length = B.length := by rw [hL, List.length_map, hl]
  -- the byte at each position of the transformed block
  have hLbyte : ∀ j, j < B.length → L.getD j 0 ≤ 255 := by
    intro j hj
    obtain ⟨_, _, h3⟩ := succList_getD B sa hn hperm hpw j hj
    rw [hL, h3]
    have := getD_lt_256 B hb ((succList B sa).getD j 0 - 1)
    omega
  -- the slot of each position
  have hdest : ∀ j, j < B.length →
      cumulate 255 1 (countBytes L (fun _ => 0)) (L.getD j 0)
        + (L.take j).countP (fun b => decide (b = L.getD j 0))
      = rk B ((succList B sa).getD j 0 - 1) := by
    intro j hj
    rw [cnt_less L _ (hLbyte j hj), hL]
    exact dest_eq_rk B sa hn hperm hpw j hj
  have hinj : ∀ j1 j2, j1 < L.length → j2 < L.length →
      cumulate 255 1 (countBytes L (fun _ => 0)) (L.getD j1 0)
        + (L.take j1).countP (fun b => decide (b = L.getD j1 0))
      = cumulate 255 1 (countBytes L (fun _ => 0)) (L.getD j2 0)
        + (L.take j2).countP (fun b => decide (b = L.getD j2 0)) → j1 = j2 := by
    intro j1 j2 h1 h2 he
    rw [hLlen] at h1 h2
    rw [hdest j1 h1, hdest j2 h2] at he
    obtain ⟨a1, a2, _⟩ := succList_getD B sa hn hperm hpw j1 h1
    obtain ⟨b1, b2, _⟩ := succList_getD B sa hn hperm hpw j2 h2
    have := rk_inj B _ _ (by omega) (by omega) he
    exact succList_getD_inj B sa hn hperm hpw j1 j2 h1 h2 (by omega)
  have hcnt : ∀ c, c ≤ 255 →
      (buildPtr L idx 0 (cumulate 255 1 (countBytes L (fun _ => 0))) ptr).1 c
        = (List.range B.length).countP (fun u => decide (B.getD u 0 ≤ c)) := by
    intro c hc
    rw [buildPtr_cnt, cnt_less L c hc, hL, bwt_countP B sa hn hperm hpw,
      bwt_countP B sa hn hperm hpw]
    symm
    apply countP_split
    · intro u _
      rw [Bool.eq_iff_iff]
      simp only [decide_eq_true_eq, Bool.or_eq_true]
      omega
    · intro u _
      simp only [decide_eq_true_eq]
      omega
  have hptr : ∀ k, k < B.length →
      (buildPtr L idx 0 (cumulate 255 1 (countBytes L (fun _ => 0))) ptr).2 ((rk B k : Nat) : Int)
        = if k + 1 < B.length then ((rk B (k + 1) : Nat) : Int) else -1 := by
    intro k hk
    have hmem : k + 1 ∈ succList B sa := (succList_mem B sa hperm _).mpr ⟨by omega, by omega⟩
    have hj : (succList B sa).indexOf (k + 1) < B.length := by
      rw [← hl]; exact List.indexOf_lt_length.mpr hmem
    have hget := getD_indexOf (succList B sa) (k + 1) hmem
    have hp := buildPtr_ptr L idx 0 (cumulate 255 1 (countBytes L (fun _ => 0))) ptr hinj
      ((succList B sa).indexOf (k + 1)) (by rw [hLlen]; exact hj)
    rw [hdest _ hj, hget, Nat.add_sub_cancel, Nat.zero_add] at hp
    rw [hp, hidx, val_eq_rk B sa hn hperm hpw _ hj, hget]
  have hw := walk_correct B _ _ bsize hsz
    (search_rk B hb (buildPtr L idx 0 (cumulate 255 1 (countBytes L (fun _ => 0))) ptr).1 hcnt)
    hptr B.length 0 (by omega)
  rw [if_pos hn] at hw
  refine ⟨(buildPtr L idx 0 (cumulate 255 1 (countBytes L (fun _ => 0))) ptr).2, ?_⟩
  unfold inverseBWT
  simp only []
  have hstart : idx - 1 = ((rk B 0 : Nat) : Int) := by omega
  rw [hLlen, hstart, hw]
  rfl

theorem lexLt_of_not (x y : List Nat) (h : lexLt y x = false) (hne : x ≠ y) : lexLt x y = true := by
  rcases lexLt_total x y hne with h1 | h1
  · exact h1
  · rw [h] at h1; cases h1

/-- The sorting BWT meets the contract of the external primitive. -/
theorem bwtSort_isBWT (B : List Nat) : IsBWT B (bwtSort B).1 (bwtSort B).2 := by
  haveI htot : IsTotal Nat (fun a b => ¬ sufLt B b a) := ⟨fun a b => by
    by_cases h : sufLt B b a
    · exact Or.inr (sufLt_asymm B b a h)
    · exact Or.inl h⟩
  haveI htr : IsTrans Nat (fun a b => ¬ sufLt B b a) := ⟨fun a b c h1 h2 h3 => by
    unfold sufLt at h1 h2 h3
    by_cases hab : B.drop a = B.drop b
    · rw [hab] at h3; exact h2 h3
    · have h1' : lexLt (B.drop a) (B.drop b) = true :=
        lexLt_of_not _ _ (by simpa using h1) hab
      exact h2 (lexLt_trans _ _ _ h3 h1')⟩
  refine ⟨(List.range B.length).insertionSort (fun a b => ¬ sufLt B b a),
    List.perm_insertionSort _ _, ?_, rfl, rfl⟩
  have hs : ((List.range B.length).insertionSort (fun a b => ¬ sufLt B b a)).Pairwise
      (fun a b => ¬ sufLt B b a) := List.sorted_insertionSort _ _
  have hnd : ((List.range B.length).insertionSort (fun a b => ¬ sufLt B b a)).Nodup :=
    (List.perm_insertionSort _ _).nodup_iff.mpr (List.nodup_range _)
  have hboth := hs.and hnd
  refine hboth.imp_of_mem ?_
  intro a b ha hb hab
  have ha' := List.mem_range.mp ((List.perm_insertionSort _ _).mem_iff.mp ha)
  have hb' := List.mem_range.mp ((List.perm_insertionSort _ _).mem_iff.mp hb)
  rcases sufLt_total B a b (le_of_lt ha') (le_of_lt hb') hab.2 with h | h
  · exact h
  · exact absurd h hab.1

/-- C4: for every non-empty block `B` of bytes, if `(L, idx)` is its forward
BWT in the convention of the external primitive (`IsBWT`), the inverse
transform of `Decompress` (counts, running sums, `ptr`, walk from
`p = idx - 1`), run with allocated size at least `n` and any previous
contents of `ptr`, writes exactly `B` into `buf`. -/
theorem C4_inverse_bwt_recovers_block (B L : List Nat) (idx : Int) (ptr : Int → Int)
    (bsize : Int) (hne : B ≠ []) (hb : ∀ b ∈ B, b < 256) (h : IsBWT B L idx)
    (hsz : (B.length : Int) ≤ bsize) :
    (inverseBWT L idx ptr bsize).map Prod.fst = some B := by
  obtain ⟨ptr1, hp⟩ := inverseBWT_correct B L idx ptr bsize (List.length_pos.mpr hne) hb h hsz
  rw [hp]
  rfl

theorem C4_inverse_bwt_recovers_block_witness :
    ([98, 97, 110, 97, 110, 97] : List Nat) ≠ []
    ∧ (∀ b ∈ ([98, 97, 110, 97, 110, 97] : List Nat), b < 256)
    ∧ IsBWT [98, 97, 110, 97, 110, 97] [97, 110, 110, 98, 97, 97] 4
    ∧ ((([98, 97, 110, 97, 110, 97] : List Nat).length : Nat) : Int) ≤ 6
    ∧ (inverseBWT [97, 110, 110, 98, 97, 97] 4 (fun _ => 0) 6).map Prod.fst
        = some [98, 97, 110, 97, 110, 97] :=
  ⟨by decide, by decide, ⟨[5, 3, 1, 0, 4, 2], by decide, by decide, by decide, by decide⟩,
    by decide,
    C4_inverse_bwt_recovers_block [98, 97, 110, 97, 110, 97] [97, 110, 110, 98, 97, 97] 4
      (fun _ => 0) 6 (by decide) (by decide)
      ⟨[5, 3, 1, 0, 4, 2], by decide, by decide, by decide, by decide⟩ (by decide)⟩

/-! ### The block pipeline -/

theorem isBWT_facts (B L : List Nat) (idx : Int) (hn : 0 < B.length) (hb : ∀ b ∈ B, b < 256)
    (h : IsBWT B L idx) :
    L.length = B.length ∧ (∀ c ∈ L, c < 256) ∧ 1 ≤ idx ∧ idx ≤ (B.length : Int) := by
  obtain ⟨sa, hperm, hpw, hL, hidx⟩ := h
  rw [bwt_eq_map B sa hn] at hL
  rw [indexOf_zero_eq_rk B sa hn hperm hpw] at hidx
  have hr := rk_lt_length B 0 hn
  refine ⟨?_, ?_, by omega, by omega⟩
  · rw [hL, List.length_map, succList_length B sa hn hperm hpw]
  · intro c hc
    rw [hL, List.mem_map] at hc
    obtain ⟨s, _, rfl⟩ := hc
    exact getD_lt_256 B hb _

theorem bytes_sync : ∀ (L : List Nat) (m : CM), m.enc.Inv → m.Bounded → (∀ c ∈ L, c < 256) →
    ∀ (F : List Nat) (ef : Bool),
    (putBytes L m).1.enc.Inv ∧ (putBytes L m).1.Bounded
    ∧ ((putBytes L m).1.enc.Covers F →
        m.enc.Covers ((putBytes L m).2 ++ F)
        ∧ getBytes L.length (m.withCode (code4 ((putBytes L m).2 ++ F)))
            { data := ((putBytes L m).2 ++ F).drop 4, eof := ef }
          = (L, (putBytes L m).1.withCode (code4 F), { data := F.drop 4, eof := ef })) := by
  intro L
  induction L with
  | nil =>
    intro m hinv hb _ F ef
    exact ⟨hinv, hb, fun hc => ⟨hc, rfl⟩⟩
  | cons c rest ih =>
    intro m hinv hb hv F ef
    have hc : c < 256 := hv c (List.mem_cons_self _ _)
    obtain ⟨hinv1, hb1, _⟩ := CM.put_sync c hc m hinv hb F ef
    obtain ⟨hinv2, hb2, hrest⟩ := ih (m.Put c).1 hinv1 hb1
      (fun x hx => hv x (List.mem_cons_of_mem _ hx)) F ef
    simp only [putBytes]
    refine ⟨hinv2, hb2, fun hcov => ?_⟩
    obtain ⟨hcov1, hdec1⟩ := hrest hcov
    obtain ⟨_, _, hstep⟩ := CM.put_sync c hc m hinv hb ((putBytes rest (m.Put c).1).2 ++ F) ef
    obtain ⟨hcov0, hdec0⟩ := hstep hcov1
    rw [List.append_assoc]
    refine ⟨hcov0, ?_⟩
    simp only [List.length_cons, getBytes, hdec0, hdec1]

theorem crc_bit_lt (x : Nat) (h : x < 2 ^ 32) : CRC32.bit x < 2 ^ 32 := by
  unfold CRC32.bit
  split
  · exact Nat.xor_lt_two_pow (by omega) (by norm_num)
  · omega

theorem crc_byte_lt (x b : Nat) (h : x < 2 ^ 32) (hb : b < 256) : CRC32.byte x b < 2 ^ 32 := by
  unfold CRC32.byte
  have h0 : x ^^^ b < 2 ^ 32 := Nat.xor_lt_two_pow h (by omega)
  exact crc_bit_lt _ (crc_bit_lt _ (crc_bit_lt _ (crc_bit_lt _ (crc_bit_lt _ (crc_bit_lt _
    (crc_bit_lt _ (crc_bit_lt _ h0)))))))

/-- The running CRC stays a 32-bit value. -/
theorem crc_update_lt (x : Nat) (s : List Nat) (h : x < 2 ^ 32) (hs : ∀ b ∈ s, b < 256) :
    CRC.Update x s < 2 ^ 32 := by
  unfold CRC.Update
  rw [CRC32.loop_eq s x hs]
  induction s generalizing x with
  | nil => exact h
  | cons b s ih =>
    rw [List.foldl_cons]
    exact ih _ (crc_byte_lt x b h (hs b (List.mem_cons_self _ _)))
      (fun c hc => hs c (List.mem_cons_of_mem _ hc))

theorem crc_value_lt (x : Nat) (h : x < 2 ^ 32) : CRC.value x < 2 ^ 32 := by
  unfold CRC.value
  exact Nat.xor_lt_two_pow h (by norm_num)

theorem classify_block (n idx : Nat) (alloc : Int) (hn0 : 0 < n) (hn : n < 2 ^ 31)
    (hidx1 : 1 ≤ idx) (hidx2 : idx ≤ n) (halloc : alloc = 0 ∨ (n : Int) ≤ alloc) :
    classify n idx alloc = .block n idx (if alloc = 0 then (n : Int) else alloc) := by
  have h1 : toInt32 n = (n : Int) := toInt32_small n hn
  have h2 : toInt32 idx = (idx : Int) := toInt32_small idx (by omega)
  rw [classify_eq, h1, h2, if_pos (by omega), if_neg]
  intro hc
  rcases hc with hc | hc | hc
  · split at hc <;> omega
  · omega
  · omega

theorem classify_stop_zero (idx : Nat) (alloc : Int) : classify 0 idx alloc = .stop := by
  rw [classify_eq, if_neg]
  unfold toInt32
  norm_num

/-- One block: what `Compress` writes for it is read back by one turn of the
loop of `Decompress`, which writes the block and goes on in the encoder's
state. -/
theorem block_sync (bwt : List Nat → List Nat × Int) (buf : List Nat) (cmE : CM)
    (hne : buf ≠ []) (hbytes : ∀ b ∈ buf, b < 256) (hlen : buf.length < 2 ^ 31)
    (hbwt : IsBWT buf (bwt buf).1 (bwt buf).2) (hinv : cmE.enc.Inv) (hbd : cmE.Bounded) :
    ∃ cm1 E1, compressBlock bwt buf cmE = some (cm1, E1) ∧ cm1.enc.Inv ∧ cm1.Bounded
      ∧ ∀ F, cm1.enc.Covers F →
        cmE.enc.Covers (E1 ++ F)
        ∧ ∀ (alloc : Int) (ptr : Int → Int), (alloc = 0 ∨ (buf.length : Int) ≤ alloc) →
          ∃ ptr1, ∀ (next : CM → Input → Nat → Int → (Int → Int) → DecompressResult) (crc : Nat),
            decompressStep next (cmE.withCode (code4 (E1 ++ F)))
              { data := (E1 ++ F).drop 4, eof := false } crc alloc ptr
            = { out := buf ++ (next (cm1.withCode (code4 F)) { data := F.drop 4, eof := false }
                    (CRC.Update crc buf) (if alloc = 0 then (buf.length : Int) else alloc) ptr1).out,
                failure := (next (cm1.withCode (code4 F)) { data := F.drop 4, eof := false }
                    (CRC.Update crc buf) (if alloc = 0 then (buf.length : Int) else alloc)
                    ptr1).failure } := by
  have hn0 : 0 < buf.length := List.length_pos.mpr hne
  obtain ⟨hLlen, hLbytes, hidx1, hidx2⟩ := isBWT_facts buf _ _ hn0 hbytes hbwt
  have hnU : toU32 (buf.length : Int) = buf.length := Encoder.toU32_cast _ (by omega)
  obtain ⟨idxN, hidxN⟩ : ∃ idxN : Nat, (bwt buf).2 = (idxN : Int) :=
    ⟨(bwt buf).2.toNat, (Int.toNat_of_nonneg (by omega)).symm⟩
  have hidxN1 : 1 ≤ idxN := by omega
  have hidxN2 : idxN ≤ buf.length := by omega
  have hiU : toU32 (bwt buf).2 = idxN := by
    rw [hidxN]; exact Encoder.toU32_cast _ (by omega)
  -- the encoder's three stages
  obtain ⟨hinv1, hsame1, _⟩ := CM.put32_sync buf.length (by omega) cmE hinv [] false
  have hbd1 : (cmE.Put32 buf.length).1.Bounded := by rw [hsame1]; exact hbd
  obtain ⟨hinv2, hsame2, _⟩ := CM.put32_sync idxN (by omega) (cmE.Put32 buf.length).1 hinv1 []
    false
  have hbd2 : ((cmE.Put32 buf.length).1.Put32 idxN).1.Bounded := by rw [hsame2]; exact hbd1
  obtain ⟨hinv3, hbd3, _⟩ := bytes_sync (bwt buf).1 _ hinv2 hbd2 hLbytes [] false
  refine ⟨(putBytes (bwt buf).1 ((cmE.Put32 buf.length).1.Put32 idxN).1).1,
    (cmE.Put32 buf.length).2 ++ ((cmE.Put32 buf.length).1.Put32 idxN).2
      ++ (putBytes (bwt buf).1 ((cmE.Put32 buf.length).1.Put32 idxN).1).2, ?_, hinv3, hbd3, ?_⟩
  · unfold compressBlock
    rw [if_neg (by omega), hnU, hiU]
  · intro F hcov
    obtain ⟨_, _, hs3⟩ := bytes_sync (bwt buf).1 _ hinv2 hbd2 hLbytes F false
    obtain ⟨hcov3, hdec3⟩ := hs3 hcov
    obtain ⟨_, _, hs2⟩ := CM.put32_sync idxN (by omega) (cmE.Put32 buf.length).1 hinv1
      ((putBytes (bwt buf).1 ((cmE.Put32 buf.length).1.Put32 idxN).1).2 ++ F) false
    obtain ⟨hcov2, hdec2⟩ := hs2 hcov3
    obtain ⟨_, _, hs1⟩ := CM.put32_sync buf.length (by omega) cmE hinv
      (((cmE.Put32 buf.length).1.Put32 idxN).2
        ++ ((putBytes (bwt buf).1 ((cmE.Put32 buf.length).1.Put32 idxN).1).2 ++ F)) false
    obtain ⟨hcov1, hdec1⟩ := hs1 hcov2
    rw [List.append_assoc, List.append_assoc]
    refine ⟨hcov1, ?_⟩
    intro alloc ptr halloc
    obtain ⟨ptr1, hinvb⟩ := inverseBWT_correct buf (bwt buf).1 (idxN : Int) ptr
      (if alloc = 0 then (buf.length : Int) else alloc) hn0 hbytes (by rw [← hidxN]; exact hbwt)
      (by split <;> omega)
    refine ⟨ptr1, fun next crc => ?_⟩
    rw [hLlen] at hdec3
    unfold decompressStep
    simp only [hdec1, hdec2, classify_block buf.length idxN alloc hn0 hlen hidxN1 hidxN2 halloc,
      decompressBlock, Int.toNat_ofNat, hdec3, hinvb, Option.map_some']

/-- The loop of `Compress` on the rest of the input returns, and the loop of
`Decompress`, looking at what is written from here on, writes that rest and
arrives in the encoder's state. -/
theorem loop_sync (bwt : List Nat → List Nat × Int) (bs : Nat) (hbs1 : 1 ≤ bs)
    (hbs : bs < 2 ^ 31)
    (hbwt : ∀ B, B ≠ [] → (∀ b ∈ B, b < 256) → IsBWT B (bwt B).1 (bwt B).2) :
    ∀ (k : Nat) (inp : List Nat) (cmE : CM) (crcV : Nat), inp.length < k →
      (∀ b ∈ inp, b < 256) → cmE.enc.Inv → cmE.Bounded → crcV < 2 ^ 32 →
      ∃ cm1 crc1 out nb, compressLoop bwt bs k inp cmE crcV = .ok (cm1, crc1, out)
        ∧ nb ≤ inp.length ∧ cm1.enc.Inv ∧ cm1.Bounded ∧ crc1 < 2 ^ 32
        ∧ ∀ F, cm1.enc.Covers F →
          cmE.enc.Covers (out ++ F)
          ∧ ∀ (alloc : Int) (ptr : Int → Int),
              (alloc = 0 ∨ ((min bs inp.length : Nat) : Int) ≤ alloc) →
            ∃ alloc1 ptr1, ∀ j,
              decompressLoop (j + nb) (cmE.withCode (code4 (out ++ F)))
                  { data := (out ++ F).drop 4, eof := false } crcV alloc ptr
                = { out := inp ++ (decompressLoop j (cm1.withCode (code4 F))
                        { data := F.drop 4, eof := false } crc1 alloc1 ptr1).out,
                    failure := (decompressLoop j (cm1.withCode (code4 F))
                        { data := F.drop 4, eof := false } crc1 alloc1 ptr1).failure } := by
  intro k
  induction k with
  | zero => intro inp _ _ h; exact absurd h (Nat.not_lt_zero _)
  | succ k ih =>
    intro inp cmE crcV hk hbytes hinv hbd hcrc
    rw [compressLoop_succ]
    unfold compressStep
    by_cases hemp : inp = []
    · subst hemp
      refine ⟨cmE, crcV, [], 0, ?_, le_refl _, hinv, hbd, hcrc, ?_⟩
      · simp
      · intro F hcov
        refine ⟨hcov, fun alloc ptr _ => ⟨alloc, ptr, fun j => ?_⟩⟩
        simp
    · have hlen0 : 0 < inp.length := List.length_pos.mpr hemp
      have htl : (inp.take bs).length = min bs inp.length := List.length_take _ _
      have htne : inp.take bs ≠ [] := by
        intro h0
        rw [h0, List.length_nil] at htl
        have : 1 ≤ min bs inp.length := le_min hbs1 hlen0
        omega
      have htb : ∀ b ∈ inp.take bs, b < 256 := fun b hb => hbytes b (List.mem_of_mem_take hb)
      have hminle : min bs inp.length ≤ bs := min_le_left _ _
      obtain ⟨cm1, E1, hcb, hinv1, hbd1, hblock⟩ := block_sync bwt (inp.take bs) cmE htne htb
        (by omega) (hbwt _ htne htb) hinv hbd
      have hdl : (inp.drop bs).length = inp.length - bs := List.length_drop _ _
      obtain ⟨cm2, crc2, out2, nb2, hcl, hnb2, hinv2, hbd2, hcrc2, hrest⟩ :=
        ih (inp.drop bs) cm1 (CRC.Update crcV (inp.take bs)) (by omega)
          (fun b hb => hbytes b (List.mem_of_mem_drop hb)) hinv1 hbd1
          (crc_update_lt _ _ hcrc htb)
      refine ⟨cm2, crc2, E1 ++ out2, nb2 + 1, ?_, by omega, hinv2, hbd2, hcrc2, ?_⟩
      · rw [if_pos (by omega)]
        simp only [hcb, hcl]
      · intro F hcov
        obtain ⟨hcov1, hdecrest⟩ := hrest F hcov
        obtain ⟨hcov0, hdecblock⟩ := hblock (out2 ++ F) hcov1
        rw [List.append_assoc]
        refine ⟨hcov0, fun alloc ptr halloc => ?_⟩
        obtain ⟨ptr1, hstep⟩ := hdecblock alloc ptr (by rw [htl]; exact halloc)
        obtain ⟨alloc2, ptr2, hloop⟩ := hdecrest
          (if alloc = 0 then ((inp.take bs).length : Int) else alloc) ptr1 (by
            right
            rw [htl, hdl]
            have h1 : min bs (inp.length - bs) ≤ min bs inp.length :=
              min_le_min (le_refl _) (Nat.sub_le _ _)
            rcases halloc with h0 | h0
            · rw [if_pos h0]; exact_mod_cast h1
            · split
              · exact_mod_cast h1
              · have : ((min bs (inp.length - bs) : Nat) : Int) ≤ ((min bs inp.length : Nat) : Int) := by
                  exact_mod_cast h1
                omega)
        refine ⟨alloc2, ptr2, fun j => ?_⟩
        rw [show j + (nb2 + 1) = (j + nb2) + 1 by omega, decompressLoop_succ, hstep, hloop j]
        simp only [← List.append_assoc, List.take_append_drop]

/-- The trailer `Put32(0); Put32(crc()); Flush()` read back by the last turn
of the loop of `Decompress` and its CRC check. -/
theorem trailer_sync (cm1 : CM) (crc1 : Nat) (hinv : cm1.enc.Inv) (hcrc : crc1 < 2 ^ 32) :
    cm1.enc.Covers ((cm1.Put32 0).2 ++ (((cm1.Put32 0).1.Put32 (CRC.value crc1)).2
        ++ (Encoder.Flush ((cm1.Put32 0).1.Put32 (CRC.value crc1)).1.enc).2))
    ∧ ∀ (j : Nat) (alloc : Int) (ptr : Int → Int),
      decompressLoop (j + 1)
          (cm1.withCode (code4 ((cm1.Put32 0).2 ++ (((cm1.Put32 0).1.Put32 (CRC.value crc1)).2
            ++ (Encoder.Flush ((cm1.Put32 0).1.Put32 (CRC.value crc1)).1.enc).2))))
          { data := ((cm1.Put32 0).2 ++ (((cm1.Put32 0).1.Put32 (CRC.value crc1)).2
            ++ (Encoder.Flush ((cm1.Put32 0).1.Put32 (CRC.value crc1)).1.enc).2)).drop 4,
            eof := false } crc1 alloc ptr
        = { out := [], failure := none } := by
  obtain ⟨hinv1, _, _⟩ := CM.put32_sync 0 (by norm_num) cm1 hinv [] false
  obtain ⟨hinv2, _, hs2⟩ := CM.put32_sync (CRC.value crc1) (crc_value_lt _ hcrc) (cm1.Put32 0).1
    hinv1 (Encoder.Flush ((cm1.Put32 0).1.Put32 (CRC.value crc1)).1.enc).2 false
  obtain ⟨hcov2, hdec2⟩ := hs2 (Encoder.flush_covers _ hinv2.1)
  obtain ⟨_, _, hs1⟩ := CM.put32_sync 0 (by norm_num) cm1 hinv
    (((cm1.Put32 0).1.Put32 (CRC.value crc1)).2
      ++ (Encoder.Flush ((cm1.Put32 0).1.Put32 (CRC.value crc1)).1.enc).2) false
  obtain ⟨hcov1, hdec1⟩ := hs1 hcov2
  refine ⟨hcov1, fun j alloc ptr => ?_⟩
  rw [decompressLoop_succ]
  unfold decompressStep
  simp only [hdec1, hdec2, classify_stop_zero, ne_eq, not_true_eq_false, if_false]

theorem isBWT_single (c : Nat) (L : List Nat) (idx : Int) (h : IsBWT [c] L idx) :
    L = [c] ∧ idx = 1 := by
  obtain ⟨sa, hperm, _, hL, hidx⟩ := h
  have hsa : sa = [0] := by
    have hr : List.range ([c] : List Nat).length = [0] := rfl
    rw [hr] at hperm
    exact List.perm_singleton.mp hperm
  subst hsa
  constructor
  · rw [hL]; rfl
  · rw [hidx]; rfl

/-- C1: for every byte sequence `S` and every block size `B ≥ 1` (an `int`,
so below `2^31`), when the external forward BWT meets its contract on every
non-empty block of bytes, `Compress(S, B)` returns, and `Decompress` on the
stream it wrote, given at least `|S| + 1` turns of its loop, returns normally
(neither `Corrupt input!` nor `CRC error!`) having written exactly `S`. On the
single-byte block `{0x41}` the contract forces `L = {0x41}`, `idx = 1`. -/
theorem C1_compress_decompress_round_trip (bwt : List Nat → List Nat × Int) (bsize : Nat)
    (S : List Nat) (hb1 : 1 ≤ bsize) (hb2 : bsize < 2 ^ 31) (hS : ∀ b ∈ S, b < 256)
    (hbwt : ∀ B, B ≠ [] → (∀ b ∈ B, b < 256) → IsBWT B (bwt B).1 (bwt B).2) :
    (∃ stream, Compress bwt bsize S = .ok stream
      ∧ ∀ fuel, S.length + 1 ≤ fuel → Decompress fuel stream = { out := S, failure := none })
    ∧ bwt [0x41] = ([0x41], 1) := by
  constructor
  · by_cases hemp : S = []
    · subst hemp
      refine ⟨_, compress_nil bwt bsize, fun fuel hf => ?_⟩
      obtain ⟨f, rfl⟩ : ∃ f, fuel = f + 1 := ⟨fuel - 1, by simp at hf; omega⟩
      rfl
    · have hlen0 : 0 < S.length := List.length_pos.mpr hemp
      have hbs1 : 1 ≤ (if bsize > S.length then S.length else bsize) := by split <;> omega
      have hbs2 : (if bsize > S.length then S.length else bsize) < 2 ^ 31 := by split <;> omega
      obtain ⟨cm1, crc1, out, nb, hcl, hnb, hinv1, _, hcrc1, hrest⟩ :=
        loop_sync bwt (if bsize > S.length then S.length else bsize) hbs1 hbs2 hbwt
          (S.length + 1) S CM.init CRC.init (by omega) hS CM.model_init_inv CM.init_bounded
          (by unfold CRC.init; norm_num)
      obtain ⟨hcovT, hdecT⟩ := trailer_sync cm1 crc1 hinv1 hcrc1
      obtain ⟨hcov0, hdec⟩ := hrest _ hcovT
      obtain ⟨alloc1, ptr1, hloop⟩ := hdec 0 (fun _ => 0) (Or.inl rfl)
      refine ⟨out ++ ((cm1.Put32 0).2 ++ (((cm1.Put32 0).1.Put32 (CRC.value crc1)).2
        ++ (Encoder.Flush ((cm1.Put32 0).1.Put32 (CRC.value crc1)).1.enc).2)), ?_, ?_⟩
      · unfold Compress
        simp only [hcl, List.append_assoc]
      · intro fuel hf
        obtain ⟨j, rfl⟩ : ∃ j, fuel = (j + 1) + nb := ⟨fuel - nb - 1, by omega⟩
        unfold Decompress
        rw [CM.start_eq _ hcov0.1, hloop (j + 1), hdecT j alloc1 ptr1]
        simp
  · have h := hbwt [0x41] (by simp) (by simp)
    obtain ⟨h1, h2⟩ := isBWT_single 0x41 _ _ h
    exact Prod.ext h1 h2

theorem C1_compress_decompress_round_trip_witness :
    1 ≤ 1 ∧ 1 < 2 ^ 31 ∧ (∀ b ∈ ([0x41] : List Nat), b < 256)
    ∧ (∀ B, B ≠ [] → (∀ b ∈ B, b < 256) → IsBWT B (bwtSort B).1 (bwtSort B).2)
    ∧ ((∃ stream, Compress bwtSort 1 [0x41] = .ok stream
        ∧ ∀ fuel, ([0x41] : List Nat).length + 1 ≤ fuel →
          Decompress fuel stream = { out := [0x41], failure := none })
      ∧ bwtSort [0x41] = ([0x41], 1)) :=
  ⟨by decide, by decide, by decide, fun B _ _ => bwtSort_isBWT B,
    C1_compress_decompress_round_trip bwtSort 1 [0x41] (by decide) (by decide) (by decide)
      (fun B _ _ => bwtSort_isBWT B)⟩

/-! ### Loop bounds of the model -/

/-- The decoder's renormalization loop moves `low` and `high` as the
encoder's does. -/
theorem renormDec_interval (k : Nat) : ∀ (e : Encoder) (inp : Input),
    (Encoder.renormDec k e inp).1.low = (Encoder.renormEnc k e).1.low
    ∧ (Encoder.renormDec k e inp).1.high = (Encoder.renormEnc k e).1.high := by
  induction k with
  | zero => intro e inp; exact ⟨rfl, rfl⟩
  | succ k ih =>
    intro e inp
    by_cases hc : e.low ^^^ e.high < 1 <<< 24
    · rw [Encoder.renormDec, if_pos hc, Encoder.renormEnc, if_pos hc]
      have h := ih { Encoder.shift e with
        code := ((e.code <<< 8) % 2 ^ 32) ||| toU32 (getc inp).1 } (getc inp).2
      have hs : Encoder.renormEnc k { Encoder.shift e with
          code := ((e.code <<< 8) % 2 ^ 32) ||| toU32 (getc inp).1 }
          = ((Encoder.renormEnc k (Encoder.shift e)).1.withCode
              ((Encoder.renormEnc k { Encoder.shift e with
                code := ((e.code <<< 8) % 2 ^ 32) ||| toU32 (getc inp).1 }).1.code),
            (Encoder.renormEnc k (Encoder.shift e)).2) := by
        clear h ih hc
        generalize ((e.code <<< 8) % 2 ^ 32) ||| toU32 (getc inp).1 = c
        generalize Encoder.shift e = e1
        induction k generalizing e1 with
        | zero => rfl
        | succ k ih2 =>
          by_cases hc2 : e1.low ^^^ e1.high < 1 <<< 24
          · have hc3 : ({ e1 with code := c } : Encoder).low ^^^ ({ e1 with code := c } : Encoder).high
                < 1 <<< 24 := hc2
            rw [Encoder.renormEnc, if_pos hc3, Encoder.renormEnc, if_pos hc2]
            have := ih2 (Encoder.shift e1)
            have hsh : Encoder.shift { e1 with code := c } = { Encoder.shift e1 with code := c } := rfl
            rw [hsh, this]
            rfl
          · have hc3 : ¬ (({ e1 with code := c } : Encoder).low
                ^^^ ({ e1 with code := c } : Encoder).high < 1 <<< 24) := hc2
            rw [Encoder.renormEnc, if_neg hc3, Encoder.renormEnc, if_neg hc2]
            rfl
      rw [hs] at h
      exact h
    · rw [Encoder.renormDec, if_neg hc, Encoder.renormEnc, if_neg hc]
      exact ⟨rfl, rfl⟩

/-- Four iterations suffice in `DecodeBit` as well: after `renormDec 4` the
loop condition is false. -/
theorem renormDec_exit (e : Encoder) (inp : Input) :
    ¬ ((Encoder.renormDec 4 e inp).1.low ^^^ (Encoder.renormDec 4 e inp).1.high < 1 <<< 24) := by
  obtain ⟨h1, h2⟩ := renormDec_interval 4 e inp
  rw [h1, h2]
  exact Encoder.renormEnc_exit e

/-- The loop of `Get` is left with `ctx ≥ 256`: its eight turns are all the
source's `while (ctx<256)` makes from `ctx = 1`. -/
theorem getLoop_exit (k : Nat) : ∀ (f ctx : Nat) (m : CM) (inp : Input), 1 ≤ ctx →
    256 ≤ ctx * 2 ^ k → 256 ≤ (CM.getLoop k f ctx m inp).2.1 := by
  induction k with
  | zero =>
    intro f ctx m inp _ h
    simpa [CM.getLoop] using h
  | succ k ih =>
    intro f ctx m inp h1 h
    have hpow : 2 ^ (k + 1) = 2 * 2 ^ k := by ring
    rw [hpow] at h
    rw [CM.getLoop]
    by_cases hc : ctx < 256
    · rw [if_pos hc]
      simp only []
      split
      · apply ih _ _ _ _ (by omega)
        nlinarith
      · apply ih _ _ _ _ (by omega)
        nlinarith
    · rw [if_neg hc]
      simp only []
      omega

/-! ### Termination of the renormalization loops -/

/-- Once the loop condition is false, further iterations of the encoder's
renormalization loop change nothing. -/
theorem renormEnc_stable (n k : Nat) : ∀ e : Encoder,
    ¬ ((Encoder.renormEnc n e).1.low ^^^ (Encoder.renormEnc n e).1.high < 1 <<< 24) →
    Encoder.renormEnc (n + k) e = Encoder.renormEnc n e := by
  induction n with
  | zero =>
    intro e h
    have h2 : ¬ (e.low ^^^ e.high < 1 <<< 24) := h
    cases k with
    | zero => rfl
    | succ k => simp only [Nat.zero_add, Encoder.renormEnc, if_neg h2]
  | succ n ih =>
    intro e h
    by_cases hc : e.low ^^^ e.high < 1 <<< 24
    · have hn : n + 1 + k = (n + k) + 1 := by omega
      rw [hn, Encoder.renormEnc, if_pos hc, Encoder.renormEnc, if_pos hc]
      rw [Encoder.renormEnc, if_pos hc] at h
      rw [ih (Encoder.shift e) h]
    · have hn : n + 1 + k = (n + k) + 1 := by omega
      rw [hn, Encoder.renormEnc, if_neg hc, Encoder.renormEnc, if_neg hc]

/-- Once the loop condition is false, further iterations of the decoder's
renormalization loop change nothing. -/
theorem renormDec_stable (n k : Nat) : ∀ (e : Encoder) (inp : Input),
    ¬ ((Encoder.renormDec n e inp).1.low ^^^ (Encoder.renormDec n e inp).1.high < 1 <<< 24) →
    Encoder.renormDec (n + k) e inp = Encoder.renormDec n e inp := by
  induction n with
  | zero =>
    intro e inp h
    have h2 : ¬ (e.low ^^^ e.high < 1 <<< 24) := h
    cases k with
    | zero => rfl
    | succ k => simp only [Nat.zero_add, Encoder.renormDec, if_neg h2]
  | succ n ih =>
    intro e inp h
    by_cases hc : e.low ^^^ e.high < 1 <<< 24
    · have hn : n + 1 + k = (n + k) + 1 := by omega
      rw [hn, Encoder.renormDec, if_pos hc, Encoder.renormDec, if_pos hc]
      rw [Encoder.renormDec, if_pos hc] at h
      exact ih _ _ h
    · have hn : n + 1 + k = (n + k) + 1 := by omega
      rw [hn, Encoder.renormDec, if_neg hc, Encoder.renormDec, if_neg hc]

/-- The bytes written by the encoder's renormalization loop do not depend on
`code`. -/
theorem renormEnc_out_code (k : Nat) : ∀ (e : Encoder) (c : Nat),
    (Encoder.renormEnc k { e with code := c }).2 = (Encoder.renormEnc k e).2 := by
  induction k with
  | zero => intro e c; rfl
  | succ k ih =>
    intro e c
    by_cases hc : e.low ^^^ e.high < 1 <<< 24
    · have hc3 : ({ e with code := c } : Encoder).low ^^^ ({ e with code := c } : Encoder).high
          < 1 <<< 24 := hc
      rw [Encoder.renormEnc, if_pos hc3, Encoder.renormEnc, if_pos hc]
      have hsh : Encoder.shift { e with code := c } = { Encoder.shift e with code := c } := rfl
      simp only [hsh, ih]
    · have hc3 : ¬ (({ e with code := c } : Encoder).low
          ^^^ ({ e with code := c } : Encoder).high < 1 <<< 24) := hc
      rw [Encoder.renormEnc, if_neg hc3, Encoder.renormEnc, if_neg hc]

/-- The decoder's renormalization loop makes as many iterations as the
encoder's from the same `low` and `high`, each taking the next input byte. -/
theorem renormDec_reads (k : Nat) : ∀ (e : Encoder) (inp : Input),
    (Encoder.renormDec k e inp).2.data = inp.data.drop (Encoder.renormEnc k e).2.length := by
  induction k with
  | zero => intro e inp; rfl
  | succ k ih =>
    intro e inp
    by_cases hc : e.low ^^^ e.high < 1 <<< 24
    · rw [Encoder.renormDec, if_pos hc, Encoder.renormEnc, if_pos hc]
      simp only [List.length_cons]
      rw [ih, renormEnc_out_code]
      cases hd : inp.data with
      | nil => simp [getc, hd]
      | cons b rest => simp [getc, hd]
    · rw [Encoder.renormDec, if_neg hc, Encoder.renormEnc, if_neg hc]
      rfl

/-- C19: from every coder state, ordered or not, the renormalization loop of
`EncodeBit` and of `DecodeBit` stops after some number `j ≤ 4` of iterations
(more iterations allowed change nothing, and the loop condition is false on
exit); the encoder writes `j` bytes and the decoder takes the next `j` input
bytes, so a coded bit writes, respectively reads, at most 4 bytes; and after
4 iterations the state is `low = 0`, `high = 0xFFFFFFFF`. -/
theorem C19_renormalization_terminates (e : Encoder) (inp : Input) :
    ∃ j, j ≤ 4
      ∧ (∀ k, Encoder.renormEnc (4 + k) e = Encoder.renormEnc 4 e)
      ∧ (∀ k, Encoder.renormDec (4 + k) e inp = Encoder.renormDec 4 e inp)
      ∧ (Encoder.renormEnc 4 e).1 = Encoder.shift^[j] e
      ∧ (Encoder.renormEnc 4 e).2.length = j
      ∧ (Encoder.renormDec 4 e inp).1.low = (Encoder.shift^[j] e).low
      ∧ (Encoder.renormDec 4 e inp).1.high = (Encoder.shift^[j] e).high
      ∧ (Encoder.renormDec 4 e inp).2.data = inp.data.drop j
      ∧ ¬ ((Encoder.renormEnc 4 e).1.low ^^^ (Encoder.renormEnc 4 e).1.high < 1 <<< 24)
      ∧ ¬ ((Encoder.renormDec 4 e inp).1.low ^^^ (Encoder.renormDec 4 e inp).1.high < 1 <<< 24)
      ∧ (j = 4 → (Encoder.shift^[j] e).low = 0 ∧ (Encoder.shift^[j] e).high = 0xFFFFFFFF)
      ∧ (∀ P bit p, (Encoder.EncodeBit P bit p e).2.length ≤ 4)
      ∧ (∀ P p, inp.data.length ≤ (Encoder.DecodeBit P p e inp).2.2.data.length + 4) := by
  obtain ⟨j, hj, h1, h2, _⟩ := Encoder.renormEnc_shape 4 e
  obtain ⟨hl, hh⟩ := renormDec_interval 4 e inp
  refine ⟨j, hj, ?_, ?_, h1, h2, ?_, ?_, ?_, Encoder.renormEnc_exit e, renormDec_exit e inp,
    ?_, ?_, ?_⟩
  · intro k
    exact renormEnc_stable 4 k e (Encoder.renormEnc_exit e)
  · intro k
    exact renormDec_stable 4 k e inp (renormDec_exit e inp)
  · rw [hl, h1]
  · rw [hh, h1]
  · rw [renormDec_reads, h2]
  · intro h4
    subst h4
    simp only [Function.iterate_succ_apply, Function.iterate_zero, id_eq]
    exact Encoder.shift_iter4 e
  · intro P bit p
    obtain ⟨j2, hj2, _, h22, _⟩ := Encoder.renormEnc_shape 4 (Encoder.narrow bit (Encoder.mid P p e) e)
    show (Encoder.renormEnc 4 (Encoder.narrow bit (Encoder.mid P p e) e)).2.length ≤ 4
    omega
  · intro P p
    obtain ⟨j2, hj2, _, h22, _⟩ := Encoder.renormEnc_shape 4
      (Encoder.narrow (if e.code ≤ Encoder.mid P p e then 1 else 0) (Encoder.mid P p e) e)
    show inp.data.length ≤ (Encoder.renormDec 4
      (Encoder.narrow (if e.code ≤ Encoder.mid P p e then 1 else 0) (Encoder.mid P p e) e) inp).2.data.length + 4
    rw [renormDec_reads, List.length_drop]
    omega

/-! ### The coder interval between bits -/

/-- C12: for `P_LOG` 1 or 18, `p < 2^P_LOG` and a coder state with
`low ≤ high` and `(low ^ high) ≥ 2^24`, the computed `mid` satisfies
`low ≤ mid < high`, and the state after `EncodeBit` (either bit) and after
`DecodeBit` again has `low ≤ high` and `(low ^ high) ≥ 2^24`: the next bit
never meets an interval whose ends share their top byte. -/
theorem C12_interval_invariant (P p : Nat) (e : Encoder) (inp : Input)
    (hP : P = 1 ∨ P = 18) (hp : p < 2 ^ P)
    (hle : e.low ≤ e.high) (hhi : e.high < 2 ^ 32) (hx : 2 ^ 24 ≤ e.low ^^^ e.high) :
    (e.low ≤ Encoder.mid P p e ∧ Encoder.mid P p e < e.high)
    ∧ (∀ bit, (Encoder.EncodeBit P bit p e).1.low ≤ (Encoder.EncodeBit P bit p e).1.high
        ∧ (Encoder.EncodeBit P bit p e).1.high < 2 ^ 32
        ∧ 2 ^ 24 ≤ (Encoder.EncodeBit P bit p e).1.low ^^^ (Encoder.EncodeBit P bit p e).1.high)
    ∧ ((Encoder.DecodeBit P p e inp).2.1.low ≤ (Encoder.DecodeBit P p e inp).2.1.high
        ∧ (Encoder.DecodeBit P p e inp).2.1.high < 2 ^ 32
        ∧ 2 ^ 24 ≤ (Encoder.DecodeBit P p e inp).2.1.low ^^^ (Encoder.DecodeBit P p e inp).2.1.high) := by
  have hinv : e.Inv := ⟨⟨hle, hhi⟩, hx⟩
  have hP32 : P ≤ 32 := by rcases hP with h | h <;> omega
  have henc : ∀ bit, (Encoder.EncodeBit P bit p e).1.Inv := fun bit =>
    (Encoder.encode_sync P bit p e hinv hp hP32 [] false).1
  refine ⟨Encoder.mid_bounds P p e hinv.1 (Encoder.inv_lt e hinv) hp hP32, ?_, ?_⟩
  · intro bit
    exact ⟨(henc bit).1.1, (henc bit).1.2, (henc bit).2⟩
  · obtain ⟨hl, hh⟩ := renormDec_interval 4
      (Encoder.narrow (if e.code ≤ Encoder.mid P p e then 1 else 0) (Encoder.mid P p e) e) inp
    have hb := henc (if e.code ≤ Encoder.mid P p e then 1 else 0)
    have e1 : (Encoder.DecodeBit P p e inp).2.1.low
        = (Encoder.EncodeBit P (if e.code ≤ Encoder.mid P p e then 1 else 0) p e).1.low := hl
    have e2 : (Encoder.DecodeBit P p e inp).2.1.high
        = (Encoder.EncodeBit P (if e.code ≤ Encoder.mid P p e then 1 else 0) p e).1.high := hh
    rw [e1, e2]
    exact ⟨hb.1.1, hb.1.2, hb.2⟩

theorem C12_interval_invariant_witness :
    ((18 : Nat) = 1 ∨ (18 : Nat) = 18) ∧ (70000 : Nat) < 2 ^ 18
    ∧ Encoder.init.low ≤ Encoder.init.high ∧ Encoder.init.high < 2 ^ 32
    ∧ 2 ^ 24 ≤ Encoder.init.low ^^^ Encoder.init.high
    ∧ ((Encoder.init.low ≤ Encoder.mid 18 70000 Encoder.init
        ∧ Encoder.mid 18 70000 Encoder.init < Encoder.init.high)
    ∧ (∀ bit, (Encoder.EncodeBit 18 bit 70000 Encoder.init).1.low
          ≤ (Encoder.EncodeBit 18 bit 70000 Encoder.init).1.high
        ∧ (Encoder.EncodeBit 18 bit 70000 Encoder.init).1.high < 2 ^ 32
        ∧ 2 ^ 24 ≤ (Encoder.EncodeBit 18 bit 70000 Encoder.init).1.low
            ^^^ (Encoder.EncodeBit 18 bit 70000 Encoder.init).1.high)
    ∧ ((Encoder.DecodeBit 18 70000 Encoder.init (Input.mk [] false)).2.1.low
          ≤ (Encoder.DecodeBit 18 70000 Encoder.init (Input.mk [] false)).2.1.high
        ∧ (Encoder.DecodeBit 18 70000 Encoder.init (Input.mk [] false)).2.1.high < 2 ^ 32
        ∧ 2 ^ 24 ≤ (Encoder.DecodeBit 18 70000 Encoder.init (Input.mk [] false)).2.1.low
            ^^^ (Encoder.DecodeBit 18 70000 Encoder.init (Input.mk [] false)).2.1.high)) :=
  ⟨by decide, by decide, by decide, by decide, by decide,
    C12_interval_invariant 18 70000 Encoder.init (Input.mk [] false)
      (by decide) (by decide) (by decide) (by decide) (by decide)⟩

/-! ### Ranges of the per-bit probabilities -/

namespace CM

theorem init_good : CM.init.Good :=
  ⟨init_bounded, fun _ _ => (by decide : 15 ≤ Counter.init)⟩

theorem good_enc (m : CM) (e : Encoder) (h : m.Good) : ({ m with enc := e } : CM).Good := h

theorem update_good (bit f ctx j : Nat) (m : CM) (h : m.Good) : (update bit f ctx j m).Good := by
  refine ⟨update_bounded bit f ctx j m h.1, ?_⟩
  have hv : 15 ≤ (if bit ≠ 0 then Counter.Update1 4 (m.counter1 m.c1 ctx)
      else Counter.Update0 4 (m.counter1 m.c1 ctx)) := by
    have hb := h.1.2.1 m.c1 ctx
    have hl := h.2 m.c1 ctx
    have h16 : (2 : Nat) ^ 4 = 16 := by norm_num
    split
    · rw [Counter.Update1_eq 4 _ hb]; omega
    · rw [Counter.Update0_eq 4 _ hb, h16]; omega
  intro a i
  exact update_pred (fun row : Nat → Nat => ∀ i, 15 ≤ row i) m.counter1 m.c1 _ h.2
    (update_pred (fun v => 15 ≤ v) (m.counter1 m.c1) ctx _ (h.2 _) hv) a i

theorem history_good (ctx : Nat) (m : CM) (h : m.Good) : (history ctx m).Good := by
  unfold Good Bounded at h ⊢
  simp only [history]
  exact h

theorem putLoop_good (c f : Nat) : ∀ (l : List Nat) (ctx : Nat) (m : CM), m.Good →
    (putLoop l c f ctx m).1.1.Good := by
  intro l
  induction l with
  | nil => intro ctx m h; exact h
  | cons i is ih =>
    intro ctx m h
    rw [putLoop]
    split
    · exact ih _ _ (update_good _ _ _ _ _ (good_enc m _ h))
    · exact ih _ _ (update_good _ _ _ _ _ (good_enc m _ h))

theorem getLoop_good (f : Nat) : ∀ (k ctx : Nat) (m : CM) (inp : Input), m.Good →
    (getLoop k f ctx m inp).1.Good := by
  intro k
  induction k with
  | zero => intro ctx m inp h; exact h
  | succ k ih =>
    intro ctx m inp h
    rw [getLoop]
    by_cases hc : ctx < 256
    · rw [if_pos hc]
      simp only []
      split
      · exact ih _ _ _ (update_good _ _ _ _ _ (good_enc m _ h))
      · exact ih _ _ _ (update_good _ _ _ _ _ (good_enc m _ h))
    · rw [if_neg hc]
      exact h

theorem put32Loop_good (x : Nat) : ∀ (l : List Nat) (m : CM), m.Good →
    (put32Loop l x m).1.Good := by
  intro l
  induction l with
  | nil => intro m h; exact h
  | cons i is ih =>
    intro m h
    rw [put32Loop]
    exact ih _ (good_enc m _ h)

theorem get32Loop_good : ∀ (k x : Nat) (m : CM) (inp : Input), m.Good →
    (get32Loop k x m inp).2.1.Good := by
  intro k
  induction k with
  | zero => intro x m inp h; exact h
  | succ k ih =>
    intro x m inp h
    rw [get32Loop]
    exact ih _ _ _ (good_enc m _ h)

theorem reachable_good (m : CM) (h : m.Reachable) : m.Good := by
  induction h with
  | init => exact init_good
  | start stream => exact init_good
  | put32 x m _ ih =>
    unfold Put32
    exact put32Loop_good x masks32 m ih
  | get32 m inp _ ih =>
    unfold Get32
    exact get32Loop_good 32 0 m inp ih
  | put c m _ ih =>
    have hp : (m.Put c).1 = history (putLoop masks8 c m.runFlag 1 m).1.2
        (putLoop masks8 c m.runFlag 1 m).1.1 := rfl
    rw [hp]
    exact history_good (putLoop masks8 c m.runFlag 1 m).1.2
      (putLoop masks8 c m.runFlag 1 m).1.1 (putLoop_good c m.runFlag masks8 1 m ih)
  | get m inp _ ih =>
    have hp : (m.Get inp).2.1 = history (getLoop 8 m.runFlag 1 m inp).2.1
        (getLoop 8 m.runFlag 1 m inp).1 := rfl
    rw [hp]
    exact history_good (getLoop 8 m.runFlag 1 m inp).2.1
      (getLoop 8 m.runFlag 1 m inp).1 (getLoop_good m.runFlag 8 1 m inp ih)

/-- The interpolated value lies between the two table entries. -/
theorem ssep_between (x1 x2 fr : Nat) (hf : fr ≤ 4095) :
    min (x1 : Int) (x2 : Int) ≤ (x1 : Int) + ((((x2 : Int) - (x1 : Int)) * (fr : Int)) >>> (12 : Nat))
    ∧ (x1 : Int) + ((((x2 : Int) - (x1 : Int)) * (fr : Int)) >>> (12 : Nat))
        ≤ max (x1 : Int) (x2 : Int) := by
  rw [Int.shiftRight_eq_div_pow]
  have h4096 : ((2 ^ 12 : Nat) : Int) = 4096 := by norm_num
  rw [h4096]
  rcases le_or_lt x1 x2 with hle | hlt
  · have ht0 : 0 ≤ ((x2 : Int) - (x1 : Int)) * (fr : Int) :=
      mul_nonneg (by omega) (by omega)
    have ht1 : ((x2 : Int) - (x1 : Int)) * (fr : Int) ≤ ((x2 : Int) - (x1 : Int)) * 4095 :=
      mul_le_mul_of_nonneg_left (by omega) (by omega)
    generalize ((x2 : Int) - (x1 : Int)) * (fr : Int) = t at ht0 ht1
    omega
  · have ht0 : ((x2 : Int) - (x1 : Int)) * (fr : Int) ≤ 0 :=
      mul_nonpos_of_nonpos_of_nonneg (by omega) (by omega)
    have ht1 : ((x2 : Int) - (x1 : Int)) * 4095 ≤ ((x2 : Int) - (x1 : Int)) * (fr : Int) :=
      mul_le_mul_of_nonpos_left (by omega) (by omega)
    generalize ((x2 : Int) - (x1 : Int)) * (fr : Int) = t at ht0 ht1
    omega

/-- The quantities of one per-bit computation, in a state with `Good`
counters. -/
theorem good_bit (s : CM) (h : s.Good) (f ctx : Nat) : s.BitRanges f ctx := by
  unfold BitRanges
  have h0 := h.1.1 ctx
  have h1 := h.1.2.1 s.c1 ctx
  have h2 := h.1.2.1 s.c2 ctx
  have l1 := h.2 s.c1 ctx
  have l2 := h.2 s.c2 ctx
  have hmix : s.mixP ctx
      = ((s.counter0 ctx + s.counter1 s.c1 ctx) * 7 + 2 * s.counter1 s.c2 ctx) / 16 := by
    unfold mixP
    rw [Nat.shiftRight_eq_div_pow]
    have h16 : (2 : Nat) ^ 4 = 16 := by norm_num
    rw [h16]
    congr 1
    omega
  have hj : s.sseJ ctx = s.mixP ctx / 4096 := by
    unfold sseJ
    rw [Nat.shiftRight_eq_div_pow]
  have hp := mixP_le s h.1 ctx
  have hp1 : 1 ≤ s.mixP ctx := by rw [hmix]; omega
  have hfr : s.mixP ctx &&& 4095 ≤ 4095 := Nat.and_le_right
  have hs := ssep_bounds (s.counter2 f ctx (s.sseJ ctx)) (s.counter2 f ctx (s.sseJ ctx + 1))
    (s.mixP ctx &&& 4095) (h.1.2.2 _ _ _) (h.1.2.2 _ _ _) hfr
  have hb := ssep_between (s.counter2 f ctx (s.sseJ ctx)) (s.counter2 f ctx (s.sseJ ctx + 1))
    (s.mixP ctx &&& 4095) hfr
  have hs' : s.ssep f ctx = (s.counter2 f ctx (s.sseJ ctx) : Int) +
    ((((s.counter2 f ctx (s.sseJ ctx + 1) : Int) - (s.counter2 f ctx (s.sseJ ctx) : Int)) *
      ((s.mixP ctx &&& 4095 : Nat) : Int)) >>> (12 : Nat)) := rfl
  rw [← hs'] at hs hb
  have hq : (s.prob f ctx : Int) = (s.mixP ctx : Int) + 3 * s.ssep f ctx := by
    unfold prob
    rw [toU32_of_nonneg _ (by omega) (by omega)]
    ring
  refine ⟨by omega, hmix, hp, hj, by omega, hb.1, hb.2, hs.1, hs.2, hq, ?_, prob_lt s h.1 f ctx⟩
  omega

end CM

/-- C11: in every state `m` reachable by `Put32`, `Get32`, `Put` and `Get`
calls, and for each of the 8 bits of a following `Put` or `Get`, coded in
state `s` with bit context `ctx`, the ranges `BitRanges` hold: the weighted
sum `(p0 + p1) * 7 + 2 * p2` is below `2^20`, the mixed probability `p` is at
most `0xFFFF`, the bucket `j = p >> 12` is at most 15 (so both SSE reads lie
within the 17 entries), `ssep` lies between `x1` and `x2` and in
`[0, 0xFFFF]`, and the probability `q = p + 3 * ssep` handed to the coder
satisfies `0 < q < 2^18`. The state in which bit `k` is coded is the one left
by the first `k` turns of the loop (`putLoop_append`, `getLoop_add`). -/
theorem C11_probability_ranges (m : CM) (hm : m.Reachable) (c k : Nat) (inp : Input)
    (s : CM) (ctx : Nat)
    (hs : (s, ctx) = (CM.putLoop (CM.masks8.take k) c m.runFlag 1 m).1
      ∨ (s, ctx) = ((CM.getLoop k m.runFlag 1 m inp).1, (CM.getLoop k m.runFlag 1 m inp).2.1)) :
    s.BitRanges m.runFlag ctx := by
  have hg := CM.reachable_good m hm
  have hsg : s.Good := by
    rcases hs with h | h
    · have h1 : s = (CM.putLoop (CM.masks8.take k) c m.runFlag 1 m).1.1 := congrArg Prod.fst h
      rw [h1]
      exact CM.putLoop_good c _ _ _ m hg
    · have h1 : s = (CM.getLoop k m.runFlag 1 m inp).1 := congrArg Prod.fst h
      rw [h1]
      exact CM.getLoop_good _ _ _ m inp hg
  exact CM.good_bit s hsg m.runFlag ctx

theorem C11_probability_ranges_witness :
    (CM.Put 0x41 CM.init).1.Reachable
    ∧ (((CM.putLoop (CM.masks8.take 3) 0x42 (CM.Put 0x41 CM.init).1.runFlag 1
            (CM.Put 0x41 CM.init).1).1.1,
          (CM.putLoop (CM.masks8.take 3) 0x42 (CM.Put 0x41 CM.init).1.runFlag 1
            (CM.Put 0x41 CM.init).1).1.2)
        = (CM.putLoop (CM.masks8.take 3) 0x42 (CM.Put 0x41 CM.init).1.runFlag 1
            (CM.Put 0x41 CM.init).1).1
      ∨ ((CM.putLoop (CM.masks8.take 3) 0x42 (CM.Put 0x41 CM.init).1.runFlag 1
            (CM.Put 0x41 CM.init).1).1.1,
          (CM.putLoop (CM.masks8.take 3) 0x42 (CM.Put 0x41 CM.init).1.runFlag 1
            (CM.Put 0x41 CM.init).1).1.2)
        = ((CM.getLoop 3 (CM.Put 0x41 CM.init).1.runFlag 1 (CM.Put 0x41 CM.init).1
              (Input.mk [] false)).1,
            (CM.getLoop 3 (CM.Put 0x41 CM.init).1.runFlag 1 (CM.Put 0x41 CM.init).1
              (Input.mk [] false)).2.1))
    ∧ (CM.putLoop (CM.masks8.take 3) 0x42 (CM.Put 0x41 CM.init).1.runFlag 1
          (CM.Put 0x41 CM.init).1).1.1.BitRanges (CM.Put 0x41 CM.init).1.runFlag
        (CM.putLoop (CM.masks8.take 3) 0x42 (CM.Put 0x41 CM.init).1.runFlag 1
          (CM.Put 0x41 CM.init).1).1.2 :=
  ⟨CM.Reachable.put 0x41 CM.init CM.Reachable.init, Or.inl rfl,
    C11_probability_ranges (CM.Put 0x41 CM.init).1
      (CM.Reachable.put 0x41 CM.init CM.Reachable.init) 0x42 3 (Input.mk [] false) _ _
      (Or.inl rfl)⟩

/-! ### The bucket search of the inverse BWT -/

/-- The search steps read `cnt` at indices up to 254 only: tables that agree
there give the same result. -/
theorem searchLoop_reads (cnt cnt2 : Nat → Nat) (p : Int)
    (h : ∀ i, i ≤ 254 → cnt2 i = cnt i) :
    ∀ (k c : Nat), c + 2 ^ k ≤ 256 →
      searchLoop k cnt2 p c (2 ^ (k - 1) - 1) = searchLoop k cnt p c (2 ^ (k - 1) - 1) := by
  intro k
  induction k with
  | zero => intro c _; rfl
  | succ k ih =>
    intro c hc
    have hpow : 2 ^ (k + 1) = 2 * 2 ^ k := by ring
    have hpos : 1 ≤ 2 ^ k := Nat.one_le_two_pow
    have hhalf : (2 ^ (k + 1 - 1) - 1) >>> 1 = 2 ^ (k - 1) - 1 := by
      rw [Nat.add_sub_cancel, Nat.shiftRight_eq_div_pow, pow_one]
      cases k with
      | zero => rfl
      | succ k =>
        rw [Nat.add_sub_cancel]
        have : 2 ^ (k + 1) = 2 * 2 ^ k := by ring
        have hp2 : 1 ≤ 2 ^ k := Nat.one_le_two_pow
        omega
    rw [searchLoop, searchLoop, hhalf, Nat.add_sub_cancel]
    rw [hpow] at hc
    rw [h (c + (2 ^ k - 1)) (by omega)]
    have hsub : 2 ^ k - 1 + 1 = 2 ^ k := by omega
    rw [hsub]
    by_cases hprobe : (cnt (c + (2 ^ k - 1)) : Int) ≤ p
    · rw [if_pos hprobe]
      exact ih (c + 2 ^ k) (by omega)
    · rw [if_neg hprobe]
      exact ih c (by omega)

/-- After the `ptr` loop, `cnt[c]` is the number of bytes of the block that
are at most `c`. -/
theorem cnt_le_count (L : List Nat) (idx : Int) (ptr : Int → Int) (c : Nat) (hc : c ≤ 255) :
    (buildPtr L idx 0 (cumulate 255 1 (countBytes L (fun _ => 0))) ptr).1 c
      = L.countP (fun b => decide (b ≤ c)) := by
  rw [buildPtr_cnt, cnt_less L c hc]
  symm
  apply countP_split
  · intro u _
    rw [Bool.eq_iff_iff]
    simp only [decide_eq_true_eq, Bool.or_eq_true]
    omega
  · intro u _
    simp only [decide_eq_true_eq]
    omega

theorem countP_le_mono (L : List Nat) (i j : Nat) (h : i ≤ j) :
    L.countP (fun b => decide (b ≤ i)) ≤ L.countP (fun b => decide (b ≤ j)) := by
  apply List.countP_mono_left
  intro b _ hb
  simp only [decide_eq_true_eq] at hb ⊢
  omega

theorem countP_lt_succ (L : List Nat) (c : Nat) :
    L.countP (fun b => decide (b < c + 1)) = L.countP (fun b => decide (b ≤ c)) := by
  apply List.countP_congr
  intro b _
  simp only [decide_eq_true_eq]
  omega

theorem countP_le_all (L : List Nat) (hL : ∀ b ∈ L, b < 256) :
    L.countP (fun b => decide (b ≤ 255)) = L.length := by
  rw [List.countP_eq_length]
  intro b hb
  have := hL b hb
  simp only [decide_eq_true_eq]
  omega

/-- C14: on the table `cnt` left by the `ptr` loop for a block `L` of bytes,
and a position `p` in `[0, n)`, the eight search steps read `cnt` at indices
up to 254 only (tables that agree there give the same result) and return the
byte `c ≤ 255` whose bucket contains `p`: the number of bytes smaller than `c`
is at most `p`, the number of bytes at most `c` exceeds `p`, `c` is the
largest byte whose bucket start is at most `p` and the smallest byte whose
bucket end exceeds `p`. -/
theorem C14_search_finds_bucket (L : List Nat) (hL : ∀ b ∈ L, b < 256) (idx : Int)
    (ptr : Int → Int) (p : Nat) (hp : p < L.length) :
    (∀ (cnt cnt2 : Nat → Nat) (q : Int), (∀ i, i ≤ 254 → cnt2 i = cnt i) →
        search cnt2 q = search cnt q)
    ∧ search (buildPtr L idx 0 (cumulate 255 1 (countBytes L (fun _ => 0))) ptr).1 (p : Int) ≤ 255
    ∧ L.countP (fun b => decide (b <
        search (buildPtr L idx 0 (cumulate 255 1 (countBytes L (fun _ => 0))) ptr).1 (p : Int))) ≤ p
    ∧ p < L.countP (fun b => decide (b ≤
        search (buildPtr L idx 0 (cumulate 255 1 (countBytes L (fun _ => 0))) ptr).1 (p : Int)))
    ∧ (∀ c, c ≤ 255 → L.countP (fun b => decide (b < c)) ≤ p →
        c ≤ search (buildPtr L idx 0 (cumulate 255 1 (countBytes L (fun _ => 0))) ptr).1 (p : Int))
    ∧ (∀ c, c ≤ 255 → p < L.countP (fun b => decide (b ≤ c)) →
        search (buildPtr L idx 0 (cumulate 255 1 (countBytes L (fun _ => 0))) ptr).1 (p : Int) ≤ c) := by
  have hcnt := cnt_le_count L idx ptr
  generalize (buildPtr L idx 0 (cumulate 255 1 (countBytes L (fun _ => 0))) ptr).1 = cnt at hcnt
  have hmono : ∀ i j, i ≤ j → j ≤ 254 → cnt i ≤ cnt j := by
    intro i j hij hj
    rw [hcnt i (by omega), hcnt j (by omega)]
    exact countP_le_mono L i j hij
  obtain ⟨h1, h2, h3⟩ := search_spec cnt (p : Int) hmono
  generalize search cnt (p : Int) = s at h1 h2 h3
  have hlow : L.countP (fun b => decide (b < s)) ≤ p := by
    cases s with
    | zero => simp
    | succ t =>
      rw [countP_lt_succ, ← hcnt t (by omega)]
      have := h1 t (by omega)
      omega
  have hhigh : p < L.countP (fun b => decide (b ≤ s)) := by
    by_cases hs : s ≤ 254
    · rw [← hcnt s (by omega)]
      have := h2 s (le_refl _) hs
      omega
    · have hs255 : s = 255 := by omega
      rw [hs255, countP_le_all L hL]
      exact hp
  refine ⟨?_, h3, hlow, hhigh, ?_, ?_⟩
  · intro c1 c2 q hagree
    exact searchLoop_reads c1 c2 q hagree 8 0 (by norm_num)
  · intro c hc hle
    by_contra hlt
    have hc1 : c = (c - 1) + 1 := by omega
    rw [hc1, countP_lt_succ, ← hcnt (c - 1) (by omega)] at hle
    have := h2 (c - 1) (by omega) (by omega)
    omega
  · intro c hc hgt
    by_contra hlt
    rw [← hcnt c hc] at hgt
    have := h1 c (by omega)
    omega

theorem C14_search_finds_bucket_witness :
    (∀ b ∈ ([97, 110, 110, 98, 97, 97] : List Nat), b < 256)
    ∧ 3 < ([97, 110, 110, 98, 97, 97] : List Nat).length
    ∧ ((∀ (cnt cnt2 : Nat → Nat) (q : Int), (∀ i, i ≤ 254 → cnt2 i = cnt i) →
        search cnt2 q = search cnt q)
    ∧ search (buildPtr [97, 110, 110, 98, 97, 97] 4 0
        (cumulate 255 1 (countBytes [97, 110, 110, 98, 97, 97] (fun _ => 0))) (fun _ => 0)).1
        ((3 : Nat) : Int) ≤ 255
    ∧ ([97, 110, 110, 98, 97, 97] : List Nat).countP (fun b => decide (b <
        search (buildPtr [97, 110, 110, 98, 97, 97] 4 0
          (cumulate 255 1 (countBytes [97, 110, 110, 98, 97, 97] (fun _ => 0))) (fun _ => 0)).1
          ((3 : Nat) : Int))) ≤ 3
    ∧ 3 < ([97, 110, 110, 98, 97, 97] : List Nat).countP (fun b => decide (b ≤
        search (buildPtr [97, 110, 110, 98, 97, 97] 4 0
          (cumulate 255 1 (countBytes [97, 110, 110, 98, 97, 97] (fun _ => 0))) (fun _ => 0)).1
          ((3 : Nat) : Int)))
    ∧ (∀ c, c ≤ 255 → ([97, 110, 110, 98, 97, 97] : List Nat).countP (fun b => decide (b < c)) ≤ 3 →
        c ≤ search (buildPtr [97, 110, 110, 98, 97, 97] 4 0
          (cumulate 255 1 (countBytes [97, 110, 110, 98, 97, 97] (fun _ => 0))) (fun _ => 0)).1
          ((3 : Nat) : Int))
    ∧ (∀ c, c ≤ 255 → 3 < ([97, 110, 110, 98, 97, 97] : List Nat).countP (fun b => decide (b ≤ c)) →
        search (buildPtr [97, 110, 110, 98, 97, 97] 4 0
          (cumulate 255 1 (countBytes [97, 110, 110, 98, 97, 97] (fun _ => 0))) (fun _ => 0)).1
          ((3 : Nat) : Int) ≤ c)) :=
  ⟨by decide, by decide,
    C14_search_finds_bucket [97, 110, 110, 98, 97, 97] (by decide) 4 (fun _ => 0) 3 (by decide)⟩

/-! ### A validated block that is not a BWT -/

/-- A coded block with any header `n`, `idx` in range and any `n` bytes `L`:
one turn of the loop of `Decompress` reads the header and the bytes back,
accepts the header and runs the inverse BW-transform on `L`. -/
theorem header_sync (n idx : Nat) (L : List Nat) (cmE : CM) (hinv : cmE.enc.Inv)
    (hbd : cmE.Bounded) (hL : ∀ c ∈ L, c < 256) (hn0 : 0 < n) (hn : n < 2 ^ 31)
    (hnL : L.length = n) (hidx1 : 1 ≤ idx) (hidx2 : idx ≤ n) :
    (putBytes L ((cmE.Put32 n).1.Put32 idx).1).1.enc.Inv
    ∧ (putBytes L ((cmE.Put32 n).1.Put32 idx).1).1.Bounded
    ∧ ∀ F, (putBytes L ((cmE.Put32 n).1.Put32 idx).1).1.enc.Covers F →
      cmE.enc.Covers ((cmE.Put32 n).2 ++ (((cmE.Put32 n).1.Put32 idx).2
        ++ ((putBytes L ((cmE.Put32 n).1.Put32 idx).1).2 ++ F)))
      ∧ ∀ (alloc : Int) (ptr : Int → Int), (alloc = 0 ∨ (n : Int) ≤ alloc) →
        ∀ (next : CM → Input → Nat → Int → (Int → Int) → DecompressResult) (crc : Nat),
          decompressStep next
            (cmE.withCode (code4 ((cmE.Put32 n).2 ++ (((cmE.Put32 n).1.Put32 idx).2
              ++ ((putBytes L ((cmE.Put32 n).1.Put32 idx).1).2 ++ F)))))
            { data := ((cmE.Put32 n).2 ++ (((cmE.Put32 n).1.Put32 idx).2
              ++ ((putBytes L ((cmE.Put32 n).1.Put32 idx).1).2 ++ F))).drop 4, eof := false }
            crc alloc ptr
          = match inverseBWT L (idx : Int) ptr (if alloc = 0 then (n : Int) else alloc) with
            | none => { out := [], failure := some .bounds }
            | some t =>
              { out := t.1 ++ (next ((putBytes L ((cmE.Put32 n).1.Put32 idx).1).1.withCode (code4 F))
                    { data := F.drop 4, eof := false } (CRC.Update crc t.1)
                    (if alloc = 0 then (n : Int) else alloc) t.2).out,
                failure := (next ((putBytes L ((cmE.Put32 n).1.Put32 idx).1).1.withCode (code4 F))
                    { data := F.drop 4, eof := false } (CRC.Update crc t.1)
                    (if alloc = 0 then (n : Int) else alloc) t.2).failure } := by
  obtain ⟨hinv1, hsame1, _⟩ := CM.put32_sync n (by omega) cmE hinv [] false
  have hbd1 : (cmE.Put32 n).1.Bounded := by rw [hsame1]; exact hbd
  obtain ⟨hinv2, hsame2, _⟩ := CM.put32_sync idx (by omega) (cmE.Put32 n).1 hinv1 [] false
  have hbd2 : ((cmE.Put32 n).1.Put32 idx).1.Bounded := by rw [hsame2]; exact hbd1
  obtain ⟨hinv3, hbd3, _⟩ := bytes_sync L _ hinv2 hbd2 hL [] false
  refine ⟨hinv3, hbd3, ?_⟩
  intro F hcov
  obtain ⟨_, _, hs3⟩ := bytes_sync L _ hinv2 hbd2 hL F false
  obtain ⟨hcov3, hdec3⟩ := hs3 hcov
  obtain ⟨_, _, hs2⟩ := CM.put32_sync idx (by omega) (cmE.Put32 n).1 hinv1
    ((putBytes L ((cmE.Put32 n).1.Put32 idx).1).2 ++ F) false
  obtain ⟨hcov2, hdec2⟩ := hs2 hcov3
  obtain ⟨_, _, hs1⟩ := CM.put32_sync n (by omega) cmE hinv
    (((cmE.Put32 n).1.Put32 idx).2 ++ ((putBytes L ((cmE.Put32 n).1.Put32 idx).1).2 ++ F)) false
  obtain ⟨hcov1, hdec1⟩ := hs1 hcov2
  refine ⟨hcov1, ?_⟩
  intro alloc ptr halloc next crc
  rw [hnL] at hdec3
  unfold decompressStep
  simp only [hdec1, hdec2, classify_block n idx alloc hn0 hn hidx1 hidx2 halloc,
    decompressBlock, Int.toNat_ofNat, hdec3]
  cases inverseBWT L (idx : Int) ptr (if alloc = 0 then (n : Int) else alloc) with
  | none => rfl
  | some t => rfl

set_option maxRecDepth 1000000 in
/-- The bytes that code `n = 2`, `idx = 1`, `0x61`, `0x62` from the initial
state, followed by `Flush`. -/
theorem bad_block_stream :
    (CM.init.Put32 2).2 ++ (((CM.init.Put32 2).1.Put32 1).2
      ++ ((putBytes [0x61, 0x62] ((CM.init.Put32 2).1.Put32 1).1).2
        ++ (Encoder.Flush (putBytes [0x61, 0x62] ((CM.init.Put32 2).1.Put32 1).1).1.enc).2))
    = [0xFF, 0xFF, 0xFF, 0xFD, 0xFF, 0xFF, 0xFF, 0xFE, 0x9E, 0x98, 0x30, 0xFA, 0x12] := by
  rfl

/-- With `cnt[0x61] = 0` and `cnt[0x62] = 1`, the `ptr` loop on the bytes
`0x61 0x62` with `idx = 1` stores `ptr[0] = -1`, and the walk from `p = 0`
reads `ptr[-1]` next. -/
theorem bad_block_aux (cnt : Nat → Nat) (hc1 : cnt 0x61 = 0) (hc2 : cnt 0x62 = 1)
    (ptr : Int → Int) (bsize : Int) :
    (buildPtr [0x61, 0x62] 1 0 cnt ptr).2 0 = -1
    ∧ walk (buildPtr [0x61, 0x62] 1 0 cnt ptr).1 (buildPtr [0x61, 0x62] 1 0 cnt ptr).2
        bsize 1 (-1) = none
    ∧ walk (buildPtr [0x61, 0x62] 1 0 cnt ptr).1 (buildPtr [0x61, 0x62] 1 0 cnt ptr).2
        bsize 2 0 = none := by
  have hptr0 : (buildPtr [0x61, 0x62] 1 0 cnt ptr).2 0 = -1 := by
    simp only [buildPtr]
    simp [Function.update_apply, hc1, hc2]
  have hw : ∀ (c : Nat → Nat) (p : Int → Int), walk c p bsize 1 (-1) = none := by
    intro c p
    rw [walk, if_neg (by omega)]
  refine ⟨hptr0, hw _ _, ?_⟩
  rw [walk]
  split
  · rw [hptr0, hw]
    rfl
  · rfl

/-- On the bytes `0x61 0x62` with `idx = 1` the `ptr` loop stores `ptr[0] = -1`
and the walk, started at `p = 0`, reads `ptr[-1]` next. -/
theorem bad_block_walk (ptr : Int → Int) (bsize : Int) :
    (buildPtr [0x61, 0x62] 1 0 (cumulate 255 1 (countBytes [0x61, 0x62] (fun _ => 0))) ptr).2 0
      = -1
    ∧ walk (buildPtr [0x61, 0x62] 1 0 (cumulate 255 1 (countBytes [0x61, 0x62] (fun _ => 0)))
          ptr).1
        (buildPtr [0x61, 0x62] 1 0 (cumulate 255 1 (countBytes [0x61, 0x62] (fun _ => 0)))
          ptr).2 bsize 1 (-1) = none
    ∧ inverseBWT [0x61, 0x62] 1 ptr bsize = none := by
  have hc1 : cumulate 255 1 (countBytes [0x61, 0x62] (fun _ => 0)) 0x61 = 0 := by
    rw [cnt_less _ _ (by norm_num)]
    decide
  have hc2 : cumulate 255 1 (countBytes [0x61, 0x62] (fun _ => 0)) 0x62 = 1 := by
    rw [cnt_less _ _ (by norm_num)]
    decide
  obtain ⟨h1, h2, h3⟩ := bad_block_aux _ hc1 hc2 ptr bsize
  refine ⟨h1, h2, ?_⟩
  unfold inverseBWT
  simp only []
  have hlen : ([0x61, 0x62] : List Nat).length = 2 := rfl
  have h0 : (1 : Int) - 1 = 0 := by norm_num
  rw [hlen, h0, h3]
  rfl

/-- C13 (the code breaks it): the 13 bytes
`FF FF FF FD FF FF FF FE 9E 98 30 FA 12` code the block header `n = 2`,
`idx = 1` and the bytes `0x61 0x62`. The header passes the validation of
`Decompress`, the `ptr` loop stores `ptr[0] = -1`, the walk starts at
`p = idx - 1 = 0`, and its second read is `ptr[-1]`, outside the array. -/
theorem C13_walk_reads_outside_ptr :
    (CM.init.Put32 2).2 ++ (((CM.init.Put32 2).1.Put32 1).2
      ++ ((putBytes [0x61, 0x62] ((CM.init.Put32 2).1.Put32 1).1).2
        ++ (Encoder.Flush (putBytes [0x61, 0x62] ((CM.init.Put32 2).1.Put32 1).1).1.enc).2))
      = [0xFF, 0xFF, 0xFF, 0xFD, 0xFF, 0xFF, 0xFF, 0xFE, 0x9E, 0x98, 0x30, 0xFA, 0x12]
    ∧ classify 2 1 0 = .block 2 1 2
    ∧ (buildPtr [0x61, 0x62] 1 0 (cumulate 255 1 (countBytes [0x61, 0x62] (fun _ => 0)))
        (fun _ => 0)).2 0 = -1
    ∧ walk (buildPtr [0x61, 0x62] 1 0 (cumulate 255 1 (countBytes [0x61, 0x62] (fun _ => 0)))
          (fun _ => 0)).1
        (buildPtr [0x61, 0x62] 1 0 (cumulate 255 1 (countBytes [0x61, 0x62] (fun _ => 0)))
          (fun _ => 0)).2 2 1 (-1) = none
    ∧ (inverseBWT [0x61, 0x62] 1 (fun _ => 0) 2).map Prod.fst = none
    ∧ Decompress 1 [0xFF, 0xFF, 0xFF, 0xFD, 0xFF, 0xFF, 0xFF, 0xFE, 0x9E, 0x98, 0x30, 0xFA, 0x12]
      = { out := [], failure := some .bounds } := by
  refine ⟨bad_block_stream, classify_block 2 1 0 (by norm_num) (by norm_num) (by norm_num)
    (by norm_num) (Or.inl rfl), (bad_block_walk _ 2).1, (bad_block_walk _ 2).2.1,
    by rw [(bad_block_walk _ 2).2.2]; rfl, ?_⟩
  rw [← bad_block_stream]
  obtain ⟨hinv3, _, hs⟩ := header_sync 2 1 [0x61, 0x62] CM.init CM.model_init_inv CM.init_bounded
    (by decide) (by norm_num) (by norm_num) rfl (by norm_num) (by norm_num)
  obtain ⟨hcov1, hdec⟩ := hs _ (Encoder.flush_covers _ hinv3.1)
  unfold Decompress
  rw [CM.start_eq _ hcov1.1, decompressLoop_succ, hdec 0 (fun _ => 0) (Or.inl rfl)]
  have hb := (bad_block_walk (fun _ => 0) (if (0 : Int) = 0 then ((2 : Nat) : Int) else 0)).2.2
  have h1 : ((1 : Nat) : Int) = 1 := rfl
  rw [h1, hb]

/-! ### The block size used by `Compress` -/

/-- C20 (as stated, refuted): for the empty input and the default block size
of 16 MiB the block size `Compress` uses is 0, not at least 1. -/
theorem C20_counterexample :
    effectiveBsize 16777216 ([] : List Nat).length = 0
    ∧ ¬ (1 ≤ effectiveBsize 16777216 ([] : List Nat).length) := by
  refine ⟨by rfl, by decide⟩

/-- C20 (amended): the block size that `Compress` uses to allocate `buf` and
`ptr` and to bound each read is `min(bsize, flen)`; it is at least 1 exactly
when the requested size and the input length both are, and 0 for the empty
input. -/
theorem C20_effective_block_size (bwt : List Nat → List Nat × Int) (bsize : Nat) (S : List Nat) :
    effectiveBsize bsize S.length = min bsize S.length
    ∧ (1 ≤ effectiveBsize bsize S.length ↔ (1 ≤ bsize ∧ 1 ≤ S.length))
    ∧ effectiveBsize bsize ([] : List Nat).length = 0
    ∧ Compress bwt bsize S
      = (match compressLoop bwt (effectiveBsize bsize S.length) (S.length + 1) S
            CM.init CRC.init with
        | .error f => .error f
        | .ok r =>
          .ok (r.2.2 ++ (r.1.Put32 0).2 ++ ((r.1.Put32 0).1.Put32 (CRC.value r.2.1)).2
            ++ (Encoder.Flush ((r.1.Put32 0).1.Put32 (CRC.value r.2.1)).1.enc).2))
    ∧ (∀ (next : List Nat → CM → Nat → Except Failure (CM × Nat × List Nat)) (inp : List Nat)
        (cm : CM) (crc : Nat),
        (inp.take (effectiveBsize bsize S.length)).length ≤ effectiveBsize bsize S.length
        ∧ compressStep bwt (effectiveBsize bsize S.length) next inp cm crc
          = if (inp.take (effectiveBsize bsize S.length)).length > 0 then
              match compressBlock bwt (inp.take (effectiveBsize bsize S.length)) cm with
              | none => .error .libsais
              | some r =>
                match next (inp.drop (effectiveBsize bsize S.length)) r.1
                    (CRC.Update crc (inp.take (effectiveBsize bsize S.length))) with
                | .error f => .error f
                | .ok t => .ok (t.1, t.2.1, r.2 ++ t.2.2)
            else .ok (cm, crc, [])) := by
  refine ⟨?_, ?_, ?_, rfl, ?_⟩
  · unfold effectiveBsize
    split <;> omega
  · unfold effectiveBsize
    split <;> omega
  · unfold effectiveBsize
    simp
  · intro next inp cm crc
    exact ⟨by rw [List.length_take]; omega, rfl⟩

/-! ### Bit contexts and the history of the model -/

namespace CM

/-- The loop of `Put` over a concatenation of mask lists runs the second part
from the state and bit context left by the first. -/
theorem putLoop_append (c f : Nat) : ∀ (l1 l2 : List Nat) (ctx : Nat) (m : CM),
    putLoop (l1 ++ l2) c f ctx m
      = ((putLoop l2 c f (putLoop l1 c f ctx m).1.2 (putLoop l1 c f ctx m).1.1).1,
        (putLoop l1 c f ctx m).2
          ++ (putLoop l2 c f (putLoop l1 c f ctx m).1.2 (putLoop l1 c f ctx m).1.1).2) := by
  intro l1
  induction l1 with
  | nil => intro l2 ctx m; rfl
  | cons i is ih =>
    intro l2 ctx m
    rw [List.cons_append, putLoop, putLoop]
    split
    · simp only [ih, List.append_assoc]
    · simp only [ih, List.append_assoc]

/-- The loop of `Get` is left alone once `ctx ≥ 256`. -/
theorem getLoop_done (k f ctx : Nat) (m : CM) (inp : Input) (h : ¬ ctx < 256) :
    getLoop k f ctx m inp = (m, ctx, inp) := by
  cases k with
  | zero => rfl
  | succ k => rw [getLoop, if_neg h]

/-- The loop of `Get` with `a + b` iterations allowed runs `b` of them from
the state left by the first `a`. -/
theorem getLoop_add (f : Nat) : ∀ (a b ctx : Nat) (m : CM) (inp : Input),
    getLoop (a + b) f ctx m inp
      = getLoop b f (getLoop a f ctx m inp).2.1 (getLoop a f ctx m inp).1
          (getLoop a f ctx m inp).2.2 := by
  intro a
  induction a with
  | zero => intro b ctx m inp; rw [Nat.zero_add]; rfl
  | succ a ih =>
    intro b ctx m inp
    have hn : a + 1 + b = (a + b) + 1 := by omega
    by_cases hc : ctx < 256
    · rw [hn, getLoop, getLoop, if_pos hc, if_pos hc]
      simp only []
      split
      · exact ih _ _ _ _
      · exact ih _ _ _ _
    · rw [getLoop_done _ _ _ _ _ hc, getLoop_done _ _ _ _ _ hc]
      simp only []
      rw [getLoop_done _ _ _ _ _ hc]

/-- The bit context after `r` bits of `c`. -/
theorem putLoop_ctx (c f : Nat) : ∀ (r ctx : Nat) (m : CM),
    (putLoop (bitMasks r) c f ctx m).1.2 = ctx * 2 ^ r + c % 2 ^ r := by
  intro r
  induction r with
  | zero => intro ctx m; simp [bitMasks, putLoop, Nat.mod_one]
  | succ r ih =>
    intro ctx m
    have hmod := mod_two_pow_succ c r
    have hpow : 2 ^ (r + 1) = 2 * 2 ^ r := by ring
    rw [bitMasks, putLoop]
    by_cases hbit : c &&& 2 ^ r ≠ 0
    · have h1 : c / 2 ^ r % 2 = 1 := (mask_test c r).mp hbit
      rw [if_pos hbit]
      simp only []
      rw [ih, hmod, h1, hpow]
      ring
    · have h0 : c / 2 ^ r % 2 = 0 := by
        have hb : c / 2 ^ r % 2 = 0 ∨ c / 2 ^ r % 2 = 1 := by omega
        rcases hb with h | h
        · exact h
        · exact absurd ((mask_test c r).mpr h) hbit
      rw [if_neg hbit]
      simp only []
      rw [ih, hmod, h0, hpow]
      ring

/-- The bit context after `k` full turns of the loop of `Get`. -/
theorem getLoop_ctx (f : Nat) : ∀ (k ctx : Nat) (m : CM) (inp : Input), 1 ≤ ctx →
    (ctx + 1) * 2 ^ k ≤ 512 →
    ctx * 2 ^ k ≤ (getLoop k f ctx m inp).2.1
    ∧ (getLoop k f ctx m inp).2.1 < (ctx + 1) * 2 ^ k := by
  intro k
  induction k with
  | zero =>
    intro ctx m inp _ _
    simp [getLoop]
  | succ k ih =>
    intro ctx m inp h1 h
    have hpow : 2 ^ (k + 1) = 2 * 2 ^ k := by ring
    have hpos : 1 ≤ 2 ^ k := Nat.one_le_two_pow
    rw [hpow] at h ⊢
    have hc : ctx < 256 := by nlinarith
    rw [getLoop, if_pos hc]
    simp only []
    split
    · obtain ⟨a, b⟩ := ih (ctx + (ctx + 1)) _ _ (by omega) (by nlinarith)
      constructor
      · nlinarith
      · nlinarith
    · obtain ⟨a, b⟩ := ih (ctx + ctx) _ _ (by omega) (by nlinarith)
      constructor
      · nlinarith
      · nlinarith


theorem history_fields (ctx : Nat) (m : CM) :
    (history ctx m).c1 = ctx - 256 ∧ (history ctx m).c2 = m.c1
    ∧ (history ctx m).run = (if ctx - 256 = m.c1 then toInt32 (toU32 (m.run + 1)) else 0) := by
  simp only [history, and_self]

theorem putLoop_history (c f : Nat) : ∀ (l : List Nat) (ctx : Nat) (m : CM),
    (putLoop l c f ctx m).1.1.c1 = m.c1 ∧ (putLoop l c f ctx m).1.1.c2 = m.c2
    ∧ (putLoop l c f ctx m).1.1.run = m.run := by
  intro l
  induction l with
  | nil => intro ctx m; exact ⟨rfl, rfl, rfl⟩
  | cons i is ih =>
    intro ctx m
    rw [putLoop]
    split
    · exact ih _ _
    · exact ih _ _

theorem getLoop_history (f : Nat) : ∀ (k ctx : Nat) (m : CM) (inp : Input),
    (getLoop k f ctx m inp).1.c1 = m.c1 ∧ (getLoop k f ctx m inp).1.c2 = m.c2
    ∧ (getLoop k f ctx m inp).1.run = m.run := by
  intro k
  induction k with
  | zero => intro ctx m inp; exact ⟨rfl, rfl, rfl⟩
  | succ k ih =>
    intro ctx m inp
    rw [getLoop]
    by_cases hc : ctx < 256
    · rw [if_pos hc]
      simp only []
      split
      · exact ih _ _ _
      · exact ih _ _ _
    · rw [if_neg hc]
      exact ⟨rfl, rfl, rfl⟩

/-- The history after `Put`. -/
theorem put_history (c : Nat) (hc : c < 256) (m : CM) :
    (putLoop masks8 c m.runFlag 1 m).1.2 = 256 + c
    ∧ (m.Put c).1.c1 = c ∧ (m.Put c).1.c2 = m.c1
    ∧ (m.Put c).1.run = (if c = m.c1 then toInt32 (toU32 (m.run + 1)) else 0) := by
  have hctx : (putLoop masks8 c m.runFlag 1 m).1.2 = 256 + c := by
    rw [masks8_eq, putLoop_ctx]
    have h256 : (2 : Nat) ^ 8 = 256 := by norm_num
    rw [h256, Nat.mod_eq_of_lt hc]
  obtain ⟨h1, _, h3⟩ := putLoop_history c m.runFlag masks8 1 m
  obtain ⟨a, b, d⟩ := history_fields (putLoop masks8 c m.runFlag 1 m).1.2
    (putLoop masks8 c m.runFlag 1 m).1.1
  have hsub : 256 + c - 256 = c := by omega
  have hp : (m.Put c).1 = history (putLoop masks8 c m.runFlag 1 m).1.2
      (putLoop masks8 c m.runFlag 1 m).1.1 := rfl
  rw [hp, a, b, d, h1, h3, hctx, hsub]
  exact ⟨rfl, rfl, rfl, rfl⟩

/-- The history after `Get`. -/
theorem get_history (m : CM) (inp : Input) :
    (m.Get inp).1 < 256
    ∧ (getLoop 8 m.runFlag 1 m inp).2.1 = 256 + (m.Get inp).1
    ∧ (m.Get inp).2.1.c1 = (m.Get inp).1 ∧ (m.Get inp).2.1.c2 = m.c1
    ∧ (m.Get inp).2.1.run
        = (if (m.Get inp).1 = m.c1 then toInt32 (toU32 (m.run + 1)) else 0) := by
  obtain ⟨hlo, hhi⟩ := getLoop_ctx m.runFlag 8 1 m inp (le_refl _) (by norm_num)
  have h256 : (2 : Nat) ^ 8 = 256 := by norm_num
  rw [h256] at hlo hhi
  obtain ⟨h1, _, h3⟩ := getLoop_history m.runFlag 8 1 m inp
  obtain ⟨a, b, d⟩ := history_fields (getLoop 8 m.runFlag 1 m inp).2.1
    (getLoop 8 m.runFlag 1 m inp).1
  have hg1 : (m.Get inp).1 = (history (getLoop 8 m.runFlag 1 m inp).2.1
      (getLoop 8 m.runFlag 1 m inp).1).c1 := rfl
  have hg2 : (m.Get inp).2.1 = history (getLoop 8 m.runFlag 1 m inp).2.1
      (getLoop 8 m.runFlag 1 m inp).1 := rfl
  rw [hg2, hg1, a, b, d, h1, h3]
  refine ⟨by omega, by omega, rfl, rfl, rfl⟩

end CM

namespace CM

theorem update_counter0 (bit f ctx j : Nat) (m : CM) (i : Nat) :
    (update bit f ctx j m).counter0 i
      = if i = ctx then Counter.Update bit 2 (m.counter0 ctx) else m.counter0 i := by
  simp only [update, Function.update_apply, Counter.Update]

theorem update_counter1 (bit f ctx j : Nat) (m : CM) (a i : Nat) :
    (update bit f ctx j m).counter1 a i
      = if a = m.c1 ∧ i = ctx then Counter.Update bit 4 (m.counter1 m.c1 ctx)
        else m.counter1 a i := by
  simp only [update, Function.update_apply, Counter.Update]
  by_cases ha : a = m.c1
  · by_cases hi : i = ctx
    · subst hi
      simp [ha]
    · simp [ha, hi]
  · simp [ha]

theorem update_counter2 (bit f ctx j : Nat) (m : CM) (g i x : Nat) :
    (update bit f ctx j m).counter2 g i x
      = if g = f ∧ i = ctx ∧ (x = j ∨ x = j + 1) then Counter.Update bit 6 (m.counter2 f ctx x)
        else m.counter2 g i x := by
  simp only [update, Function.update_apply, Counter.Update]
  by_cases hg : g = f
  · by_cases hi : i = ctx
    · by_cases hx1 : x = j + 1
      · have hne : j + 1 ≠ j := by omega
        simp [hg, hi, hx1, hne]
      · by_cases hx : x = j
        · simp [hg, hi, hx]
        · simp [hg, hi, hx, hx1]
    · simp [hg, hi]
  · simp [hg]

theorem update_history (bit f ctx j : Nat) (m : CM) :
    (update bit f ctx j m).c1 = m.c1 ∧ (update bit f ctx j m).c2 = m.c2
    ∧ (update bit f ctx j m).run = m.run :=
  ⟨rfl, rfl, rfl⟩

end CM

theorem div_two_pow_succ (F b t : Nat) (hb : b ≤ 1) : (2 * F + b) / 2 ^ (t + 1) = F / 2 ^ t := by
  have hpow : 2 ^ (t + 1) = 2 * 2 ^ t := by ring
  rw [hpow, ← Nat.div_div_eq_div_mul]
  congr 1
  omega

theorem div_two_pow_lt (F t : Nat) (hF : 1 ≤ F) (ht : 1 ≤ t) : F / 2 ^ t < F := by
  apply Nat.div_lt_self (by omega)
  have : 2 ^ 1 ≤ 2 ^ t := Nat.pow_le_pow_right (by norm_num) ht
  omega

namespace CM

/-- One coded bit keeps `BitsInv`. -/
theorem bits_step (m : CM) (f r F : Nat) (s : CM) (e : Encoder) (b : Nat) (hb : b ≤ 1)
    (h : m.BitsInv f r F s) :
    m.BitsInv f (r + 1) (2 * F + b) (update b f F (s.sseJ F) { s with enc := e }) := by
  obtain ⟨hlo, hhi, hc1, hc2, e0, f0, e1, f1, e2, f2⟩ := h
  have hpos : 1 ≤ 2 ^ r := Nat.one_le_two_pow
  have hF1 : 1 ≤ F := by omega
  have hnv : ∀ t, 1 ≤ t → t ≤ r → F ≠ F / 2 ^ t := by
    intro t h1 _
    have := div_two_pow_lt F t hF1 h1
    omega
  have hs0 : s.counter0 F = m.counter0 F := f0 F hnv
  have hs1 : ∀ a, s.counter1 a F = m.counter1 a F := fun a => f1 a F (Or.inr hnv)
  have hs2 : ∀ g x, s.counter2 g F x = m.counter2 g F x := fun g x => f2 g F x (Or.inr (Or.inl hnv))
  have hj : s.sseJ F = m.sseJ F := by
    unfold sseJ mixP
    rw [hs0, hc1, hc2, hs1, hs1]
  have hdiv1 : (2 * F + b) / 2 ^ 1 = F := by
    rw [pow_one]; omega
  have hbit1 : (2 * F + b) / 2 ^ (1 - 1) % 2 = b := by
    simp only [Nat.sub_self, pow_zero, Nat.div_one]; omega
  have hdiv : ∀ u, (2 * F + b) / 2 ^ (u + 1) = F / 2 ^ u := fun u => div_two_pow_succ F b u hb
  have hpow1 : 2 ^ (r + 1) = 2 * 2 ^ r := by ring
  have hpow2 : 2 ^ (r + 1 + 1) = 2 * (2 * 2 ^ r) := by ring
  -- a visited context of the longer run is `F` or one visited before
  have hcase : ∀ t, 1 ≤ t → t ≤ r + 1 → t = 1 ∨ ∃ u, t = u + 1 ∧ 1 ≤ u ∧ u ≤ r := by
    intro t h1 h2
    by_cases ht : t = 1
    · exact Or.inl ht
    · exact Or.inr ⟨t - 1, by omega, by omega, by omega⟩
  have hunv : ∀ i, (∀ t, 1 ≤ t → t ≤ r + 1 → i ≠ (2 * F + b) / 2 ^ t) →
      i ≠ F ∧ ∀ t, 1 ≤ t → t ≤ r → i ≠ F / 2 ^ t := by
    intro i hi
    refine ⟨?_, ?_⟩
    · have := hi 1 (le_refl _) (by omega)
      rw [hdiv1] at this
      exact this
    · intro t h1 h2
      have := hi (t + 1) (by omega) (by omega)
      rw [hdiv] at this
      exact this
  have hsc1 : ({ s with enc := e } : CM).c1 = m.c1 := hc1
  refine ⟨by omega, by omega, hc1, hc2, ?_, ?_, ?_, ?_, ?_, ?_⟩
  · intro t h1 h2
    rw [update_counter0]
    rcases hcase t h1 h2 with ht | ⟨u, ht, hu1, hu2⟩
    · subst ht
      rw [hdiv1, hbit1, if_pos rfl]
      exact congrArg _ hs0
    · subst ht
      rw [hdiv, Nat.add_sub_cancel, if_neg (fun hh => hnv u hu1 hu2 hh.symm)]
      have hu : u = (u - 1) + 1 := by omega
      have hb2 : (2 * F + b) / 2 ^ u = F / 2 ^ (u - 1) := by
        conv_lhs => rw [hu]
        exact hdiv (u - 1)
      rw [hb2]
      exact e0 u hu1 hu2
  · intro i hi
    obtain ⟨hiF, hiv⟩ := hunv i hi
    rw [update_counter0, if_neg hiF]
    exact f0 i hiv
  · intro t h1 h2
    rw [update_counter1, hsc1]
    rcases hcase t h1 h2 with ht | ⟨u, ht, hu1, hu2⟩
    · subst ht
      rw [hdiv1, hbit1, if_pos ⟨rfl, rfl⟩]
      exact congrArg _ (hs1 m.c1)
    · subst ht
      rw [hdiv, Nat.add_sub_cancel, if_neg (fun hh => hnv u hu1 hu2 hh.2.symm)]
      have hu : u = (u - 1) + 1 := by omega
      have hb2 : (2 * F + b) / 2 ^ u = F / 2 ^ (u - 1) := by
        conv_lhs => rw [hu]
        exact hdiv (u - 1)
      rw [hb2]
      exact e1 u hu1 hu2
  · intro a i hai
    rw [update_counter1, hsc1]
    rcases hai with ha | hi
    · rw [if_neg (fun hh => ha hh.1)]
      exact f1 a i (Or.inl ha)
    · obtain ⟨hiF, hiv⟩ := hunv i hi
      rw [if_neg (fun hh => hiF hh.2)]
      exact f1 a i (Or.inr hiv)
  · intro t h1 h2 x hx
    rw [update_counter2]
    rcases hcase t h1 h2 with ht | ⟨u, ht, hu1, hu2⟩
    · subst ht
      rw [hdiv1] at hx ⊢
      rw [hbit1, hj, if_pos ⟨rfl, rfl, hx⟩]
      exact congrArg _ (hs2 f x)
    · subst ht
      rw [hdiv] at hx ⊢
      rw [Nat.add_sub_cancel, if_neg (fun hh => hnv u hu1 hu2 hh.2.1.symm)]
      have hu : u = (u - 1) + 1 := by omega
      have hb2 : (2 * F + b) / 2 ^ u = F / 2 ^ (u - 1) := by
        conv_lhs => rw [hu]
        exact hdiv (u - 1)
      rw [hb2]
      exact e2 u hu1 hu2 x hx
  · intro g i x hgix
    rw [update_counter2]
    rcases hgix with hg | hi | hx
    · rw [if_neg (fun hh => hg hh.1)]
      exact f2 g i x (Or.inl hg)
    · obtain ⟨hiF, hiv⟩ := hunv i hi
      rw [if_neg (fun hh => hiF hh.2.1)]
      exact f2 g i x (Or.inr (Or.inl hiv))
    · rw [if_neg]
      · exact f2 g i x (Or.inr (Or.inr hx))
      · intro hh
        obtain ⟨_, hiF, hxj⟩ := hh
        rw [hj, ← hiF] at hxj
        rcases hxj with h | h
        · exact hx.1 h
        · exact hx.2 h

theorem bits_start (m : CM) (f : Nat) : m.BitsInv f 0 1 m := by
  refine ⟨by norm_num, by norm_num, rfl, rfl, ?_, ?_, ?_, ?_, ?_, ?_⟩
  · intro t h1 h2; omega
  · intro i _; rfl
  · intro t h1 h2; omega
  · intro a i _; rfl
  · intro t h1 h2; omega
  · intro g i x _; rfl

/-- The loop of `Put` keeps `BitsInv`. -/
theorem putLoop_bits (m : CM) (c f : Nat) : ∀ (l : List Nat) (r ctx : Nat) (s : CM),
    m.BitsInv f r ctx s →
    m.BitsInv f (r + l.length) (putLoop l c f ctx s).1.2 (putLoop l c f ctx s).1.1 := by
  intro l
  induction l with
  | nil => intro r ctx s h; exact h
  | cons i is ih =>
    intro r ctx s h
    have hlen : r + (i :: is).length = (r + 1) + is.length := by
      rw [List.length_cons]; omega
    rw [hlen, putLoop]
    split
    · have h1 : ctx + (ctx + 1) = 2 * ctx + 1 := by omega
      rw [h1]
      exact ih _ _ _ (bits_step m f r ctx s _ 1 (le_refl _) h)
    · have h0 : ctx + ctx = 2 * ctx + 0 := by omega
      rw [h0]
      exact ih _ _ _ (bits_step m f r ctx s _ 0 (by omega) h)

/-- The loop of `Get` keeps `BitsInv` over its eight turns. -/
theorem getLoop_bits (m : CM) (f : Nat) : ∀ (k r ctx : Nat) (s : CM) (inp : Input),
    m.BitsInv f r ctx s → r + k ≤ 8 →
    m.BitsInv f (r + k) (getLoop k f ctx s inp).2.1 (getLoop k f ctx s inp).1 := by
  intro k
  induction k with
  | zero => intro r ctx s inp h _; exact h
  | succ k ih =>
    intro r ctx s inp h hk
    have hlen : r + (k + 1) = (r + 1) + k := by omega
    have hc : ctx < 256 := by
      have h2 := h.2.1
      have : 2 ^ (r + 1) ≤ 2 ^ 8 := Nat.pow_le_pow_right (by norm_num) (by omega)
      have h256 : (2 : Nat) ^ 8 = 256 := by norm_num
      omega
    rw [hlen, getLoop, if_pos hc]
    simp only []
    split
    · have h1 : ctx + (ctx + 1) = 2 * ctx + 1 := by omega
      rw [h1]
      exact ih _ _ _ _ (bits_step m f r ctx s _ 1 (le_refl _) h) (by omega)
    · have h0 : ctx + ctx = 2 * ctx + 0 := by omega
      rw [h0]
      exact ih _ _ _ _ (bits_step m f r ctx s _ 0 (by omega) h) (by omega)

theorem history_effect (m : CM) (f r F ctx : Nat) (s : CM) (h : m.BitsEffect f r F s) :
    m.BitsEffect f r F (history ctx s) := by
  unfold BitsEffect at h ⊢
  simp only [history]
  exact h

end CM

namespace CM

/-- Dropping the bits coded by the loop of `Put` from the final bit context
gives the initial one. -/
theorem putLoop_ctx_div (c f : Nat) : ∀ (l : List Nat) (ctx : Nat) (m : CM),
    (putLoop l c f ctx m).1.2 / 2 ^ l.length = ctx := by
  intro l
  induction l with
  | nil => intro ctx m; simp [putLoop]
  | cons i is ih =>
    intro ctx m
    have hpow : 2 ^ (i :: is).length = 2 ^ is.length * 2 := by
      rw [List.length_cons]; ring
    rw [hpow, ← Nat.div_div_eq_div_mul, putLoop]
    split
    · simp only []
      rw [ih]
      omega
    · simp only []
      rw [ih]
      omega

/-- Dropping the bits decoded by full turns of the loop of `Get` from the
final bit context gives the initial one. -/
theorem getLoop_ctx_div (f : Nat) : ∀ (k ctx : Nat) (m : CM) (inp : Input),
    (ctx + 1) * 2 ^ k ≤ 512 → (getLoop k f ctx m inp).2.1 / 2 ^ k = ctx := by
  intro k
  induction k with
  | zero => intro ctx m inp _; simp [getLoop]
  | succ k ih =>
    intro ctx m inp h
    have hpow : 2 ^ (k + 1) = 2 ^ k * 2 := by ring
    have hpos : 1 ≤ 2 ^ k := Nat.one_le_two_pow
    have hc : ctx < 256 := by
      rw [hpow] at h
      nlinarith
    rw [hpow] at h
    rw [hpow, ← Nat.div_div_eq_div_mul, getLoop, if_pos hc]
    simp only []
    split
    · rw [ih _ _ _ (by nlinarith)]
      omega
    · rw [ih _ _ _ (by nlinarith)]
      omega

/-- The bit context in which bit `k` of a byte is coded by `Put`. -/
theorem putLoop_prefix_ctx (c : Nat) (hc : c < 256) (m : CM) (k : Nat) :
    (putLoop (masks8.take k) c m.runFlag 1 m).1.2 = (256 + c) / 2 ^ (8 - k) := by
  have hsplit : masks8 = masks8.take k ++ masks8.drop k := (List.take_append_drop k masks8).symm
  have hF := (put_history c hc m).1
  have hlen : (masks8.drop k).length = 8 - k := by
    rw [List.length_drop]
    rfl
  have happ := putLoop_append c m.runFlag (masks8.take k) (masks8.drop k) 1 m
  rw [← hsplit] at happ
  have hd := putLoop_ctx_div c m.runFlag (masks8.drop k)
    (putLoop (masks8.take k) c m.runFlag 1 m).1.2 (putLoop (masks8.take k) c m.runFlag 1 m).1.1
  rw [hlen] at hd
  rw [← hd, ← hF, happ]

/-- The bit context in which bit `k` of a byte is decoded by `Get`. -/
theorem getLoop_prefix_ctx (m : CM) (inp : Input) (k : Nat) (hk : k ≤ 8) :
    (getLoop k m.runFlag 1 m inp).2.1 = (256 + (m.Get inp).1) / 2 ^ (8 - k) := by
  have hF := (get_history m inp).2.1
  have hadd := getLoop_add m.runFlag k (8 - k) 1 m inp
  have h8 : k + (8 - k) = 8 := by omega
  rw [h8] at hadd
  obtain ⟨hlo, hhi⟩ := getLoop_ctx m.runFlag k 1 m inp (le_refl _) (by
    have : 2 ^ k ≤ 2 ^ 8 := Nat.pow_le_pow_right (by norm_num) hk
    have h256 : (2 : Nat) ^ 8 = 256 := by norm_num
    omega)
  have hd := getLoop_ctx_div m.runFlag (8 - k) (getLoop k m.runFlag 1 m inp).2.1
    (getLoop k m.runFlag 1 m inp).1 (getLoop k m.runFlag 1 m inp).2.2 (by
      have hp : 2 ^ k * 2 ^ (8 - k) = 2 ^ 8 := by rw [← pow_add, h8]
      have h256 : (2 : Nat) ^ 8 = 256 := by norm_num
      have hpos : 1 ≤ 2 ^ (8 - k) := Nat.one_le_two_pow
      nlinarith)
  rw [← hd, ← hF, hadd]

end CM

/-- The bits of `256 + d` below its leading 1 are the bits of the byte `d`. -/
theorem byte_bits (d t : Nat) (h1 : 1 ≤ t) (h8 : t ≤ 8) :
    (256 + d) / 2 ^ (t - 1) % 2 = d / 2 ^ (t - 1) % 2
    ∧ (256 + d) / 2 ^ t = 2 ^ (8 - t) + d / 2 ^ t := by
  interval_cases t <;> constructor <;> norm_num <;> omega

/-- C15: coding a byte `c` with `Put`, or decoding the byte `d` with `Get`,
from a state `m` with run flag `f`, visits the 8 bit contexts
`(256 + c) / 2^t` for `t = 8, ..., 1` (the context in which bit `k` is coded
is the one for `t = 8 - k`), codes there the bit `c / 2^(t-1) % 2`, and
changes exactly the counters `counter0[ctx]`, `counter1[c1][ctx]`,
`counter2[f][ctx][j]` and `counter2[f][ctx][j+1]` of those contexts, each
updated once with the coded bit (`BitsEffect`); every other counter is
unchanged, in particular all of `counter1[c2][..]` when `c2 ≠ c1`. -/
theorem C15_counters_touched (c : Nat) (hc : c < 256) (m : CM) (inp : Input) :
    m.BitsEffect m.runFlag 8 (256 + c) (m.Put c).1
    ∧ m.BitsEffect m.runFlag 8 (256 + (m.Get inp).1) (m.Get inp).2.1
    ∧ (m.c2 ≠ m.c1 → ∀ i, (m.Put c).1.counter1 m.c2 i = m.counter1 m.c2 i
        ∧ (m.Get inp).2.1.counter1 m.c2 i = m.counter1 m.c2 i)
    ∧ (∀ k, k ≤ 8 →
        (CM.putLoop (CM.masks8.take k) c m.runFlag 1 m).1.2 = (256 + c) / 2 ^ (8 - k)
        ∧ (CM.getLoop k m.runFlag 1 m inp).2.1 = (256 + (m.Get inp).1) / 2 ^ (8 - k))
    ∧ (∀ d t, d < 256 → 1 ≤ t → t ≤ 8 →
        (256 + d) / 2 ^ (t - 1) % 2 = d / 2 ^ (t - 1) % 2
        ∧ (256 + d) / 2 ^ t = 2 ^ (8 - t) + d / 2 ^ t) := by
  have hput : m.BitsEffect m.runFlag 8 (256 + c) (m.Put c).1 := by
    have h := CM.putLoop_bits m c m.runFlag CM.masks8 0 1 m (CM.bits_start m m.runFlag)
    have hlen : 0 + CM.masks8.length = 8 := rfl
    rw [hlen, (CM.put_history c hc m).1] at h
    have hp : (m.Put c).1 = CM.history (CM.putLoop CM.masks8 c m.runFlag 1 m).1.2
        (CM.putLoop CM.masks8 c m.runFlag 1 m).1.1 := rfl
    rw [hp]
    exact CM.history_effect m _ _ _ _ _ h.2.2.2.2
  have hget : m.BitsEffect m.runFlag 8 (256 + (m.Get inp).1) (m.Get inp).2.1 := by
    have h := CM.getLoop_bits m m.runFlag 8 0 1 m inp (CM.bits_start m m.runFlag) (by norm_num)
    have hlen : 0 + 8 = 8 := rfl
    rw [hlen, (CM.get_history m inp).2.1] at h
    have hp : (m.Get inp).2.1 = CM.history (CM.getLoop 8 m.runFlag 1 m inp).2.1
        (CM.getLoop 8 m.runFlag 1 m inp).1 := rfl
    rw [hp]
    have h2 := CM.history_effect m m.runFlag 8 (256 + (m.Get inp).1)
      (CM.getLoop 8 m.runFlag 1 m inp).2.1 _ h.2.2.2.2
    exact h2
  refine ⟨hput, hget, ?_, ?_, ?_⟩
  · intro hne i
    exact ⟨hput.2.2.2.1 m.c2 i (Or.inl hne), hget.2.2.2.1 m.c2 i (Or.inl hne)⟩
  · intro k hk
    exact ⟨CM.putLoop_prefix_ctx c hc m k, CM.getLoop_prefix_ctx m inp k hk⟩
  · intro d t _ h1 h8
    exact byte_bits d t h1 h8

theorem C15_counters_touched_witness :
    (0x41 : Nat) < 256
    ∧ (CM.init.BitsEffect CM.init.runFlag 8 (256 + 0x41) (CM.init.Put 0x41).1
    ∧ CM.init.BitsEffect CM.init.runFlag 8 (256 + (CM.init.Get (Input.mk [0x80, 0, 0, 0] false)).1)
        (CM.init.Get (Input.mk [0x80, 0, 0, 0] false)).2.1
    ∧ (CM.init.c2 ≠ CM.init.c1 → ∀ i,
        (CM.init.Put 0x41).1.counter1 CM.init.c2 i = CM.init.counter1 CM.init.c2 i
        ∧ (CM.init.Get (Input.mk [0x80, 0, 0, 0] false)).2.1.counter1 CM.init.c2 i
            = CM.init.counter1 CM.init.c2 i)
    ∧ (∀ k, k ≤ 8 →
        (CM.putLoop (CM.masks8.take k) 0x41 CM.init.runFlag 1 CM.init).1.2
            = (256 + 0x41) / 2 ^ (8 - k)
        ∧ (CM.getLoop k CM.init.runFlag 1 CM.init (Input.mk [0x80, 0, 0, 0] false)).2.1
            = (256 + (CM.init.Get (Input.mk [0x80, 0, 0, 0] false)).1) / 2 ^ (8 - k))
    ∧ (∀ d t, d < 256 → 1 ≤ t → t ≤ 8 →
        (256 + d) / 2 ^ (t - 1) % 2 = d / 2 ^ (t - 1) % 2
        ∧ (256 + d) / 2 ^ t = 2 ^ (8 - t) + d / 2 ^ t)) :=
  ⟨by decide, C15_counters_touched 0x41 (by decide) CM.init (Input.mk [0x80, 0, 0, 0] false)⟩

/-! ### The blocks of a run of `Compress` -/

theorem readBlocks_spec (bs : Nat) (hbs : 1 ≤ bs) : ∀ (k : Nat) (inp : List Nat),
    inp.length < k →
    (readBlocks bs k inp).flatten = inp
    ∧ (∀ B ∈ readBlocks bs k inp, 1 ≤ B.length ∧ B.length ≤ bs)
    ∧ (∀ B ∈ (readBlocks bs k inp).dropLast, B.length = bs)
    ∧ (inp ≠ [] → (readBlocks bs k inp).headD [] = inp.take bs) := by
  intro k
  induction k with
  | zero => intro inp h; omega
  | succ k ih =>
    intro inp h
    rw [readBlocks]
    by_cases hc : (inp.take bs).length > 0
    · rw [if_pos hc]
      have hne : inp ≠ [] := by
        intro he
        rw [he] at hc
        simp at hc
      have hpos : 0 < inp.length := List.length_pos.mpr hne
      have hdl : (inp.drop bs).length < k := by
        rw [List.length_drop]; omega
      obtain ⟨i1, i2, i3, i4⟩ := ih (inp.drop bs) hdl
      refine ⟨?_, ?_, ?_, fun _ => rfl⟩
      · rw [List.flatten_cons, i1, List.take_append_drop]
      · intro B hB
        rcases List.mem_cons.mp hB with h1 | h1
        · rw [h1, List.length_take]
          omega
        · exact i2 B h1
      · intro B hB
        by_cases hr : readBlocks bs k (inp.drop bs) = []
        · rw [hr] at hB
          simp at hB
        · rw [List.dropLast_cons_of_ne_nil hr] at hB
          rcases List.mem_cons.mp hB with h1 | h1
          · have hdne : inp.drop bs ≠ [] := by
              intro he
              apply hr
              cases k with
              | zero => rfl
              | succ k => rw [readBlocks, he]; simp
            have : 0 < (inp.drop bs).length := List.length_pos.mpr hdne
            rw [List.length_drop] at this
            rw [h1, List.length_take]
            omega
          · exact i3 B h1
    · rw [if_neg hc]
      have he : inp = [] := by
        rw [List.length_take] at hc
        have : inp.length = 0 := by omega
        exact List.length_eq_zero.mp this
      refine ⟨by rw [he]; rfl, ?_, ?_, fun hne => absurd he hne⟩
      · intro B hB; simp at hB
      · intro B hB; simp at hB

namespace CM

theorem encodeItems_bytes : ∀ (L : List Nat) (m : CM),
    encodeItems (L.map Item.byte) m = putBytes L m := by
  intro L
  induction L with
  | nil => intro m; rfl
  | cons c s ih =>
    intro m
    rw [List.map_cons, encodeItems, putBytes]
    simp only [encodeItem, ih]

end CM

/-- The loop of `Compress` hands the model the items of the blocks it reads,
and feeds the blocks to the CRC. -/
theorem compressLoop_items (bwt : List Nat → List Nat × Int) (bs : Nat) (hbs : 1 ≤ bs)
    (hbwt : ∀ B, 1 ≤ (bwt B).2) : ∀ (k : Nat) (inp : List Nat) (cm : CM) (crc : Nat),
    inp.length < k →
    compressLoop bwt bs k inp cm crc
      = .ok ((CM.encodeItems ((readBlocks bs k inp).flatMap (blockItems bwt)) cm).1,
          (readBlocks bs k inp).foldl CRC.Update crc,
          (CM.encodeItems ((readBlocks bs k inp).flatMap (blockItems bwt)) cm).2) := by
  intro k
  induction k with
  | zero => intro inp cm crc h; omega
  | succ k ih =>
    intro inp cm crc h
    rw [compressLoop_succ, compressStep, readBlocks]
    by_cases hc : (inp.take bs).length > 0
    · have hpos : 0 < inp.length := by
        rw [List.length_take] at hc; omega
      have hdl : (inp.drop bs).length < k := by
        rw [List.length_drop]; omega
      rw [if_pos hc, if_pos hc, compressBlock, if_neg (by have := hbwt (inp.take bs); omega)]
      simp only []
      rw [ih _ _ _ hdl, List.flatMap_cons, CM.encodeItems_append, List.foldl_cons]
      simp only [blockItems, CM.encodeItems, CM.encodeItem, CM.encodeItems_bytes,
        List.append_assoc]
    · rw [if_neg hc, if_neg hc]
      rfl

theorem bwtSort_idx_pos (B : List Nat) : 1 ≤ (bwtSort B).2 := by
  unfold bwtSort
  simp only []
  omega

/-- `Compress` is its loop, run with the effective block size, followed by
the trailer `Put32(0)`, `Put32(crc)` and `Flush`. -/
theorem compress_unfold (bwt : List Nat → List Nat × Int) (bsize : Nat) (S : List Nat) :
    Compress bwt bsize S
      = (match compressLoop bwt (effectiveBsize bsize S.length) (S.length + 1) S
            CM.init CRC.init with
        | .error f => .error f
        | .ok r =>
          .ok (r.2.2 ++ (r.1.Put32 0).2 ++ ((r.1.Put32 0).1.Put32 (CRC.value r.2.1)).2
            ++ (Encoder.Flush ((r.1.Put32 0).1.Put32 (CRC.value r.2.1)).1.enc).2)) := rfl

/-- The stream of a list of items followed by the trailer items. -/
theorem encodeStream_trailer (items : List Item) (x : Nat) :
    CM.encodeStream (items ++ [Item.word 0, Item.word x])
      = (CM.encodeItems items CM.init).2 ++ ((CM.encodeItems items CM.init).1.Put32 0).2
        ++ (((CM.encodeItems items CM.init).1.Put32 0).1.Put32 x).2
        ++ (Encoder.Flush (((CM.encodeItems items CM.init).1.Put32 0).1.Put32 x).1.enc).2 := by
  unfold CM.encodeStream
  rw [CM.encodeItems_append]
  simp only [CM.encodeItems, CM.encodeItem, List.append_assoc, List.append_nil]

/-- C18: for an input of `flen ≥ 1` bytes and a block size `bsize ≥ 1`,
`Compress` cuts the input into consecutive blocks whose concatenation is the
input; every block but the last has exactly `min(bsize, flen)` bytes, every
block has between 1 and `min(bsize, flen)` bytes, and the first has exactly
`min(bsize, flen)`. The stream written codes, per block, its length, its BWT
index and its transformed bytes, then 0 and the CRC. So every block length
in the stream is at most the first one, and the decoder, whose buffers are
sized from the first block, accepts the header of every block (its
`n > bsize` test is false). -/
theorem C18_block_lengths (bwt : List Nat → List Nat × Int) (bsize : Nat) (S : List Nat)
    (hS : 1 ≤ S.length) (hb1 : 1 ≤ bsize) (hb2 : bsize < 2 ^ 31) (hbwt : ∀ B, 1 ≤ (bwt B).2) :
    (readBlocks (effectiveBsize bsize S.length) (S.length + 1) S).flatten = S
    ∧ (∀ B ∈ (readBlocks (effectiveBsize bsize S.length) (S.length + 1) S).dropLast,
        B.length = min bsize S.length)
    ∧ (∀ B ∈ readBlocks (effectiveBsize bsize S.length) (S.length + 1) S,
        1 ≤ B.length ∧ B.length ≤ min bsize S.length)
    ∧ ((readBlocks (effectiveBsize bsize S.length) (S.length + 1) S).headD []).length
        = min bsize S.length
    ∧ (∀ B ∈ readBlocks (effectiveBsize bsize S.length) (S.length + 1) S,
        B.length ≤ ((readBlocks (effectiveBsize bsize S.length) (S.length + 1) S).headD []).length)
    ∧ Compress bwt bsize S
        = .ok (CM.encodeStream
            ((readBlocks (effectiveBsize bsize S.length) (S.length + 1) S).flatMap (blockItems bwt)
              ++ [Item.word 0, Item.word (CRC.value
                  ((readBlocks (effectiveBsize bsize S.length) (S.length + 1) S).foldl
                    CRC.Update CRC.init))]))
    ∧ (∀ B ∈ readBlocks (effectiveBsize bsize S.length) (S.length + 1) S,
        ∀ (idx : Nat) (alloc : Int), 1 ≤ idx → idx ≤ B.length →
        (alloc = 0 ∨ alloc = (((readBlocks (effectiveBsize bsize S.length) (S.length + 1)
            S).headD []).length : Int)) →
        classify (toU32 (B.length : Int)) idx alloc
          = .block (B.length : Int) (idx : Int) (if alloc = 0 then (B.length : Int) else alloc)) := by
  have heff : effectiveBsize bsize S.length = min bsize S.length := by
    unfold effectiveBsize
    split <;> omega
  have heff1 : 1 ≤ effectiveBsize bsize S.length := by rw [heff]; omega
  have hne : S ≠ [] := by
    intro he
    rw [he] at hS
    simp at hS
  obtain ⟨r1, r2, r3, r4⟩ := readBlocks_spec (effectiveBsize bsize S.length) heff1
    (S.length + 1) S (by omega)
  have hhead : ((readBlocks (effectiveBsize bsize S.length) (S.length + 1) S).headD []).length
      = min bsize S.length := by
    rw [r4 hne, List.length_take, heff]
    omega
  have hle : ∀ B ∈ readBlocks (effectiveBsize bsize S.length) (S.length + 1) S,
      B.length ≤ ((readBlocks (effectiveBsize bsize S.length) (S.length + 1) S).headD []).length := by
    intro B hB
    rw [hhead, ← heff]
    exact (r2 B hB).2
  refine ⟨r1, ?_, ?_, hhead, hle, ?_, ?_⟩
  · intro B hB
    rw [← heff]
    exact r3 B hB
  · intro B hB
    rw [← heff]
    exact r2 B hB
  · have hc := compressLoop_items bwt (effectiveBsize bsize S.length) heff1 hbwt
      (S.length + 1) S CM.init CRC.init (by omega)
    rw [compress_unfold, hc, encodeStream_trailer]
  · intro B hB idx alloc hi1 hi2 halloc
    have hb := r2 B hB
    have hl := hle B hB
    rw [heff] at hb
    have hU : toU32 (B.length : Int) = B.length := Encoder.toU32_cast _ (by omega)
    rw [hU]
    apply classify_block B.length idx alloc (by omega) (by omega) hi1 hi2
    rcases halloc with h | h
    · exact Or.inl h
    · right
      rw [h]
      exact_mod_cast hl

theorem C18_block_lengths_witness :
    1 ≤ ([1, 2, 3, 4, 5] : List Nat).length ∧ 1 ≤ 2 ∧ 2 < 2 ^ 31 ∧ (∀ B, 1 ≤ (bwtSort B).2)
    ∧ ((readBlocks (effectiveBsize 2 ([1, 2, 3, 4, 5] : List Nat).length)
          (([1, 2, 3, 4, 5] : List Nat).length + 1) [1, 2, 3, 4, 5]).flatten = [1, 2, 3, 4, 5]
    ∧ (∀ B ∈ (readBlocks (effectiveBsize 2 ([1, 2, 3, 4, 5] : List Nat).length)
          (([1, 2, 3, 4, 5] : List Nat).length + 1) [1, 2, 3, 4, 5]).dropLast,
        B.length = min 2 ([1, 2, 3, 4, 5] : List Nat).length)
    ∧ (∀ B ∈ readBlocks (effectiveBsize 2 ([1, 2, 3, 4, 5] : List Nat).length)
          (([1, 2, 3, 4, 5] : List Nat).length + 1) [1, 2, 3, 4, 5],
        1 ≤ B.length ∧ B.length ≤ min 2 ([1, 2, 3, 4, 5] : List Nat).length)
    ∧ ((readBlocks (effectiveBsize 2 ([1, 2, 3, 4, 5] : List Nat).length)
          (([1, 2, 3, 4, 5] : List Nat).length + 1) [1, 2, 3, 4, 5]).headD []).length
        = min 2 ([1, 2, 3, 4, 5] : List Nat).length
    ∧ (∀ B ∈ readBlocks (effectiveBsize 2 ([1, 2, 3, 4, 5] : List Nat).length)
          (([1, 2, 3, 4, 5] : List Nat).length + 1) [1, 2, 3, 4, 5],
        B.length ≤ ((readBlocks (effectiveBsize 2 ([1, 2, 3, 4, 5] : List Nat).length)
          (([1, 2, 3, 4, 5] : List Nat).length + 1) [1, 2, 3, 4, 5]).headD []).length)
    ∧ Compress bwtSort 2 [1, 2, 3, 4, 5]
        = .ok (CM.encodeStream
            ((readBlocks (effectiveBsize 2 ([1, 2, 3, 4, 5] : List Nat).length)
                (([1, 2, 3, 4, 5] : List Nat).length + 1) [1, 2, 3, 4, 5]).flatMap
                (blockItems bwtSort)
              ++ [Item.word 0, Item.word (CRC.value
                  ((readBlocks (effectiveBsize 2 ([1, 2, 3, 4, 5] : List Nat).length)
                    (([1, 2, 3, 4, 5] : List Nat).length + 1) [1, 2, 3, 4, 5]).foldl
                    CRC.Update CRC.init))]))
    ∧ (∀ B ∈ readBlocks (effectiveBsize 2 ([1, 2, 3, 4, 5] : List Nat).length)
          (([1, 2, 3, 4, 5] : List Nat).length + 1) [1, 2, 3, 4, 5],
        ∀ (idx : Nat) (alloc : Int), 1 ≤ idx → idx ≤ B.length →
        (alloc = 0 ∨ alloc = (((readBlocks (effectiveBsize 2 ([1, 2, 3, 4, 5] : List Nat).length)
            (([1, 2, 3, 4, 5] : List Nat).length + 1) [1, 2, 3, 4, 5]).headD []).length : Int)) →
        classify (toU32 (B.length : Int)) idx alloc
          = .block (B.length : Int) (idx : Int) (if alloc = 0 then (B.length : Int) else alloc))) :=
  ⟨by decide, by decide, by decide, bwtSort_idx_pos,
    C18_block_lengths bwtSort 2 [1, 2, 3, 4, 5] (by decide) (by decide) (by decide)
      bwtSort_idx_pos⟩

/-! ### The decoder on a stream it did not get from the encoder -/

namespace Encoder

/-- The renormalization shifts, followed from the decoder's side: when the
interval contains the number denoted by the stream `R`, the bytes the
encoder's loop writes are the next bytes of `R`, and the interval it
leaves contains the number denoted by what follows them. -/
theorem renorm_led (k : Nat) : ∀ (e : Encoder) (R : List Nat), e.Ordered → IsStream R →
    e.low ≤ code4 R → code4 R ≤ e.high → (renormEnc k e).2.length + 4 ≤ R.length →
    R = (renormEnc k e).2 ++ R.drop (renormEnc k e).2.length
    ∧ (renormEnc k e).1.Covers (R.drop (renormEnc k e).2.length) := by
  induction k with
  | zero =>
    intro e R _ hstr hlo hhi _
    exact ⟨rfl, hstr, hlo, hhi⟩
  | succ k ih =>
    intro e R ho hstr hlo hhi hlen
    by_cases hc : e.low ^^^ e.high < 1 <<< 24
    · rw [renormEnc, if_pos hc] at hlen ⊢
      simp only [List.length_cons] at hlen ⊢
      obtain ⟨g0, g1, g2, g3, rest, hG, h0, h1, h2, h3⟩ := isStream_destruct R hstr
      subst hG
      cases rest with
      | nil => simp at hlen
      | cons g4 rest =>
        have h4 : g4 < 256 := hstr.2 g4 (by simp)
        have hc2 : e.low / 2 ^ 24 = e.high / 2 ^ 24 := (xor_lt_iff _ _ 24).mp hc
        obtain ⟨hcb, hcg⟩ := code4_cons g0 g1 g2 g3 g4 rest
        have hcR : code4 (g0 :: g1 :: g2 :: g3 :: g4 :: rest)
            = ((g0 * 256 + g1) * 256 + g2) * 256 + g3 := rfl
        rw [hcR] at hlo hhi
        have hb : putc (e.low >>> 24) = g0 := by
          unfold putc
          rw [Nat.shiftRight_eq_div_pow]
          unfold Ordered at ho
          omega
        have hstr1 : IsStream (g1 :: g2 :: g3 :: g4 :: rest) := by
          refine ⟨by simp, fun b hb => hstr.2 b (List.mem_cons_of_mem _ hb)⟩
        have hso := shift_ordered e ho hc
        have hlo1 : (shift e).low ≤ code4 (g1 :: g2 :: g3 :: g4 :: rest) := by
          rw [shift_low, hcg]
          unfold Ordered at ho
          omega
        have hhi1 : code4 (g1 :: g2 :: g3 :: g4 :: rest) ≤ (shift e).high := by
          rw [shift_high, hcg]
          unfold Ordered at ho
          omega
        obtain ⟨i1, i2⟩ := ih (shift e) (g1 :: g2 :: g3 :: g4 :: rest) hso hstr1 hlo1 hhi1
          (by simp only [List.length_cons] at hlen ⊢; omega)
        rw [hb, List.drop_succ_cons, List.cons_append, ← i1]
        exact ⟨rfl, i2⟩
    · rw [renormEnc, if_neg hc]
      exact ⟨rfl, hstr, hlo, hhi⟩

/-- One bit, followed from the decoder's side: on a stream `R` whose number
lies in the interval, `DecodeBit` returns the bit `b` for which the bytes
`EncodeBit` writes are the next bytes of `R`, and goes on in the encoder's
state, looking at what follows them. -/
theorem decode_led (P p : Nat) (e : Encoder) (hInv : e.Inv) (hp : p < 2 ^ P) (hP : P ≤ 32)
    (R : List Nat) (ef : Bool) (hcov : e.Covers R)
    (hlen : (EncodeBit P (if code4 R ≤ mid P p e then 1 else 0) p e).2.length + 4 ≤ R.length) :
    R = (EncodeBit P (if code4 R ≤ mid P p e then 1 else 0) p e).2
        ++ R.drop (EncodeBit P (if code4 R ≤ mid P p e then 1 else 0) p e).2.length
    ∧ (EncodeBit P (if code4 R ≤ mid P p e then 1 else 0) p e).1.Covers
        (R.drop (EncodeBit P (if code4 R ≤ mid P p e then 1 else 0) p e).2.length)
    ∧ DecodeBit P p (e.withCode (code4 R)) { data := R.drop 4, eof := ef }
      = ((if code4 R ≤ mid P p e then 1 else 0),
          (EncodeBit P (if code4 R ≤ mid P p e then 1 else 0) p e).1.withCode
            (code4 (R.drop (EncodeBit P (if code4 R ≤ mid P p e then 1 else 0) p e).2.length)),
          { data := (R.drop (EncodeBit P (if code4 R ≤ mid P p e then 1 else 0) p e).2.length).drop 4,
            eof := ef }) := by
  obtain ⟨hstr, hlo, hhi⟩ := hcov
  have hm := mid_bounds P p e hInv.1 (inv_lt e hInv) hp hP
  generalize hb : (if code4 R ≤ mid P p e then 1 else 0) = b at hlen ⊢
  obtain ⟨hno, hnl, hnh, hb1, hb0⟩ := narrow_ordered b (mid P p e) e hInv.1 hm
  have hnlo : (narrow b (mid P p e) e).low ≤ code4 R ∧ code4 R ≤ (narrow b (mid P p e) e).high := by
    by_cases hle : code4 R ≤ mid P p e
    · rw [if_pos hle] at hb
      subst hb
      have h1 : (narrow 1 (mid P p e) e).low = e.low := by
        unfold narrow; rw [if_pos (by norm_num)]
      rw [h1, hb1 (by norm_num)]
      exact ⟨hlo, hle⟩
    · rw [if_neg hle] at hb
      subst hb
      have h1 : (narrow 0 (mid P p e) e).high = e.high := by
        unfold narrow; rw [if_neg (by norm_num)]
      rw [h1, hb0 rfl]
      exact ⟨by omega, hhi⟩
  obtain ⟨hR, hcovF⟩ := renorm_led 4 (narrow b (mid P p e) e) R hno hstr hnlo.1 hnlo.2 hlen
  have hs := (encode_sync P b p e hInv hp hP
    (R.drop (EncodeBit P b p e).2.length) ef).2 hcovF
  have hbb : (if b ≠ 0 then 1 else 0) = b := by
    by_cases hle : code4 R ≤ mid P p e
    · rw [if_pos hle] at hb; subst hb; rfl
    · rw [if_neg hle] at hb; subst hb; rfl
  refine ⟨hR, hcovF, ?_⟩
  have hR2 : R = (EncodeBit P b p e).2 ++ R.drop (EncodeBit P b p e).2.length := hR
  have hd := hs.2
  rw [← hR2, hbb] at hd
  exact hd

end Encoder

namespace CM

/-- The value returned by the loop of `Get32` is the accumulator shifted by
the number of bits read, plus those bits. -/
theorem get32_value : ∀ (r acc : Nat) (m : CM) (inp : Input), acc < 2 ^ 32 →
    ∃ y, y < 2 ^ r ∧ (get32Loop r acc m inp).1 = (acc * 2 ^ r + y) % 2 ^ 32 := by
  intro r
  induction r with
  | zero =>
    intro acc m inp hacc
    refine ⟨0, by norm_num, ?_⟩
    show acc = (acc * 2 ^ 0 + 0) % 2 ^ 32
    rw [pow_zero, Nat.mul_one, Nat.add_zero, Nat.mod_eq_of_lt hacc]
  | succ r ih =>
    intro acc m inp _
    rw [get32Loop]
    obtain ⟨y, hy, hv⟩ := ih ((acc + (acc + (m.enc.DecodeBit 1 1 inp).1)) % 2 ^ 32)
      { m with enc := (m.enc.DecodeBit 1 1 inp).2.1 } (m.enc.DecodeBit 1 1 inp).2.2
      (Nat.mod_lt _ (by norm_num))
    have hb : (m.enc.DecodeBit 1 1 inp).1 ≤ 1 := by
      show (if m.enc.code ≤ Encoder.mid 1 1 m.enc then 1 else 0) ≤ 1
      split <;> omega
    refine ⟨(m.enc.DecodeBit 1 1 inp).1 * 2 ^ r + y, ?_, ?_⟩
    · have hpow : 2 ^ (r + 1) = 2 * 2 ^ r := by ring
      rw [hpow]
      nlinarith
    · rw [hv, mod_absorb]
      congr 1
      ring

/-- Bit `r` of a value assembled by the loop of `Get32` is the bit read
`r + 1` bits before the end. -/
theorem bit_of_value (acc b y r : Nat) (hb : b ≤ 1) (hy : y < 2 ^ r) (hr : r < 32) :
    (((acc + (acc + b)) % 2 ^ 32) * 2 ^ r + y) % 2 ^ 32 / 2 ^ r % 2 = b := by
  rw [mod_absorb]
  have hsplit : 2 ^ 32 = 2 ^ r * 2 ^ (32 - r) := by
    rw [← pow_add]
    congr 1
    omega
  rw [hsplit, Nat.mod_mul_right_div_self]
  have hpos : 0 < 2 ^ r := pow_pos (by norm_num) r
  have hdiv : ((acc + (acc + b)) * 2 ^ r + y) / 2 ^ r = acc + (acc + b) := by
    rw [Nat.add_div_of_dvd_right (Dvd.intro_left _ rfl)]
    rw [Nat.mul_div_cancel _ hpos, Nat.div_eq_of_lt hy]
    rfl
  rw [hdiv]
  have hdvd : 2 ∣ 2 ^ (32 - r) := by
    have : 32 - r = (32 - r - 1) + 1 := by omega
    rw [this, pow_succ]
    exact Dvd.intro_left _ rfl
  rw [Nat.mod_mod_of_dvd _ hdvd]
  omega

/-- The decoder-led counterpart of `put32_sync`: on a stream `R` whose number
lies in the coder interval, the loop of `Get32` returns a value `X` such that
the bytes the loop of `Put32` writes for `X` are the next bytes of `R`, and
the interval it leaves contains the number denoted by what follows them. -/
theorem get32_led : ∀ (r : Nat), r ≤ 32 → ∀ (m : CM) (acc : Nat) (R : List Nat) (ef : Bool)
    (X : Nat), acc < 2 ^ 32 → m.enc.Inv → m.enc.Covers R →
    (get32Loop r acc (m.withCode (code4 R)) { data := R.drop 4, eof := ef }).1 = X →
    (put32Spec r X m).2.length + 4 ≤ R.length →
    R = (put32Spec r X m).2 ++ R.drop (put32Spec r X m).2.length
    ∧ (put32Spec r X m).1.enc.Covers (R.drop (put32Spec r X m).2.length) := by
  intro r
  induction r with
  | zero =>
    intro _ m acc R ef X _ _ hcov _ _
    exact ⟨rfl, hcov⟩
  | succ r ih =>
    intro hr m acc R ef X hacc hinv hcov hX hlen
    -- the first bit decoded
    have hdec1 : ((m.withCode (code4 R)).enc.DecodeBit 1 1 { data := R.drop 4, eof := ef }).1
        = (if code4 R ≤ Encoder.mid 1 1 m.enc then 1 else 0) := rfl
    rw [get32Loop] at hX
    obtain ⟨y, hy, hv⟩ := get32_value r
      ((acc + (acc + ((m.withCode (code4 R)).enc.DecodeBit 1 1
        { data := R.drop 4, eof := ef }).1)) % 2 ^ 32)
      { m.withCode (code4 R) with
        enc := ((m.withCode (code4 R)).enc.DecodeBit 1 1 { data := R.drop 4, eof := ef }).2.1 }
      ((m.withCode (code4 R)).enc.DecodeBit 1 1 { data := R.drop 4, eof := ef }).2.2
      (Nat.mod_lt _ (by norm_num))
    have hb1 : (if code4 R ≤ Encoder.mid 1 1 m.enc then 1 else 0) ≤ 1 := by
      split <;> omega
    have hbit : X / 2 ^ r % 2 = (if code4 R ≤ Encoder.mid 1 1 m.enc then 1 else 0) := by
      rw [← hX, hv, hdec1]
      exact bit_of_value acc _ y r hb1 hy (by omega)
    rw [put32Spec, hbit] at hlen ⊢
    simp only [List.length_append] at hlen ⊢
    obtain ⟨hR1, hcov1, hd⟩ := Encoder.decode_led 1 1 m.enc hinv (by norm_num) (by norm_num) R ef
      hcov (by omega)
    have hinv1 := (Encoder.encode_sync 1 (if code4 R ≤ Encoder.mid 1 1 m.enc then 1 else 0) 1
      m.enc hinv (by norm_num) (by norm_num) [] false).1
    have hd2 : (m.withCode (code4 R)).enc.DecodeBit 1 1 { data := R.drop 4, eof := ef }
        = ((if code4 R ≤ Encoder.mid 1 1 m.enc then 1 else 0),
          (Encoder.EncodeBit 1 (if code4 R ≤ Encoder.mid 1 1 m.enc then 1 else 0) 1 m.enc).1.withCode
            (code4 (R.drop (Encoder.EncodeBit 1
              (if code4 R ≤ Encoder.mid 1 1 m.enc then 1 else 0) 1 m.enc).2.length)),
          { data := (R.drop (Encoder.EncodeBit 1
              (if code4 R ≤ Encoder.mid 1 1 m.enc then 1 else 0) 1 m.enc).2.length).drop 4,
            eof := ef }) := hd
    rw [hd2] at hX
    obtain ⟨i1, i2⟩ := ih (by omega)
      { m with enc := (Encoder.EncodeBit 1 (if code4 R ≤ Encoder.mid 1 1 m.enc then 1 else 0) 1
        m.enc).1 }
      ((acc + (acc + (if code4 R ≤ Encoder.mid 1 1 m.enc then 1 else 0))) % 2 ^ 32)
      (R.drop (Encoder.EncodeBit 1 (if code4 R ≤ Encoder.mid 1 1 m.enc then 1 else 0) 1
        m.enc).2.length) ef X (Nat.mod_lt _ (by norm_num)) hinv1 hcov1 hX
      (by rw [List.length_drop]; omega)
    rw [List.drop_drop] at i1 i2
    refine ⟨?_, i2⟩
    rw [List.append_assoc, ← i1]
    exact hR1

end CM

namespace Encoder

theorem renormEnc_nil (k : Nat) (e : Encoder) (h : (renormEnc k e).2 = []) :
    (renormEnc k e).1 = e := by
  cases k with
  | zero => rfl
  | succ k =>
    by_cases hc : e.low ^^^ e.high < 1 <<< 24
    · rw [renormEnc, if_pos hc] at h
      simp at h
    · rw [renormEnc, if_neg hc]

/-- A bit coded with probability one half leaves at most half the width. -/
theorem narrow_width (bit : Nat) (e : Encoder) (h : e.Inv) :
    (narrow bit (mid 1 1 e) e).high - (narrow bit (mid 1 1 e) e).low ≤ (e.high - e.low) / 2 := by
  have hm := mid_eq 1 1 e h.1 (by norm_num) (by norm_num)
  have hlt := inv_lt e h
  have hhi := h.1.2
  rw [pow_one, Nat.mul_one] at hm
  unfold narrow
  by_cases hb : bit ≠ 0
  · simp only [if_pos hb]
    rw [hm]
    omega
  · simp only [if_neg hb]
    rw [hm]
    omega

end Encoder

namespace CM

/-- The bits of a `Put32` written from an interval of width below `2^r`
produce at least one byte within `r` bits. -/
theorem put32Spec_nonempty : ∀ (r x : Nat) (m : CM), m.enc.Inv →
    m.enc.high - m.enc.low < 2 ^ r → (put32Spec r x m).2 ≠ [] := by
  intro r
  induction r with
  | zero =>
    intro x m hinv hw
    have := Encoder.inv_lt m.enc hinv
    simp at hw
    omega
  | succ r ih =>
    intro x m hinv hw
    rw [put32Spec]
    simp only []
    by_cases he : (m.enc.EncodeBit 1 (x / 2 ^ r % 2) 1).2 = []
    · have hinv1 := (Encoder.encode_sync 1 (x / 2 ^ r % 2) 1 m.enc hinv (by norm_num)
        (by norm_num) [] false).1
      have hst : (m.enc.EncodeBit 1 (x / 2 ^ r % 2) 1).1
          = Encoder.narrow (x / 2 ^ r % 2) (Encoder.mid 1 1 m.enc) m.enc :=
        Encoder.renormEnc_nil 4 _ he
      have hwd := Encoder.narrow_width (x / 2 ^ r % 2) m.enc hinv
      rw [← hst] at hwd
      have hpow : 2 ^ (r + 1) = 2 * 2 ^ r := by ring
      rw [hpow] at hw
      have hne := ih x { m with enc := (m.enc.EncodeBit 1 (x / 2 ^ r % 2) 1).1 } hinv1
        (by
          show (m.enc.EncodeBit 1 (x / 2 ^ r % 2) 1).1.high
            - (m.enc.EncodeBit 1 (x / 2 ^ r % 2) 1).1.low < 2 ^ r
          omega)
      rw [he, List.nil_append]
      exact hne
    · intro h
      exact he (List.append_eq_nil.mp h).1

/-- `Put32` writes at least one byte. -/
theorem put32_nonempty (x : Nat) (m : CM) (hinv : m.enc.Inv) : (m.Put32 x).2 ≠ [] := by
  unfold Put32
  rw [masks32_eq, put32Loop_eq_spec]
  apply put32Spec_nonempty 32 x m hinv
  have := hinv.1.2
  omega

end CM

theorem code4_append (X Y : List Nat) (h : 4 ≤ X.length) : code4 (X ++ Y) = code4 X := by
  match X, h with
  | a :: b :: c :: d :: rest, _ => rfl

/-- The four bytes written by `Flush`. -/
theorem flush_bytes (e : Encoder) : ∃ g0 g1 g2 g3, (Encoder.Flush e).2 = [g0, g1, g2, g3] :=
  ⟨_, _, _, _, rfl⟩

theorem CM.put32_eq_spec (x : Nat) (m : CM) : m.Put32 x = put32Spec 32 x m := by
  have h : m.Put32 x = CM.put32Loop CM.masks32 x m := rfl
  rw [h, CM.masks32_eq, CM.put32Loop_eq_spec]

/-- The trailer with the last byte of `Flush` replaced by `v`: the decoder
reads the end marker, and the stored CRC it reads is the one written exactly
when the last four bytes still denote a number in the final interval. -/
theorem trailer_modified (cm1 : CM) (crc1 : Nat) (hinv : cm1.enc.Inv) (hcrc : crc1 < 2 ^ 32)
    (v : Nat) (hv : v < 256) :
    ∃ g0 g1 g2 g3,
      (Encoder.Flush ((cm1.Put32 0).1.Put32 (CRC.value crc1)).1.enc).2 = [g0, g1, g2, g3]
      ∧ cm1.enc.Covers ((cm1.Put32 0).2 ++ (((cm1.Put32 0).1.Put32 (CRC.value crc1)).2
          ++ [g0, g1, g2, v]))
      ∧ ∀ (j : Nat) (alloc : Int) (ptr : Int → Int),
        decompressLoop (j + 1)
            (cm1.withCode (code4 ((cm1.Put32 0).2 ++ (((cm1.Put32 0).1.Put32 (CRC.value crc1)).2
              ++ [g0, g1, g2, v]))))
            { data := ((cm1.Put32 0).2 ++ (((cm1.Put32 0).1.Put32 (CRC.value crc1)).2
              ++ [g0, g1, g2, v])).drop 4, eof := false } crc1 alloc ptr
          = { out := [],
              failure :=
                if ((cm1.Put32 0).1.Put32 (CRC.value crc1)).1.enc.low ≤ code4 [g0, g1, g2, v]
                    ∧ code4 [g0, g1, g2, v] ≤ ((cm1.Put32 0).1.Put32 (CRC.value crc1)).1.enc.high
                then none else some .crc } := by
  obtain ⟨g0, g1, g2, g3, hG⟩ :=
    flush_bytes ((cm1.Put32 0).1.Put32 (CRC.value crc1)).1.enc
  refine ⟨g0, g1, g2, g3, hG, ?_⟩
  have hx := crc_value_lt _ hcrc
  obtain ⟨hinv1, _, _⟩ := CM.put32_sync 0 (by norm_num) cm1 hinv [] false
  obtain ⟨hinv2, _, hs2⟩ := CM.put32_sync (CRC.value crc1) hx (cm1.Put32 0).1
    hinv1 (Encoder.Flush ((cm1.Put32 0).1.Put32 (CRC.value crc1)).1.enc).2 false
  obtain ⟨hcov2, _⟩ := hs2 (Encoder.flush_covers _ hinv2.1)
  rw [hG] at hcov2
  have hE2 := CM.put32_nonempty (CRC.value crc1) (cm1.Put32 0).1 hinv1
  generalize hE : ((cm1.Put32 0).1.Put32 (CRC.value crc1)).2 = E2 at hcov2 hE2 ⊢
  have hstrG : IsStream [g0, g1, g2, v] := by
    refine ⟨by simp, ?_⟩
    intro b hb
    simp only [List.mem_cons, List.mem_singleton, List.not_mem_nil, or_false] at hb
    rcases hb with h | h | h | h
    · rw [h]; exact hcov2.1.2 g0 (by simp)
    · rw [h]; exact hcov2.1.2 g1 (by simp)
    · rw [h]; exact hcov2.1.2 g2 (by simp)
    · rw [h]; exact hv
  have hstr2 : IsStream (E2 ++ [g0, g1, g2, v]) := by
    refine ⟨by simp, ?_⟩
    intro b hb
    rcases List.mem_append.mp hb with h | h
    · exact hcov2.1.2 b (List.mem_append_left _ h)
    · exact hstrG.2 b h
  have hcode : code4 (E2 ++ [g0, g1, g2, v]) = code4 (E2 ++ [g0, g1, g2, g3]) := by
    have h1 : E2 ++ [g0, g1, g2, v] = (E2 ++ [g0, g1, g2]) ++ [v] := by simp
    have h2 : E2 ++ [g0, g1, g2, g3] = (E2 ++ [g0, g1, g2]) ++ [g3] := by simp
    have hl : 4 ≤ (E2 ++ [g0, g1, g2]).length := by
      have := List.length_pos.mpr hE2
      simp only [List.length_append, List.length_cons, List.length_nil]
      omega
    rw [h1, h2, code4_append _ _ hl, code4_append _ _ hl]
  have hcov2v : (cm1.Put32 0).1.enc.Covers (E2 ++ [g0, g1, g2, v]) :=
    ⟨hstr2, by rw [hcode]; exact hcov2.2.1, by rw [hcode]; exact hcov2.2.2⟩
  obtain ⟨_, _, hs1⟩ := CM.put32_sync 0 (by norm_num) cm1 hinv (E2 ++ [g0, g1, g2, v]) false
  obtain ⟨hcov1, hdec1⟩ := hs1 hcov2v
  refine ⟨hcov1, fun j alloc ptr => ?_⟩
  rw [decompressLoop_succ]
  unfold decompressStep
  simp only [hdec1, classify_stop_zero]
  by_cases hin : ((cm1.Put32 0).1.Put32 (CRC.value crc1)).1.enc.low ≤ code4 [g0, g1, g2, v]
      ∧ code4 [g0, g1, g2, v] ≤ ((cm1.Put32 0).1.Put32 (CRC.value crc1)).1.enc.high
  · rw [if_pos hin]
    obtain ⟨_, _, hs3⟩ := CM.put32_sync (CRC.value crc1) hx (cm1.Put32 0).1 hinv1
      [g0, g1, g2, v] false
    obtain ⟨_, hdec3⟩ := hs3 ⟨hstrG, hin.1, hin.2⟩
    rw [hE] at hdec3
    rw [hdec3]
    simp
  · rw [if_neg hin]
    have hne : (CM.Get32 ((cm1.Put32 0).1.withCode (code4 (E2 ++ [g0, g1, g2, v])))
        { data := (E2 ++ [g0, g1, g2, v]).drop 4, eof := false }).1 ≠ CRC.value crc1 := by
      intro heq
      apply hin
      have hspec : (put32Spec 32 (CRC.value crc1) (cm1.Put32 0).1)
          = (cm1.Put32 0).1.Put32 (CRC.value crc1) :=
        (CM.put32_eq_spec (CRC.value crc1) (cm1.Put32 0).1).symm
      have hled := CM.get32_led 32 (le_refl _) (cm1.Put32 0).1 0 (E2 ++ [g0, g1, g2, v]) false
        (CRC.value crc1) (by norm_num) hinv1 hcov2v heq
        (by rw [hspec, hE]; simp)
      rw [hspec, hE, List.drop_left] at hled
      exact ⟨hled.2.2.1, hled.2.2.2⟩
    rw [if_pos hne]

/-- `Flush` writes `low`, most significant byte first. -/
theorem flush_code (e : Encoder) (h : e.low < 2 ^ 32) : code4 (Encoder.Flush e).2 = e.low := by
  have hb : ∀ x : Nat, putc (x >>> 24) = x / 2 ^ 24 % 256 := by
    intro x; unfold putc; rw [Nat.shiftRight_eq_div_pow]
  have hs : ∀ x : Nat, (x <<< 8) % 2 ^ 32 = x * 256 % 2 ^ 32 := by
    intro x; rw [Nat.shiftLeft_eq]
  simp only [Encoder.Flush, Encoder.flushLoop, hb, hs, code4]
  omega

/-- What `Compress` writes before the trailer is read back by the loop of
`Decompress`, which then goes on in the encoder's state, looking at what
follows. -/
theorem compress_sync (bwt : List Nat → List Nat × Int) (bsize : Nat) (S : List Nat)
    (hb1 : 1 ≤ bsize) (hb2 : bsize < 2 ^ 31) (hS : ∀ b ∈ S, b < 256)
    (hbwt : ∀ B, B ≠ [] → (∀ b ∈ B, b < 256) → IsBWT B (bwt B).1 (bwt B).2) :
    ∃ cm1 crc1 out nb,
      compressLoop bwt (effectiveBsize bsize S.length) (S.length + 1) S CM.init CRC.init
        = .ok (cm1, crc1, out)
      ∧ nb ≤ S.length ∧ cm1.enc.Inv ∧ crc1 < 2 ^ 32
      ∧ ∀ F, cm1.enc.Covers F → ∃ (alloc1 : Int) (ptr1 : Int → Int), ∀ j,
          Decompress (j + nb) (out ++ F)
            = { out := S ++ (decompressLoop j (cm1.withCode (code4 F))
                  { data := F.drop 4, eof := false } crc1 alloc1 ptr1).out,
                failure := (decompressLoop j (cm1.withCode (code4 F))
                  { data := F.drop 4, eof := false } crc1 alloc1 ptr1).failure } := by
  by_cases hemp : S = []
  · subst hemp
    refine ⟨CM.init, CRC.init, [], 0, ?_, le_refl _, CM.model_init_inv,
      by unfold CRC.init; norm_num, ?_⟩
    · rw [compressLoop_succ, compressStep]
      simp
    · intro F hcov
      refine ⟨0, fun _ => 0, fun j => ?_⟩
      unfold Decompress
      rw [List.nil_append, Nat.add_zero, CM.start_eq _ hcov.1]
      simp
  · have hlen0 : 0 < S.length := List.length_pos.mpr hemp
    have hbs1 : 1 ≤ effectiveBsize bsize S.length := by unfold effectiveBsize; split <;> omega
    have hbs2 : effectiveBsize bsize S.length < 2 ^ 31 := by
      unfold effectiveBsize; split <;> omega
    obtain ⟨cm1, crc1, out, nb, hcl, hnb, hinv1, _, hcrc1, hrest⟩ :=
      loop_sync bwt (effectiveBsize bsize S.length) hbs1 hbs2 hbwt
        (S.length + 1) S CM.init CRC.init (by omega) hS CM.model_init_inv CM.init_bounded
        (by unfold CRC.init; norm_num)
    refine ⟨cm1, crc1, out, nb, hcl, hnb, hinv1, hcrc1, ?_⟩
    intro F hcov
    obtain ⟨hcov0, hdec⟩ := hrest F hcov
    obtain ⟨alloc1, ptr1, hloop⟩ := hdec 0 (fun _ => 0) (Or.inl rfl)
    refine ⟨alloc1, ptr1, fun j => ?_⟩
    unfold Decompress
    rw [CM.start_eq _ hcov0.1, hloop j]

/-- C17 (as stated, refuted): for the empty input `Compress` writes
`FF FF FF FF FF FF FF FF 00 00 00 00`; with the final byte replaced by `01`
`Decompress` still returns normally, without `CRC error!`. -/
theorem C17_counterexample :
    Compress bwtSort 1 []
      = .ok [0xFF, 0xFF, 0xFF, 0xFF, 0xFF, 0xFF, 0xFF, 0xFF, 0x00, 0x00, 0x00, 0x00]
    ∧ ([0xFF, 0xFF, 0xFF, 0xFF, 0xFF, 0xFF, 0xFF, 0xFF, 0x00, 0x00, 0x00, 0x00] : List Nat).dropLast
        ++ [0x01]
      = [0xFF, 0xFF, 0xFF, 0xFF, 0xFF, 0xFF, 0xFF, 0xFF, 0x00, 0x00, 0x00, 0x01]
    ∧ (0x01 : Nat) ≠ 0x00
    ∧ Decompress 1 [0xFF, 0xFF, 0xFF, 0xFF, 0xFF, 0xFF, 0xFF, 0xFF, 0x00, 0x00, 0x00, 0x01]
      = { out := [], failure := none }
    ∧ (Decompress 1 [0xFF, 0xFF, 0xFF, 0xFF, 0xFF, 0xFF, 0xFF, 0xFF, 0x00, 0x00, 0x00, 0x01]).failure
      ≠ some .crc := by
  have hd : Decompress 1 [0xFF, 0xFF, 0xFF, 0xFF, 0xFF, 0xFF, 0xFF, 0xFF, 0x00, 0x00, 0x00, 0x01]
      = { out := [], failure := none } := by rfl
  refine ⟨?_, by rfl, by decide, hd, ?_⟩
  · rw [compress_nil]
    rfl
  · rw [hd]
    simp

/-- C17 (amended): with the final byte of the stream written by `Compress`
replaced by any byte `v`, `Decompress` writes all of `S` and then ends
normally when the last four bytes `g0 g1 g2 v` still denote a number in the
coder's final interval `[low, high]`, and with `CRC error!` otherwise. `Flush`
wrote `low` as `g0 g1 g2 g3`, so the number stays at or above `low` exactly
when `v ≥ g3`: every smaller `v` gives `CRC error!`, and a larger `v` gives
none unless it leaves the interval at `high`. -/
theorem C17_last_byte_replaced (bwt : List Nat → List Nat × Int) (bsize : Nat) (S : List Nat)
    (v : Nat) (hb1 : 1 ≤ bsize) (hb2 : bsize < 2 ^ 31) (hS : ∀ b ∈ S, b < 256)
    (hbwt : ∀ B, B ≠ [] → (∀ b ∈ B, b < 256) → IsBWT B (bwt B).1 (bwt B).2) (hv : v < 256) :
    ∃ (cm1 : CM) (crc1 : Nat) (out : List Nat) (g0 g1 g2 g3 : Nat),
      compressLoop bwt (effectiveBsize bsize S.length) (S.length + 1) S CM.init CRC.init
        = .ok (cm1, crc1, out)
      ∧ (Encoder.Flush ((cm1.Put32 0).1.Put32 (CRC.value crc1)).1.enc).2 = [g0, g1, g2, g3]
      ∧ ((cm1.Put32 0).1.Put32 (CRC.value crc1)).1.enc.low = code4 [g0, g1, g2, g3]
      ∧ ((cm1.Put32 0).1.Put32 (CRC.value crc1)).1.enc.low
          ≤ ((cm1.Put32 0).1.Put32 (CRC.value crc1)).1.enc.high
      ∧ ((cm1.Put32 0).1.Put32 (CRC.value crc1)).1.enc.high < 2 ^ 32
      ∧ Compress bwt bsize S
          = .ok (out ++ (cm1.Put32 0).2 ++ ((cm1.Put32 0).1.Put32 (CRC.value crc1)).2
              ++ [g0, g1, g2, g3])
      ∧ (out ++ (cm1.Put32 0).2 ++ ((cm1.Put32 0).1.Put32 (CRC.value crc1)).2
            ++ [g0, g1, g2, g3]).dropLast ++ [v]
          = out ++ (cm1.Put32 0).2 ++ ((cm1.Put32 0).1.Put32 (CRC.value crc1)).2
              ++ [g0, g1, g2, v]
      ∧ (((cm1.Put32 0).1.Put32 (CRC.value crc1)).1.enc.low ≤ code4 [g0, g1, g2, v] ↔ g3 ≤ v)
      ∧ ∀ fuel, S.length + 1 ≤ fuel →
          Decompress fuel (out ++ (cm1.Put32 0).2 ++ ((cm1.Put32 0).1.Put32 (CRC.value crc1)).2
              ++ [g0, g1, g2, v])
            = { out := S,
                failure :=
                  if ((cm1.Put32 0).1.Put32 (CRC.value crc1)).1.enc.low ≤ code4 [g0, g1, g2, v]
                      ∧ code4 [g0, g1, g2, v]
                        ≤ ((cm1.Put32 0).1.Put32 (CRC.value crc1)).1.enc.high
                  then none else some .crc } := by
  obtain ⟨cm1, crc1, out, nb, hcl, hnb, hinv1, hcrc1, hrest⟩ :=
    compress_sync bwt bsize S hb1 hb2 hS hbwt
  obtain ⟨g0, g1, g2, g3, hG, hcovT, hdecT⟩ := trailer_modified cm1 crc1 hinv1 hcrc1 v hv
  obtain ⟨hinv2, _, _⟩ := CM.put32_sync 0 (by norm_num) cm1 hinv1 [] false
  obtain ⟨hinv3, _, _⟩ := CM.put32_sync (CRC.value crc1) (crc_value_lt _ hcrc1) (cm1.Put32 0).1
    hinv2 [] false
  have hlow : ((cm1.Put32 0).1.Put32 (CRC.value crc1)).1.enc.low = code4 [g0, g1, g2, g3] := by
    rw [← hG, flush_code]
    have := hinv3.1.1
    have := hinv3.1.2
    omega
  have hcovG := Encoder.flush_covers _ hinv3.1
  rw [hG] at hcovG
  refine ⟨cm1, crc1, out, g0, g1, g2, g3, hcl, hG, hlow, hinv3.1.1, hinv3.1.2, ?_, ?_, ?_, ?_⟩
  · rw [compress_unfold, hcl]
    simp only [hG]
  · rw [List.dropLast_append_of_ne_nil _ (by simp)]
    simp
  · rw [hlow]
    have h3 := hcovG.1.2 g3 (by simp)
    simp only [code4]
    omega
  · intro fuel hf
    obtain ⟨alloc1, ptr1, hloop⟩ := hrest _ hcovT
    obtain ⟨j, rfl⟩ : ∃ j, fuel = (j + 1) + nb := ⟨fuel - nb - 1, by omega⟩
    have hform : out ++ (cm1.Put32 0).2 ++ ((cm1.Put32 0).1.Put32 (CRC.value crc1)).2
          ++ [g0, g1, g2, v]
        = out ++ ((cm1.Put32 0).2 ++ (((cm1.Put32 0).1.Put32 (CRC.value crc1)).2
          ++ [g0, g1, g2, v])) := by
      simp only [List.append_assoc]
    rw [hform, hloop (j + 1), hdecT j alloc1 ptr1]
    simp

theorem C17_last_byte_replaced_witness :
    1 ≤ 1 ∧ 1 < 2 ^ 31 ∧ (∀ b ∈ ([0x41] : List Nat), b < 256)
    ∧ (∀ B, B ≠ [] → (∀ b ∈ B, b < 256) → IsBWT B (bwtSort B).1 (bwtSort B).2)
    ∧ 1 < 256
    ∧ ∃ (cm1 : CM) (crc1 : Nat) (out : List Nat) (g0 g1 g2 g3 : Nat),
      compressLoop bwtSort (effectiveBsize 1 ([0x41] : List Nat).length)
          (([0x41] : List Nat).length + 1) [0x41] CM.init CRC.init
        = .ok (cm1, crc1, out)
      ∧ (Encoder.Flush ((cm1.Put32 0).1.Put32 (CRC.value crc1)).1.enc).2 = [g0, g1, g2, g3]
      ∧ ((cm1.Put32 0).1.Put32 (CRC.value crc1)).1.enc.low = code4 [g0, g1, g2, g3]
      ∧ ((cm1.Put32 0).1.Put32 (CRC.value crc1)).1.enc.low
          ≤ ((cm1.Put32 0).1.Put32 (CRC.value crc1)).1.enc.high
      ∧ ((cm1.Put32 0).1.Put32 (CRC.value crc1)).1.enc.high < 2 ^ 32
      ∧ Compress bwtSort 1 [0x41]
          = .ok (out ++ (cm1.Put32 0).2 ++ ((cm1.Put32 0).1.Put32 (CRC.value crc1)).2
              ++ [g0, g1, g2, g3])
      ∧ (out ++ (cm1.Put32 0).2 ++ ((cm1.Put32 0).1.Put32 (CRC.value crc1)).2
            ++ [g0, g1, g2, g3]).dropLast ++ [1]
          = out ++ (cm1.Put32 0).2 ++ ((cm1.Put32 0).1.Put32 (CRC.value crc1)).2
              ++ [g0, g1, g2, 1]
      ∧ (((cm1.Put32 0).1.Put32 (CRC.value crc1)).1.enc.low ≤ code4 [g0, g1, g2, 1] ↔ g3 ≤ 1)
      ∧ ∀ fuel, ([0x41] : List Nat).length + 1 ≤ fuel →
          Decompress fuel (out ++ (cm1.Put32 0).2 ++ ((cm1.Put32 0).1.Put32 (CRC.value crc1)).2
              ++ [g0, g1, g2, 1])
            = { out := [0x41],
                failure :=
                  if ((cm1.Put32 0).1.Put32 (CRC.value crc1)).1.enc.low ≤ code4 [g0, g1, g2, 1]
                      ∧ code4 [g0, g1, g2, 1]
                        ≤ ((cm1.Put32 0).1.Put32 (CRC.value crc1)).1.enc.high
                  then none else some .crc } :=
  ⟨by decide, by norm_num, by simp, fun B _ _ => bwtSort_isBWT B, by decide,
    C17_last_byte_replaced bwtSort 1 [0x41] 1 (by decide) (by norm_num) (by simp)
      (fun B _ _ => bwtSort_isBWT B) (by decide)⟩

end BCM
